import Mathlib

/-!
# A shallow embedding of `ninja.h`

The C++ objects live on the heap and refer to each other through raw pointers.
The embedding keeps one arena per class (`files`, `nodes`, `rules`, `edges`);
a pointer is an index into the arena of its class, `new` appends to the arena,
and a null pointer is `none`.  A `std::string` is a list of characters, a
`std::map` is an association list with unique keys, a `std::vector` is a list.

An operation returns `none` where the C++ program does not return normally:
a failed `assert` (the program aborts), a dereference of a pointer that is not
in the arena, or an exhausted recursion budget (see `Node.MarkDirty` and
`Plan.AddTarget`).
-/

namespace Ninja

/-- The model of `std::string`. -/
abbrev Str := List Char

/-- Model of `struct FileStat`. -/
structure FileStat where
  path_ : Str
  mtime_ : Int
  node_ : Option Nat
  deriving DecidableEq, Repr

/-- Model of `struct Node`. -/
structure Node where
  file_ : Nat
  dirty_ : Bool
  in_edge_ : Option Nat
  out_edges_ : List Nat
  deriving DecidableEq, Repr

/-- Model of `enum EvalString::TokenType`. -/
inductive TokenType where
  | RAW
  | SPECIAL
  deriving DecidableEq, Repr

/-- Model of `EvalString::TokenList`. -/
abbrev TokenList := List (Str × TokenType)

/-- Model of `struct EvalString`. -/
structure EvalString where
  unparsed_ : Str
  parsed_ : TokenList
  deriving DecidableEq, Repr

/-- Model of `struct Rule`. -/
structure Rule where
  name_ : Str
  command_ : EvalString
  deriving DecidableEq, Repr

/-- Model of `enum Edge::InOut`. -/
inductive InOut where
  | IN
  | OUT
  deriving DecidableEq, Repr

/-- Model of `struct Edge`. -/
structure Edge where
  rule_ : Option Nat
  inputs_ : List Nat
  outputs_ : List Nat
  deriving DecidableEq, Repr

/-- Model of `struct StatCache`: `paths_` maps a path to a `FileStat*`. -/
structure StatCache where
  paths_ : List (Str × Nat)
  deriving DecidableEq, Repr

/-- Model of `struct State` together with the heap its pointers point into:
`files`, `nodes`, `rules` and `edges` are the arenas, the other three fields are
the members of the C++ struct. -/
structure State where
  files : List FileStat
  nodes : List Node
  rules : List Rule
  edges : List Edge
  stat_cache_ : StatCache
  rules_ : List (Str × Option Nat)
  edges_ : List Nat
  deriving DecidableEq, Repr

/-- The state right after `State` is default-constructed. -/
def State.empty : State :=
  { files := [], nodes := [], rules := [], edges := [],
    stat_cache_ := { paths_ := [] }, rules_ := [], edges_ := [] }

/-! ## Template evaluator -/

/-- The characters of the set `"@$"`. -/
def isSigil (c : Char) : Bool := c == '@' || c == '$'

/-- The test `'a' <= c && c <= 'z'`. -/
def isLower (c : Char) : Bool := decide ('a' ≤ c) && decide (c ≤ 'z')

/-- Model of `input.find_first_of("@$", start)`; `none` is `string::npos`. -/
def find_first_of (input : Str) (start : Nat) : Option Nat :=
  let i := (input.drop start).findIdx isSigil
  if start + i < input.length then some (start + i) else none

/-- Model of `input.substr(pos, n)`. -/
def substr (input : Str) (pos n : Nat) : Str := (input.drop pos).take n

/-- The inner `for` loop of `EvalString::Parse`: starting with `end = from`,
advance `end` while `end < input.size()` and `input[end]` is in `a..z`. -/
def scanLower (input : Str) (pos : Nat) : Nat :=
  pos + ((input.drop pos).takeWhile isLower).length

/-- The `do ... while` loop of `EvalString::Parse` and the statements after it.
The first argument bounds the number of iterations; `none` means the bound was
reached.  The result is the return value and the token list. -/
def EvalString.parseLoop (input : Str) : Nat → Nat → TokenList → Option (Bool × TokenList)
  | 0, _, _ => none
  | fuel + 1, start, parsed =>
    match find_first_of input start with
    | none =>
      let end_ := input.length
      some (true,
        if end_ > start then parsed ++ [(substr input start (end_ - start), TokenType.RAW)]
        else parsed)
    | some end_ =>
      let parsed1 :=
        if end_ > start then parsed ++ [(substr input start (end_ - start), TokenType.RAW)]
        else parsed
      let start1 := end_
      let end1 := scanLower input (start1 + 1)
      if end1 = start1 + 1 then some (false, parsed1)
      else
        let parsed2 := parsed1 ++ [(substr input start1 (end1 - start1), TokenType.SPECIAL)]
        let start2 := end1
        if end1 < input.length then EvalString.parseLoop input fuel start2 parsed2
        else
          some (true,
            if end1 > start2 then
              parsed2 ++ [(substr input start2 (end1 - start2), TokenType.RAW)]
            else parsed2)

/-- Model of `EvalString::Parse`: the return value and the object afterwards.
Every iteration of the loop consumes at least one character, so
`input.length + 1` iterations are enough (`EvalString.Parse_isSome`). -/
def EvalString.Parse (self : EvalString) (input : Str) : Option (Bool × EvalString) :=
  (EvalString.parseLoop input (input.length + 1) 0 self.parsed_).map
    fun r => (r.1, { unparsed_ := input, parsed_ := r.2 })

/-- A freshly constructed `EvalString`. -/
def EvalString.fresh : EvalString := { unparsed_ := [], parsed_ := [] }

/-- The loop of `EvalString::Evaluate`: `result` is the string built so far. -/
def EvalString.evalLoop (env : Str → Option Str) : TokenList → Str → Option Str
  | [], result => some result
  | tok :: rest, result =>
    if tok.2 = TokenType.RAW then EvalString.evalLoop env rest (result ++ tok.1)
    else
      match env tok.1 with
      | none => none
      | some v => EvalString.evalLoop env rest (result ++ v)

/-- Model of `EvalString::Evaluate`.  The resolver `Env::Evaluate` is the
function `env`, which gives `none` when the call does not return. -/
def EvalString.Evaluate (self : EvalString) (env : Str → Option Str) : Option Str :=
  EvalString.evalLoop env self.parsed_ []

/-- Model of the constructor `Rule::Rule`: `none` when the `assert` fails.  The
call of `Parse` is the argument of the `assert`, so this is the constructor of
a build in which assertions are compiled in. -/
def Rule.new (name command : Str) : Option Rule :=
  match EvalString.fresh.Parse command with
  | some (true, cmd) => some { name_ := name, command_ := cmd }
  | _ => none

/-! ## Graph building -/

/-- Model of `map::operator[]` followed by an assignment. -/
def mapSet {V : Type} : List (Str × V) → Str → V → List (Str × V)
  | [], k, v => [(k, v)]
  | (k1, v1) :: m, k, v => if k1 = k then (k, v) :: m else (k1, v1) :: mapSet m k v

/-- Model of `StatCache::GetFile`, on the cache of the state. -/
def State.GetFile (s : State) (path : Str) : State × Nat :=
  match s.stat_cache_.paths_.lookup path with
  | some f => (s, f)
  | none =>
    let f := s.files.length
    ({ s with
        files := s.files ++ [{ path_ := path, mtime_ := 0, node_ := none }],
        stat_cache_ := { paths_ := s.stat_cache_.paths_ ++ [(path, f)] } }, f)

/-- Model of `State::GetNode`. -/
def State.GetNode (s : State) (path : Str) : Option (State × Nat) :=
  match s.GetFile path with
  | (s1, f) =>
    match s1.files[f]? with
    | none => none
    | some file =>
      match file.node_ with
      | some n => some (s1, n)
      | none =>
        let n := s1.nodes.length
        some ({ s1 with
                 nodes := s1.nodes ++
                   [{ file_ := f, dirty_ := false, in_edge_ := none, out_edges_ := [] }],
                 files := s1.files.set f { file with node_ := some n } }, n)

/-- Model of `State::AddRule`. -/
def State.AddRule (s : State) (name command : Str) : Option (State × Nat) :=
  match Rule.new name command with
  | none => none
  | some rule =>
    let r := s.rules.length
    some ({ s with rules := s.rules ++ [rule], rules_ := mapSet s.rules_ name (some r) }, r)

/-- Model of `State::AddEdge(Rule*)`. -/
def State.AddEdge (s : State) (rule : Option Nat) : State × Nat :=
  let e := s.edges.length
  ({ s with
      edges := s.edges ++ [{ rule_ := rule, inputs_ := [], outputs_ := [] }],
      edges_ := s.edges_ ++ [e] }, e)

/-- Model of `State::AddEdge(const string&)`: `rules_[rule_name]` inserts a null
entry when the name is not in the map. -/
def State.AddEdgeByName (s : State) (rule_name : Str) : State × Nat :=
  match s.rules_.lookup rule_name with
  | some rule => s.AddEdge rule
  | none => { s with rules_ := s.rules_ ++ [(rule_name, none)] }.AddEdge none

/-- Model of `State::AddInOut`: `none` when the `assert` fails. -/
def State.AddInOut (s : State) (edge : Nat) (inout : InOut) (path : Str) : Option State :=
  match s.GetNode path with
  | none => none
  | some (s1, node) =>
    match s1.edges[edge]?, s1.nodes[node]? with
    | some e, some nd =>
      match inout with
      | InOut.IN =>
        some { s1 with
          edges := s1.edges.set edge { e with inputs_ := e.inputs_ ++ [node] },
          nodes := s1.nodes.set node { nd with out_edges_ := nd.out_edges_ ++ [edge] } }
      | InOut.OUT =>
        if nd.in_edge_ ≠ none then none
        else
          some { s1 with
            edges := s1.edges.set edge { e with outputs_ := e.outputs_ ++ [node] },
            nodes := s1.nodes.set node { nd with in_edge_ := some edge } }
    | _, _ => none

/-! ## Edge environment -/

/-- The string `node->file_->path_`. -/
def State.nodePath (s : State) (node : Nat) : Option Str :=
  match s.nodes[node]? with
  | none => none
  | some nd =>
    match s.files[nd.file_]? with
    | none => none
    | some file => some file.path_

/-- The loop of the `@in` branch of `EdgeEnv::Evaluate`. -/
def EdgeEnv.joinInputs (s : State) : List Nat → Str → Option Str
  | [], result => some result
  | i :: rest, result =>
    match s.nodePath i with
    | none => none
    | some path =>
      EdgeEnv.joinInputs s rest ((if result ≠ [] then result ++ [' '] else result) ++ path)

/-- Model of `EdgeEnv::Evaluate` for the environment of the edge `edge_`; `none`
when a pointer is dangling or `outputs_[0]` does not exist. -/
def EdgeEnv.Evaluate (s : State) (edge_ : Nat) (var : Str) : Option Str :=
  if var = ['@', 'i', 'n'] then
    match s.edges[edge_]? with
    | none => none
    | some e => EdgeEnv.joinInputs s e.inputs_ []
  else if var = ['$', 'o', 'u', 't'] then
    match s.edges[edge_]? with
    | none => none
    | some e =>
      match e.outputs_[0]? with
      | none => none
      | some o => s.nodePath o
  else some []

/-- Model of `Edge::EvaluateCommand`. -/
def Edge.EvaluateCommand (s : State) (edge : Nat) : Option Str :=
  match s.edges[edge]? with
  | none => none
  | some e =>
    match e.rule_ with
    | none => none
    | some r =>
      match s.rules[r]? with
      | none => none
      | some rule => rule.command_.Evaluate (EdgeEnv.Evaluate s edge)

/-! ## Dirtiness propagation -/

/-- A `for` loop over a vector whose body updates the state: the body is run on
the elements in order, and the loop does not return once the body does not. -/
def forEach (body : State → Nat → Option State) : List Nat → State → Option State
  | [], s => some s
  | x :: xs, s =>
    match body s x with
    | none => none
    | some s1 => forEach body xs s1

/-- The body of `Edge::MarkDirty`, the call `(*i)->MarkDirty()` being the
parameter `markNode`. -/
def Edge.MarkDirtyWith (markNode : State → Nat → Option State)
    (s : State) (edge node : Nat) : Option State :=
  match s.edges[edge]? with
  | none => none
  | some e =>
    if node ∈ e.inputs_ then forEach markNode e.outputs_ s
    else some s

/-- Model of `Node::MarkDirty`.  The first argument bounds the depth of the
nested `Node::MarkDirty` calls; `none` means the bound was reached or a pointer
was dangling.  `MarkDirty` writes only `dirty_` flags, so the vectors the loops
run over are the ones read before the loop. -/
def Node.MarkDirty : Nat → State → Nat → Option State
  | 0, _, _ => none
  | fuel + 1, s, node =>
    match s.nodes[node]? with
    | none => none
    | some nd =>
      if nd.dirty_ then some s
      else
        forEach (fun s1 edge => Edge.MarkDirtyWith (Node.MarkDirty fuel) s1 edge node)
          nd.out_edges_
          { s with nodes := s.nodes.set node { nd with dirty_ := true } }

/-- Model of `Edge::MarkDirty`. -/
def Edge.MarkDirty (fuel : Nat) (s : State) (edge node : Nat) : Option State :=
  Edge.MarkDirtyWith (Node.MarkDirty fuel) s edge node

/-- Model of `FileStat::Touch` on the record `file`.  Every nested
`Node::MarkDirty` call that gets past its first test has made one more node
dirty, so the depth of the calls is at most the number of nodes plus one. -/
def FileStat.Touch (s : State) (file : Nat) (_mtime : Int) : Option State :=
  match s.files[file]? with
  | none => none
  | some f =>
    match f.node_ with
    | some node => Node.MarkDirty (s.nodes.length + 1) s node
    | none => some s

/-- Modelled from the spec: the operation `touch(path, mtime)` of the stat
cache, which the source does not define.  The record of `path` is taken from
the cache (`StatCache::GetFile`) and `FileStat::Touch` is called on it. -/
def State.touch (s : State) (path : Str) (mtime : Int) : Option State :=
  match s.GetFile path with
  | (s1, f) => FileStat.Touch s1 f mtime

/-- A sequence of `touch` calls. -/
def State.touchAll : State → List (Str × Int) → Option State
  | s, [] => some s
  | s, (path, mtime) :: rest =>
    match s.touch path mtime with
    | none => none
    | some s1 => State.touchAll s1 rest

/-! ## Planner -/

/-- Model of `struct Plan`, without the pointer to the state, which is passed
to the operations instead.  `want_` is a set, kept as a list without
duplicates; `ready_` is a queue, front first. -/
structure Plan where
  want_ : List Nat
  ready_ : List Nat
  deriving DecidableEq, Repr

/-- A freshly constructed plan. -/
def Plan.fresh : Plan := { want_ := [], ready_ := [] }

/-- The loop over the inputs in `Plan::AddTarget(Node*)`, `addTarget` being the
recursive call; the flag is `awaiting_inputs`. -/
def forInputs (addTarget : Plan → Nat → Option (Bool × Plan)) :
    List Nat → Bool × Plan → Option (Bool × Plan)
  | [], r => some r
  | i :: is, (awaiting_inputs, p) =>
    match addTarget p i with
    | none => none
    | some (b, p1) => forInputs addTarget is (if b then true else awaiting_inputs, p1)

/-- Model of `Plan::AddTarget(Node*)`, with a bound on the depth of the
recursion as first argument; `none` means the bound was reached or a pointer was
dangling. -/
def Plan.AddTargetAux : Nat → State → Plan → Nat → Option (Bool × Plan)
  | 0, _, _, _ => none
  | fuel + 1, s, p, node =>
    match s.nodes[node]? with
    | none => none
    | some nd =>
      if !nd.dirty_ then some (false, p)
      else
        match nd.in_edge_ with
        | none => some (false, p)
        | some edge =>
          match s.edges[edge]? with
          | none => none
          | some e =>
            match forInputs (fun p1 i => Plan.AddTargetAux fuel s p1 i) e.inputs_
                (false, { p with want_ := p.want_.insert node }) with
            | none => none
            | some (awaiting_inputs, p2) =>
              some (true,
                if !awaiting_inputs then { p2 with ready_ := p2.ready_ ++ [edge] } else p2)

/-- Model of `Plan::AddTarget(Node*)`.  In an acyclic graph the nodes on the
call stack are pairwise different, so the depth is at most the number of
nodes; in a cyclic graph the C++ recursion need not end. -/
def Plan.AddTarget (s : State) (p : Plan) (node : Nat) : Option (Bool × Plan) :=
  Plan.AddTargetAux s.nodes.length s p node

/-- Model of `Plan::AddTarget(const string&)`. -/
def Plan.AddTargetPath (s : State) (p : Plan) (path : Str) : Option (State × Plan) :=
  match s.GetNode path with
  | none => none
  | some (s1, node) =>
    match Plan.AddTarget s1 p node with
    | none => none
    | some (_, p1) => some (s1, p1)

/-- Model of `Plan::FindWork`; `none` is the null pointer. -/
def Plan.FindWork (p : Plan) : Option Nat × Plan :=
  match p.ready_ with
  | [] => (none, p)
  | edge :: rest => (some edge, { p with ready_ := rest })

/-! ## States built by the graph-building operations -/

/-- The states reachable from the empty state by `AddRule`, `AddEdge` (both
overloads), `GetFile`, `GetNode` and `AddInOut` calls that return.  A rule
pointer handed to `AddEdge(Rule*)` is null or a rule of the state. -/
inductive Built : State → Prop
  | empty : Built State.empty
  | add_rule {s s1 : State} {name command : Str} {r : Nat} :
      Built s → s.AddRule name command = some (s1, r) → Built s1
  | add_edge {s : State} (rule : Option Nat) :
      Built s → (∀ r, rule = some r → r < s.rules.length) → Built (s.AddEdge rule).1
  | add_edge_by_name {s : State} (rule_name : Str) :
      Built s → Built (s.AddEdgeByName rule_name).1
  | get_file {s : State} (path : Str) : Built s → Built (s.GetFile path).1
  | get_node {s s1 : State} {path : Str} {n : Nat} :
      Built s → s.GetNode path = some (s1, n) → Built s1
  | add_in_out {s s1 : State} {edge : Nat} {inout : InOut} {path : Str} :
      Built s → s.AddInOut edge inout path = some s1 → Built s1

/-- Well-formedness of the pointer structure: every stored pointer points into
its arena, and the node and edge lists mirror each other. -/
structure State.WF (s : State) : Prop where
  inputs_lt : ∀ (e : Nat) (ed : Edge), s.edges[e]? = some ed →
    ∀ n ∈ ed.inputs_, n < s.nodes.length
  outputs_lt : ∀ (e : Nat) (ed : Edge), s.edges[e]? = some ed →
    ∀ n ∈ ed.outputs_, n < s.nodes.length
  out_edges_lt : ∀ (n : Nat) (nd : Node), s.nodes[n]? = some nd →
    ∀ e ∈ nd.out_edges_, e < s.edges.length
  in_edge_lt : ∀ (n : Nat) (nd : Node), s.nodes[n]? = some nd →
    ∀ e, nd.in_edge_ = some e → e < s.edges.length
  inputs_iff : ∀ (e : Nat) (ed : Edge) (n : Nat) (nd : Node), s.edges[e]? = some ed →
    s.nodes[n]? = some nd → (n ∈ ed.inputs_ ↔ e ∈ nd.out_edges_)
  outputs_iff : ∀ (e : Nat) (ed : Edge) (n : Nat) (nd : Node), s.edges[e]? = some ed →
    s.nodes[n]? = some nd → (n ∈ ed.outputs_ ↔ nd.in_edge_ = some e)
  file_node_lt : ∀ (f : Nat) (file : FileStat) (n : Nat), s.files[f]? = some file →
    file.node_ = some n → n < s.nodes.length
  paths_lt : ∀ (p : Str) (f : Nat), s.stat_cache_.paths_.lookup p = some f → f < s.files.length
  edges_eq : s.edges_ = List.range s.edges.length
  node_file_lt : ∀ (n : Nat) (nd : Node), s.nodes[n]? = some nd → nd.file_ < s.files.length
  node_file : ∀ (n : Nat) (nd : Node), s.nodes[n]? = some nd →
    ∃ file, s.files[nd.file_]? = some file ∧ file.node_ = some n
  file_node : ∀ (f : Nat) (file : FileStat) (n : Nat), s.files[f]? = some file →
    file.node_ = some n → ∃ nd, s.nodes[n]? = some nd ∧ nd.file_ = f
  paths_file : ∀ (p : Str) (f : Nat), s.stat_cache_.paths_.lookup p = some f →
    ∃ file, s.files[f]? = some file ∧ file.path_ = p
  file_paths : ∀ (f : Nat) (file : FileStat), s.files[f]? = some file →
    s.stat_cache_.paths_.lookup file.path_ = some f
  rule_lt : ∀ (e : Nat) (ed : Edge) (r : Nat), s.edges[e]? = some ed → ed.rule_ = some r →
    r < s.rules.length
  rules_lt : ∀ (name : Str) (r : Nat), s.rules_.lookup name = some (some r) →
    r < s.rules.length
  paths_nodup : (s.stat_cache_.paths_.map Prod.fst).Nodup

/-- No node of the state is dirty. -/
def State.AllClean (s : State) : Prop :=
  ∀ (n : Nat) (nd : Node), s.nodes[n]? = some nd → nd.dirty_ = false

/-- One call of a graph-building operation. -/
inductive Op where
  | addRule (name command : Str)
  | addEdge (rule : Option Nat)
  | addEdgeByName (rule_name : Str)
  | getFile (path : Str)
  | getNode (path : Str)
  | addInOut (edge : Nat) (inout : InOut) (path : Str)
  deriving DecidableEq, Repr

/-- The state after one graph-building call, when the call returns. -/
def State.step (s : State) : Op → Option State
  | Op.addRule name command => (s.AddRule name command).map Prod.fst
  | Op.addEdge rule =>
    match rule with
    | none => some (s.AddEdge none).1
    | some r => if r < s.rules.length then some (s.AddEdge (some r)).1 else none
  | Op.addEdgeByName rule_name => some (s.AddEdgeByName rule_name).1
  | Op.getFile path => some (s.GetFile path).1
  | Op.getNode path => (s.GetNode path).map Prod.fst
  | Op.addInOut edge inout path => s.AddInOut edge inout path

/-- The state after a sequence of graph-building calls. -/
def State.run : State → List Op → Option State
  | s, [] => some s
  | s, op :: ops =>
    match s.step op with
    | none => none
    | some s1 => State.run s1 ops

/-- The command text `cat @in > $out`. -/
def catText : Str := ['c', 'a', 't', ' ', '@', 'i', 'n', ' ', '>', ' ', '$', 'o', 'u', 't']

/-- The parsed form of `cat @in > $out`. -/
def catTemplate : EvalString :=
  { unparsed_ := catText,
    parsed_ := [(['c', 'a', 't', ' '], TokenType.RAW),
                (['@', 'i', 'n'], TokenType.SPECIAL),
                ([' ', '>', ' '], TokenType.RAW),
                (['$', 'o', 'u', 't'], TokenType.SPECIAL)] }

/-- The calls that build the graph `a -> edge1 -> b -> edge2 -> c` with the rule
`cat`, whose command is `cat @in > $out`. -/
def chainScript : List Op :=
  [ Op.addRule ['c', 'a', 't'] catText,
    Op.addEdgeByName ['c', 'a', 't'],
    Op.addInOut 0 InOut.IN ['a'],
    Op.addInOut 0 InOut.OUT ['b'],
    Op.addEdgeByName ['c', 'a', 't'],
    Op.addInOut 1 InOut.IN ['b'],
    Op.addInOut 1 InOut.OUT ['c'] ]

/-- The graph `a -> edge1 -> b -> edge2 -> c`: the nodes of `a`, `b`, `c` are
0, 1, 2 and `edge1`, `edge2` are the edges 0, 1. -/
def chainState : State :=
  { files := [{ path_ := ['a'], mtime_ := 0, node_ := some 0 },
              { path_ := ['b'], mtime_ := 0, node_ := some 1 },
              { path_ := ['c'], mtime_ := 0, node_ := some 2 }],
    nodes := [{ file_ := 0, dirty_ := false, in_edge_ := none, out_edges_ := [0] },
              { file_ := 1, dirty_ := false, in_edge_ := some 0, out_edges_ := [1] },
              { file_ := 2, dirty_ := false, in_edge_ := some 1, out_edges_ := [] }],
    rules := [{ name_ := ['c', 'a', 't'], command_ := catTemplate }],
    edges := [{ rule_ := some 0, inputs_ := [0], outputs_ := [1] },
              { rule_ := some 0, inputs_ := [1], outputs_ := [2] }],
    stat_cache_ := { paths_ := [(['a'], 0), (['b'], 1), (['c'], 2)] },
    rules_ := [(['c', 'a', 't'], some 0)],
    edges_ := [0, 1] }

/-! ## Notions used to state the properties of dirtiness propagation -/

/-- The dirty flag of the node `n` (`false` when there is no such node). -/
def State.dirty (s : State) (n : Nat) : Bool :=
  match s.nodes[n]? with
  | some nd => nd.dirty_
  | none => false

/-- One step downstream: `b` is an output of an edge of the state that has `a`
as an input. -/
def Step (s : State) (a b : Nat) : Prop :=
  ∃ e ∈ s.edges_, ∃ ed, s.edges[e]? = some ed ∧ a ∈ ed.inputs_ ∧ b ∈ ed.outputs_

/-- The node `b` is `a` or is transitively downstream of `a`. -/
def Downstream (s : State) (a b : Nat) : Prop := Relation.ReflTransGen (Step s) a b

/-- The state `s1` is `s` with some more nodes dirty: nothing but `dirty_`
flags differs, and no flag was cleared. -/
structure SameGraph (s s1 : State) : Prop where
  files : s1.files = s.files
  rules : s1.rules = s.rules
  edges : s1.edges = s.edges
  stat_cache_ : s1.stat_cache_ = s.stat_cache_
  rules_ : s1.rules_ = s.rules_
  edges_ : s1.edges_ = s.edges_
  length : s1.nodes.length = s.nodes.length
  node : ∀ (n : Nat) (nd : Node), s.nodes[n]? = some nd →
    ∃ d, s1.nodes[n]? = some { nd with dirty_ := d } ∧ (nd.dirty_ = true → d = true)

/-- Dirty closure outside `X`: every output of every outgoing edge of a dirty
node that is not in `X` is dirty. -/
def ClosedExcept (s : State) (X : Nat → Prop) : Prop :=
  ∀ (n : Nat) (nd : Node), s.nodes[n]? = some nd → nd.dirty_ = true → ¬ X n →
    ∀ e ∈ nd.out_edges_, ∀ ed, s.edges[e]? = some ed →
      ∀ o ∈ ed.outputs_, s.dirty o = true

/-- The number of clean nodes. -/
def cleanCard (s : State) : Nat :=
  ((Finset.range s.nodes.length).filter (fun n => s.dirty n = false)).card

/-- The chain graph after `touch` on the path `a`: all three nodes are dirty. -/
def chainDirty : State :=
  { chainState with
    nodes := [{ file_ := 0, dirty_ := true, in_edge_ := none, out_edges_ := [0] },
              { file_ := 1, dirty_ := true, in_edge_ := some 0, out_edges_ := [1] },
              { file_ := 2, dirty_ := true, in_edge_ := some 1, out_edges_ := [] }] }

/-! ## Notions used to state the properties of the planner -/

/-- One step upstream: `b` is an input of the incoming edge of `a`. -/
def InputStep (s : State) (a b : Nat) : Prop :=
  ∃ nd e ed, s.nodes[a]? = some nd ∧ nd.in_edge_ = some e ∧ s.edges[e]? = some ed ∧
    b ∈ ed.inputs_

/-- The edge relation has no cycle. -/
def Acyclic (s : State) : Prop := ∀ n, ¬ Relation.TransGen (Step s) n n

/-- A state built by the graph-building operations and then dirtied by `touch`
calls only. -/
def Touched (s : State) : Prop := ∃ s0 ts, Built s0 ∧ s0.touchAll ts = some s

/-- The node `n` is dirty and has an incoming edge. -/
def NeedsBuild (s : State) (n : Nat) : Prop :=
  ∃ nd, s.nodes[n]? = some nd ∧ nd.dirty_ = true ∧ nd.in_edge_ ≠ none

/-- The edge `e` has no input that is dirty and has an incoming edge. -/
def ReadyOK (s : State) (e : Nat) : Prop :=
  ∃ ed, s.edges[e]? = some ed ∧ ∀ i ∈ ed.inputs_, ¬ NeedsBuild s i

/-- The plan `p1` extends `p`: the want set grew by nodes that are dirty and
have an incoming edge, the ready queue grew at its back by edges none of whose
inputs is such a node. -/
def PlanExt (s : State) (p p1 : Plan) : Prop :=
  (∀ m ∈ p.want_, m ∈ p1.want_) ∧
  (∀ m ∈ p1.want_, m ∈ p.want_ ∨ NeedsBuild s m) ∧
  ∃ new, p1.ready_ = p.ready_ ++ new ∧ ∀ e ∈ new, ReadyOK s e

/-- One call on a plan: `AddTarget(Node*)`, `AddTarget(const string&)` or
`FindWork`. -/
inductive PlanOp where
  | addTarget (node : Nat)
  | addTargetPath (path : Str)
  | findWork
  deriving DecidableEq, Repr

/-- The state and the plan after one call on the plan, when the call returns. -/
def Plan.step (s : State) (p : Plan) : PlanOp → Option (State × Plan)
  | PlanOp.addTarget node => (Plan.AddTarget s p node).map fun r => (s, r.2)
  | PlanOp.addTargetPath path => Plan.AddTargetPath s p path
  | PlanOp.findWork => some (s, (Plan.FindWork p).2)

/-- The state and the plan after a sequence of calls on the plan. -/
def Plan.run : State → Plan → List PlanOp → Option (State × Plan)
  | s, p, [] => some (s, p)
  | s, p, op :: ops =>
    match Plan.step s p op with
    | none => none
    | some (s1, p1) => Plan.run s1 p1 ops

/-- The state `s1` is `s` with possibly more file records and more nodes; the
nodes and edges of `s` are as they were. -/
def Grow (s s1 : State) : Prop :=
  s1.edges = s.edges ∧ s1.edges_ = s.edges_ ∧
  ∀ (n : Nat) (nd : Node), s.nodes[n]? = some nd → s1.nodes[n]? = some nd

/-- The invariant of a plan: the want set holds only nodes that are dirty and
have an incoming edge, the ready queue holds only edges none of whose inputs is
such a node. -/
def PlanInv (s : State) (p : Plan) : Prop :=
  (∀ m ∈ p.want_, NeedsBuild s m) ∧ (∀ e ∈ p.ready_, ReadyOK s e)

/-- The nodes `ns = [n0, ..., nk]` and the edges `es = [e1, ..., ek]` form the
chain `n0 -> e1 -> n1 -> ... -> ek -> nk`: the edge `ei` has the single input
`n(i-1)` and the single output `ni`, and `n0` has no incoming edge. -/
def IsChain (s : State) (ns es : List Nat) : Prop :=
  ns.length = es.length + 1 ∧
  (∃ n0 nd0, ns[0]? = some n0 ∧ s.nodes[n0]? = some nd0 ∧ nd0.in_edge_ = none) ∧
  ∀ i, i < es.length → ∃ e a b ed, es[i]? = some e ∧ ns[i]? = some a ∧
    ns[i + 1]? = some b ∧ s.edges[e]? = some ed ∧ ed.inputs_ = [a] ∧ ed.outputs_ = [b]

/-- The chain `ns`, `es` as the planner sees it once all its nodes are dirty:
`n0` is dirty and has no incoming edge, every later node is dirty and its
incoming edge is the edge of the chain before it, whose only input is the node
before it. -/
def DirtyChain (t : State) (ns es : List Nat) : Prop :=
  (∃ n0 nd0, ns[0]? = some n0 ∧ t.nodes[n0]? = some nd0 ∧ nd0.dirty_ = true ∧
    nd0.in_edge_ = none) ∧
  ∀ i, i < es.length → ∃ e a b ed nd, es[i]? = some e ∧ ns[i]? = some a ∧
    ns[i + 1]? = some b ∧ t.edges[e]? = some ed ∧ ed.inputs_ = [a] ∧
    t.nodes[b]? = some nd ∧ nd.dirty_ = true ∧ nd.in_edge_ = some e

/-! ## Notions used to state the properties of the template evaluator -/

/-- The string starts with a letter in `a..z`. -/
def startsLower : Str → Bool
  | [] => false
  | d :: _ => isLower d

/-- The string has a sigil that is not immediately followed by a letter in
`a..z`. -/
def hasBadSigil : Str → Bool
  | [] => false
  | c :: rest => (isSigil c && !startsLower rest) || hasBadSigil rest

/-- The calls that build one edge of the rule `cat` (command `cat @in > $out`)
with the inputs `a`, `b` and the output `c`. -/
def catScript : List Op :=
  [ Op.addRule ['c', 'a', 't'] catText,
    Op.addEdgeByName ['c', 'a', 't'],
    Op.addInOut 0 InOut.IN ['a'],
    Op.addInOut 0 InOut.IN ['b'],
    Op.addInOut 0 InOut.OUT ['c'] ]

/-- The state built by `catScript`. -/
def catState : State :=
  { files := [{ path_ := ['a'], mtime_ := 0, node_ := some 0 },
              { path_ := ['b'], mtime_ := 0, node_ := some 1 },
              { path_ := ['c'], mtime_ := 0, node_ := some 2 }],
    nodes := [{ file_ := 0, dirty_ := false, in_edge_ := none, out_edges_ := [0] },
              { file_ := 1, dirty_ := false, in_edge_ := none, out_edges_ := [0] },
              { file_ := 2, dirty_ := false, in_edge_ := some 0, out_edges_ := [] }],
    rules := [{ name_ := ['c', 'a', 't'], command_ := catTemplate }],
    edges := [{ rule_ := some 0, inputs_ := [0, 1], outputs_ := [2] }],
    stat_cache_ := { paths_ := [(['a'], 0), (['b'], 1), (['c'], 2)] },
    rules_ := [(['c', 'a', 't'], some 0)],
    edges_ := [0] }

/-! ## More example states -/

/-- The calls that build one edge whose inputs are the empty path and `a`. -/
def emptyPathScript : List Op :=
  [ Op.addRule ['c', 'a', 't'] catText,
    Op.addEdgeByName ['c', 'a', 't'],
    Op.addInOut 0 InOut.IN [],
    Op.addInOut 0 InOut.IN ['a'] ]

/-- The state built by `emptyPathScript`. -/
def emptyPathState : State :=
  { files := [{ path_ := [], mtime_ := 0, node_ := some 0 },
              { path_ := ['a'], mtime_ := 0, node_ := some 1 }],
    nodes := [{ file_ := 0, dirty_ := false, in_edge_ := none, out_edges_ := [0] },
              { file_ := 1, dirty_ := false, in_edge_ := none, out_edges_ := [0] }],
    rules := [{ name_ := ['c', 'a', 't'], command_ := catTemplate }],
    edges := [{ rule_ := some 0, inputs_ := [0, 1], outputs_ := [] }],
    stat_cache_ := { paths_ := [([], 0), (['a'], 1)] },
    rules_ := [(['c', 'a', 't'], some 0)],
    edges_ := [0] }

/-- The calls that build the graph with the edge `E1` (edge 0) from `s` to `x`
and `y`, and the edge `E2` (edge 1) from `x` and `y` to `t`. -/
def forkScript : List Op :=
  [ Op.addRule ['c', 'a', 't'] catText,
    Op.addEdgeByName ['c', 'a', 't'],
    Op.addInOut 0 InOut.IN ['s'],
    Op.addInOut 0 InOut.OUT ['x'],
    Op.addInOut 0 InOut.OUT ['y'],
    Op.addEdgeByName ['c', 'a', 't'],
    Op.addInOut 1 InOut.IN ['x'],
    Op.addInOut 1 InOut.IN ['y'],
    Op.addInOut 1 InOut.OUT ['t'] ]

/-- The state built by `forkScript`: the nodes of `s`, `x`, `y`, `t` are 0, 1,
2, 3. -/
def forkState : State :=
  { files := [{ path_ := ['s'], mtime_ := 0, node_ := some 0 },
              { path_ := ['x'], mtime_ := 0, node_ := some 1 },
              { path_ := ['y'], mtime_ := 0, node_ := some 2 },
              { path_ := ['t'], mtime_ := 0, node_ := some 3 }],
    nodes := [{ file_ := 0, dirty_ := false, in_edge_ := none, out_edges_ := [0] },
              { file_ := 1, dirty_ := false, in_edge_ := some 0, out_edges_ := [1] },
              { file_ := 2, dirty_ := false, in_edge_ := some 0, out_edges_ := [1] },
              { file_ := 3, dirty_ := false, in_edge_ := some 1, out_edges_ := [] }],
    rules := [{ name_ := ['c', 'a', 't'], command_ := catTemplate }],
    edges := [{ rule_ := some 0, inputs_ := [0], outputs_ := [1, 2] },
              { rule_ := some 0, inputs_ := [1, 2], outputs_ := [3] }],
    stat_cache_ := { paths_ := [(['s'], 0), (['x'], 1), (['y'], 2), (['t'], 3)] },
    rules_ := [(['c', 'a', 't'], some 0)],
    edges_ := [0, 1] }

/-- The state `forkState` after `touch` on the path `s`: all four nodes are
dirty. -/
def forkDirty : State :=
  { forkState with
    nodes := [{ file_ := 0, dirty_ := true, in_edge_ := none, out_edges_ := [0] },
              { file_ := 1, dirty_ := true, in_edge_ := some 0, out_edges_ := [1] },
              { file_ := 2, dirty_ := true, in_edge_ := some 0, out_edges_ := [1] },
              { file_ := 3, dirty_ := true, in_edge_ := some 1, out_edges_ := [] }] }

/-- The states reachable from the empty state by graph-building calls and
`touch` calls, in any order. -/
inductive Reachable : State → Prop
  | empty : Reachable State.empty
  | op {s s1 : State} (o : Op) : Reachable s → s.step o = some s1 → Reachable s1
  | touch {s s1 : State} (path : Str) (mtime : Int) :
      Reachable s → s.touch path mtime = some s1 → Reachable s1

/-! ## Manifest parser -/

/-- A value of type `int` after an arithmetic step: wrapped to 32 bits, two's
complement. -/
def wrapInt (x : Int) : Int := (x + 2147483648) % 4294967296 - 2147483648

/-- The result of `++x` on an `int`. -/
def incr (x : Int) : Int := wrapInt (x + 1)

/-- Model of `struct ManifestParser` without the pointer `state_`; the state is
passed to the operations instead.  The pointers `cur_` and `end_` into the
input buffer are modelled by the field `cur_`, the characters from `cur_` up to
`end_`. -/
structure ManifestParser where
  cur_ : Str
  line_ : Int
  col_ : Int
  token_ : Str
  deriving DecidableEq, Repr

/-- How a parser function ends: it returns `true` (`ok`, with what it
leaves), it returns the result of `Error(message, err)` (`error`, with the
state, `line_` and `col_` at the call), the program does not return normally,
on a failed `assert`, a dangling pointer or a write past the buffer of `Error`
(`abort`), or the bound on the number of iterations of a loop was reached
(`timeout`). -/
inductive Res (α : Type) where
  | ok (a : α)
  | error (s : State) (line col : Int) (message : Str)
  | abort
  | timeout
  deriving DecidableEq, Repr

/-- Sequencing: the continuation runs when the first part returned `true`. -/
def Res.bind {α β : Type} : Res α → (α → Res β) → Res β
  | Res.ok a, f => f a
  | Res.error s line col message, _ => Res.error s line col message
  | Res.abort, _ => Res.abort
  | Res.timeout, _ => Res.timeout

/-- The text printed by `%d`. -/
def decimal (x : Int) : Str :=
  if x < 0 then '-' :: Nat.toDigits 10 x.natAbs else Nat.toDigits 10 x.toNat

/-- The text that `sprintf(buf, "line %d, col %d: %s", line_ + 1, col_ + 1,
message.c_str())` writes. -/
def formatError (line col : Int) (message : Str) : Str :=
  ['l', 'i', 'n', 'e', ' '] ++ decimal (wrapInt (line + 1)) ++ [',', ' ', 'c', 'o', 'l', ' '] ++
    decimal (wrapInt (col + 1)) ++ [':', ' '] ++ message

/-- The string that `ManifestParser::Error` assigns to `*err`: `none` when the
text and its final zero byte do not fit in `buf[1024]`. -/
def ManifestParser.errText (line col : Int) (message : Str) : Option Str :=
  if (formatError line col message).length + 1 ≤ 1024 then
    some (formatError line col message)
  else none

/-- Model of `ManifestParser::Error`: the function returns `false`, the caller
returns that.  When the text and its final zero byte do not fit in `buf[1024]`,
`sprintf` writes past the end of the buffer and the call does not return
normally. -/
def ManifestParser.Error {α : Type} (p : ManifestParser) (s : State) (message : Str) : Res α :=
  if (formatError p.line_ p.col_ message).length + 1 ≤ 1024 then
    Res.error s p.line_ p.col_ message
  else Res.abort

/-- The string `*err` after the parser function has ended. -/
def Res.err {α : Type} : Res α → Option Str
  | Res.error _ line col message => ManifestParser.errText line col message
  | _ => none

/-- The loop of `ManifestParser::SkipWhitespace`, on the rest of the input, the
line, the column and the flag `skipped`. -/
def ManifestParser.skipLoop (newline : Bool) :
    Str → Int → Int → Bool → Str × Int × Int × Bool
  | [], line, col, skipped => ([], line, col, skipped)
  | c :: rest, line, col, skipped =>
    if c = ' ' then ManifestParser.skipLoop newline rest line (incr col) true
    else if newline = true ∧ c = '\n' then ManifestParser.skipLoop newline rest (incr line) 0 true
    else (c :: rest, line, col, skipped)

/-- Model of `ManifestParser::SkipWhitespace`: the return value and the parser
afterwards. -/
def ManifestParser.SkipWhitespace (p : ManifestParser) (newline : Bool) :
    Bool × ManifestParser :=
  match ManifestParser.skipLoop newline p.cur_ p.line_ p.col_ false with
  | (cur, line, col, skipped) => (skipped, { p with cur_ := cur, line_ := line, col_ := col })

/-- Model of `ManifestParser::Newline`. -/
def ManifestParser.Newline (p : ManifestParser) (s : State) : Res ManifestParser :=
  match p.cur_ with
  | c :: rest =>
    if c = '\n' then Res.ok { p with cur_ := rest, line_ := incr p.line_, col_ := 0 }
    else p.Error s ['e', 'x', 'p', 'e', 'c', 't', 'e', 'd', ' ', 'n', 'e', 'w', 'l', 'i', 'n', 'e']
  | [] => p.Error s ['e', 'x', 'p', 'e', 'c', 't', 'e', 'd', ' ', 'n', 'e', 'w', 'l', 'i', 'n', 'e']

/-- Model of `IsIdentChar`. -/
def IsIdentChar (c : Char) : Bool :=
  (decide ('a' ≤ c) && decide (c ≤ 'z')) || (decide ('0' ≤ c) && decide (c ≤ '9'))

/-- The `while` loop of `ManifestParser::NextToken`, on the rest of the input,
the column and the token. -/
def ManifestParser.identLoop : Str → Int → Str → Str × Int × Str
  | [], col, token => ([], col, token)
  | c :: rest, col, token =>
    if IsIdentChar c = true then ManifestParser.identLoop rest (incr col) (token ++ [c])
    else (c :: rest, col, token)

/-- Model of `ManifestParser::NextToken`: the return value and the parser
afterwards. -/
def ManifestParser.NextToken (p : ManifestParser) : Bool × ManifestParser :=
  let p1 := { (p.SkipWhitespace false).2 with token_ := [] }
  match p1.cur_ with
  | [] => (false, p1)
  | c :: rest =>
    let p2 : ManifestParser :=
      if IsIdentChar c = true then
        match ManifestParser.identLoop (c :: rest) p1.col_ p1.token_ with
        | (cur, col, token) => { p1 with cur_ := cur, col_ := col, token_ := token }
      else if c = ':' then { p1 with token_ := [':'], col_ := incr p1.col_, cur_ := rest }
      else p1
    (!p2.token_.isEmpty, p2)

/-- The loop of `ManifestParser::ReadToNewline`, on the rest of the input, the
column and the text. -/
def ManifestParser.readLoop : Str → Int → Str → Str × Int × Str
  | [], col, text => ([], col, text)
  | c :: rest, col, text =>
    if c ≠ '\n' then ManifestParser.readLoop rest (incr col) (text ++ [c])
    else (c :: rest, col, text)

/-- Model of `ManifestParser::ReadToNewline`: the parser and `*text` afterwards. -/
def ManifestParser.ReadToNewline (p : ManifestParser) (s : State) (text : Str) :
    Res (ManifestParser × Str) :=
  match ManifestParser.readLoop p.cur_ p.col_ text with
  | (cur, col, text1) =>
    (ManifestParser.Newline { p with cur_ := cur, col_ := col } s).bind
      fun p1 => Res.ok (p1, text1)

/-- Model of `ManifestParser::ParseRule`: the parser and the state afterwards. -/
def ManifestParser.ParseRule (p : ManifestParser) (s : State) : Res (ManifestParser × State) :=
  match ((p.SkipWhitespace false).2).NextToken with
  | (false, p2) =>
    p2.Error s ['e', 'x', 'p', 'e', 'c', 't', 'e', 'd', ' ', 'r', 'u', 'l', 'e', ' ',
      'n', 'a', 'm', 'e']
  | (true, p2) =>
    (p2.Newline s).bind fun p3 =>
      let name := p3.token_
      match p3.NextToken with
      | (b, p4) =>
        if b = false ∨ p4.token_ ≠ ['c', 'o', 'm', 'm', 'a', 'n', 'd'] then
          p4.Error s ['e', 'x', 'p', 'e', 'c', 't', 'e', 'd', ' ', 'c', 'o', 'm', 'm',
            'a', 'n', 'd']
        else
          (((p4.SkipWhitespace false).2).ReadToNewline s []).bind fun r =>
            match s.AddRule name r.2 with
            | none => Res.abort
            | some (s1, _) => Res.ok (r.1, s1)

/-- The first `for (;;)` loop of `ManifestParser::ParseEdge`, with a bound on
the number of iterations. -/
def ManifestParser.readIns : Nat → ManifestParser → State → List Str →
    Res (ManifestParser × List Str)
  | 0, _, _, _ => Res.timeout
  | fuel + 1, p, s, ins =>
    match p.NextToken with
    | (false, p1) =>
      p1.Error s ['e', 'x', 'p', 'e', 'c', 't', 'e', 'd', ' ', 'o', 'u', 't', 'p', 'u', 't', ' ',
        'f', 'i', 'l', 'e', ' ', 'l', 'i', 's', 't']
    | (true, p1) =>
      if p1.token_ = [':'] then Res.ok (p1, ins)
      else ManifestParser.readIns fuel p1 s (ins ++ [p1.token_])

/-- The second `for (;;)` loop of `ManifestParser::ParseEdge`, with a bound on
the number of iterations. -/
def ManifestParser.readOuts : Nat → ManifestParser → List Str →
    Res (ManifestParser × List Str)
  | 0, _, _ => Res.timeout
  | fuel + 1, p, outs =>
    match p.NextToken with
    | (false, p1) => Res.ok (p1, outs)
    | (true, p1) => ManifestParser.readOuts fuel p1 (outs ++ [p1.token_])

/-- A `for` loop of `ManifestParser::ParseEdge` over a vector of paths:
`AddInOut` is called for each path in order. -/
def State.addInOuts (edge : Nat) (inout : InOut) : List Str → State → Option State
  | [], s => some s
  | path :: rest, s =>
    match s.AddInOut edge inout path with
    | none => none
    | some s1 => State.addInOuts edge inout rest s1

/-- The pointer that `state_->AddEdge(rule)` returns, and the state
afterwards: the pointer is the result of `new Edge()`, never null. -/
def ManifestParser.addEdge (s : State) (rule : Str) : State × Option Nat :=
  ((s.AddEdgeByName rule).1, some (s.AddEdgeByName rule).2)

/-- Model of `ManifestParser::ParseEdge`: the parser and the state afterwards.
Every iteration of its loops reads at least one character, so the number of
characters left plus one bounds the iterations. -/
def ManifestParser.ParseEdge (p : ManifestParser) (s : State) : Res (ManifestParser × State) :=
  let p1 := (p.SkipWhitespace false).2
  (ManifestParser.readIns (p1.cur_.length + 1) p1 s []).bind fun r1 =>
    match r1.1.NextToken with
    | (false, p2) =>
      p2.Error s ['e', 'x', 'p', 'e', 'c', 't', 'e', 'd', ' ', 'b', 'u', 'i', 'l', 'd', ' ',
        'c', 'o', 'm', 'm', 'a', 'n', 'd', ' ', 'n', 'a', 'm', 'e']
    | (true, p2) =>
      let rule := p2.token_
      (ManifestParser.readOuts (p2.cur_.length + 1) p2 []).bind fun r2 =>
        (r2.1.Newline s).bind fun p3 =>
          match ManifestParser.addEdge s rule with
          | (s1, none) =>
            p3.Error s1 ['u', 'n', 'k', 'n', 'o', 'w', 'n', ' ', 'b', 'u', 'i', 'l', 'd', ' ',
              'r', 'u', 'l', 'e', ' ', 'n', 'a', 'm', 'e', ' ', 'n', 'a', 'm', 'e']
          | (s1, some edge) =>
            match State.addInOuts edge InOut.IN r1.2 s1 with
            | none => Res.abort
            | some s2 =>
              match State.addInOuts edge InOut.OUT r2.2 s2 with
              | none => Res.abort
              | some s3 => Res.ok (p3, s3)

/-- The `while` loop of `ManifestParser::Parse` and the statements after it,
with a bound on the number of iterations. -/
def ManifestParser.parseLoop : Nat → ManifestParser → State → Res State
  | 0, _, _ => Res.timeout
  | fuel + 1, p, s =>
    match p.NextToken with
    | (true, p1) =>
      if p1.token_ = ['r', 'u', 'l', 'e'] then
        (p1.ParseRule s).bind fun r =>
          ManifestParser.parseLoop fuel (r.1.SkipWhitespace true).2 r.2
      else if p1.token_ = ['b', 'u', 'i', 'l', 'd'] then
        (p1.ParseEdge s).bind fun r =>
          ManifestParser.parseLoop fuel (r.1.SkipWhitespace true).2 r.2
      else
        p1.Error s (['u', 'n', 'k', 'n', 'o', 'w', 'n', ' ', 't', 'o', 'k', 'e', 'n', ':', ' '] ++
          p1.token_)
    | (false, p1) =>
      if p1.cur_ ≠ [] then p1.Error s ['e', 'x', 'p', 'e', 'c', 't', 'e', 'd', ' ', 'e', 'o', 'f']
      else Res.ok s

/-- Model of `ManifestParser::Parse` on a parser for the state `s`: how the
call ends, with the state afterwards.  Every iteration of the loop reads at
least one character, so `input.length + 1` bounds the iterations. -/
def ManifestParser.Parse (s : State) (input : Str) : Res State :=
  ManifestParser.parseLoop (input.length + 1)
    { cur_ := input, line_ := 0, col_ := 0, token_ := [] } s

/-- The manifest `rule cat`, `command cat @in > $out`,
`build hello.c : cat hello.o`, each line ended by a newline. -/
def helloManifest : Str :=
  "rule cat\ncommand cat @in > $out\nbuild hello.c : cat hello.o\n".toList

/-- The manifest `helloManifest` with the file names written without the `.`. -/
def helloManifestPlain : Str :=
  "rule cat\ncommand cat @in > $out\nbuild helloc : cat helloo\n".toList

/-- The state with the rule `cat` only. -/
def ruleCatState : State :=
  { State.empty with
    rules := [{ name_ := ['c', 'a', 't'], command_ := catTemplate }],
    rules_ := [(['c', 'a', 't'], some 0)] }

/-- The state with the rule `cat` and one edge of that rule from `helloc` (node
0) to `helloo` (node 1). -/
def helloState : State :=
  { files := [{ path_ := "helloc".toList, mtime_ := 0, node_ := some 0 },
              { path_ := "helloo".toList, mtime_ := 0, node_ := some 1 }],
    nodes := [{ file_ := 0, dirty_ := false, in_edge_ := none, out_edges_ := [0] },
              { file_ := 1, dirty_ := false, in_edge_ := some 0, out_edges_ := [] }],
    rules := [{ name_ := ['c', 'a', 't'], command_ := catTemplate }],
    edges := [{ rule_ := some 0, inputs_ := [0], outputs_ := [1] }],
    stat_cache_ := { paths_ := [("helloc".toList, 0), ("helloo".toList, 1)] },
    rules_ := [(['c', 'a', 't'], some 0)],
    edges_ := [0] }

/-! ## Notions used to state the properties of the manifest parser -/

/-- The string is an identifier: a non-empty run of identifier characters. -/
def IsIdent (t : Str) : Prop := t ≠ [] ∧ ∀ c ∈ t, IsIdentChar c = true

/-- The string is empty or starts with a character that is not an identifier
character, so an identifier right before it ends there. -/
def NoIdentHead (rest : Str) : Prop := ∀ c r, rest = c :: r → IsIdentChar c = false

/-- The text of a build declaration: the word `build`, each input after one
space, a space, a colon, a space, the rule name, each output after one space,
and a newline. -/
def buildDecl (ins : List Str) (rule : Str) (outs : List Str) : Str :=
  ['b', 'u', 'i', 'l', 'd'] ++ (ins.map fun t => ' ' :: t).flatten ++ [' ', ':', ' '] ++ rule ++
    (outs.map fun t => ' ' :: t).flatten ++ ['\n']

/-- The pointer `stat_cache_.paths_[path]->node_` of a path of the cache, null
(`none`) also when the path is not in the cache. -/
def State.nodeOf (s : State) (path : Str) : Option Nat :=
  match s.stat_cache_.paths_.lookup path with
  | none => none
  | some f =>
    match s.files[f]? with
    | none => none
    | some file => file.node_

/-- The pointer `node->in_edge_`. -/
def State.inEdge (s : State) (node : Nat) : Option Nat :=
  match s.nodes[node]? with
  | none => none
  | some nd => nd.in_edge_

/-- The edge that produces a path: the `in_edge_` of the node of the path,
`none` when the path has no node or the node has no incoming edge. -/
def State.producer (s : State) (path : Str) : Option Nat :=
  match s.nodeOf path with
  | none => none
  | some n => s.inEdge n

/-- The call does not end with the diagnostic `message`. -/
def Res.Avoids {α : Type} (x : Res α) (message : Str) : Prop :=
  ∀ (s : State) (line col : Int) (m : Str), x = Res.error s line col m → m ≠ message

/-! ## The states of a program run -/

/-- Every input of every edge is the node of a file whose path is not empty. -/
def InputsNamed (s : State) : Prop :=
  ∀ (e : Nat) (ed : Edge), s.edges[e]? = some ed →
    ∀ i ∈ ed.inputs_, ∃ p, s.nodePath i = some p ∧ p ≠ []

/-- The states a program can be in: the state starts empty and is changed by
`ManifestParser::Parse` (which has the only calls of `AddRule`, `AddEdge` and
`AddInOut`; the state is also the one left when `Parse` returns `false`), by
`touch`, and by `Plan::AddTarget(path)`, which calls `GetNode`. -/
inductive Loaded : State → Prop
  | empty : Loaded State.empty
  | parsed {s s1 : State} (input : Str) :
    Loaded s → ManifestParser.Parse s input = Res.ok s1 → Loaded s1
  | failed {s s1 : State} (input : Str) (line col : Int) (message : Str) :
    Loaded s → ManifestParser.Parse s input = Res.error s1 line col message → Loaded s1
  | touched {s s1 : State} (path : Str) (mtime : Int) :
    Loaded s → s.touch path mtime = some s1 → Loaded s1
  | target {s s1 : State} (path : Str) (n : Nat) :
    Loaded s → s.GetNode path = some (s1, n) → Loaded s1

/-- The call ends in one of these ways: it returns `true` with a value for
which `Q` holds, it returns `false` in a state for which `P` holds, or it does
not return. -/
def Res.Ends {α : Type} (x : Res α) (Q : α → Prop) (P : State → Prop) : Prop :=
  match x with
  | Res.ok a => Q a
  | Res.error s _ _ _ => P s
  | Res.abort => True
  | Res.timeout => True

theorem getElem?_snoc_eq_some {α : Type} (l : List α) (a x : α) (i : Nat) :
    (l ++ [a])[i]? = some x ↔ l[i]? = some x ∨ (i = l.length ∧ a = x) := by
  rw [List.getElem?_append]
  split
  · rename_i h
    constructor
    · intro h1; exact Or.inl h1
    · rintro (h1 | ⟨h1, _⟩)
      · exact h1
      · omega
  · rename_i h
    have h0 : l[i]? = none := List.getElem?_eq_none (by omega)
    rw [h0]
    by_cases h2 : i = l.length
    · subst h2; simp
    · have : i - l.length ≠ 0 := by omega
      obtain ⟨k, hk⟩ := Nat.exists_eq_succ_of_ne_zero this
      rw [hk]; simp [h2]

theorem getElem?_set_eq_some {α : Type} (l : List α) (a x : α) (i j : Nat) :
    (l.set i a)[j]? = some x ↔
      (j = i ∧ i < l.length ∧ a = x) ∨ (j ≠ i ∧ l[j]? = some x) := by
  rw [List.getElem?_set]
  by_cases h : i = j
  · subst h
    by_cases h2 : i < l.length <;> simp [h2]
  · have h' : j ≠ i := fun e => h e.symm
    simp [h, h']

theorem lt_of_getElem?_eq_some {α : Type} {l : List α} {x : α} {i : Nat}
    (h : l[i]? = some x) : i < l.length := by
  rw [List.getElem?_eq_some] at h
  exact h.1

theorem lookup_mapSet {V : Type} (m : List (Str × V)) (k : Str) (v : V) (k1 : Str) :
    (mapSet m k v).lookup k1 = if k1 = k then some v else m.lookup k1 := by
  induction m with
  | nil =>
    simp only [mapSet, List.lookup_cons, List.lookup_nil]
    by_cases h : k1 = k
    · simp [h]
    · have hb : (k1 == k) = false := by simpa using h
      simp [h, hb]
  | cons x m ih =>
    obtain ⟨k2, v2⟩ := x
    simp only [mapSet]
    by_cases h2 : k2 = k
    · subst h2
      simp only [↓reduceIte, List.lookup_cons]
      by_cases h : k1 = k2
      · simp [h]
      · have hb : (k1 == k2) = false := by simpa using h
        simp [h, hb]
    · simp only [h2, ↓reduceIte, List.lookup_cons, ih]
      by_cases h : k1 = k2
      · subst h
        simp [h2]
      · have hb : (k1 == k2) = false := by simpa using h
        simp [hb]

theorem WF_empty : State.empty.WF := by
  constructor <;> simp [State.empty]

theorem WF_GetFile {s : State} (h : s.WF) (path : Str) :
    (s.GetFile path).1.WF ∧ (s.GetFile path).2 < (s.GetFile path).1.files.length := by
  unfold State.GetFile
  split
  · rename_i f hf
    exact ⟨h, h.paths_lt _ _ hf⟩
  · rename_i hf
    refine ⟨?_, by simp⟩
    constructor
    · exact h.inputs_lt
    · exact h.outputs_lt
    · exact h.out_edges_lt
    · exact h.in_edge_lt
    · exact h.inputs_iff
    · exact h.outputs_iff
    · intro f file n h1 h2
      simp only [getElem?_snoc_eq_some] at h1
      rcases h1 with h1 | ⟨_, h1⟩
      · exact h.file_node_lt f file n h1 h2
      · subst h1; simp at h2
    · intro p f h1
      simp only [List.lookup_append, List.length_append, List.length_singleton] at h1 ⊢
      cases h3 : List.lookup p s.stat_cache_.paths_ with
      | some g =>
        rw [h3] at h1
        simp at h1
        subst h1
        have := h.paths_lt _ _ h3
        omega
      | none =>
        rw [h3] at h1
        simp [List.lookup] at h1
        split at h1
        · simp at h1; omega
        · simp at h1
    · exact h.edges_eq
    · intro n nd hn
      have := h.node_file_lt n nd hn
      simp only [List.length_append, List.length_singleton]
      omega
    · intro n nd hn
      obtain ⟨file, h1, h2⟩ := h.node_file n nd hn
      exact ⟨file, (getElem?_snoc_eq_some _ _ _ _).2 (Or.inl h1), h2⟩
    · intro f file n h1 h2
      simp only [getElem?_snoc_eq_some] at h1
      rcases h1 with h1 | ⟨_, h1⟩
      · exact h.file_node f file n h1 h2
      · subst h1; simp at h2
    · intro p f h1
      simp only [List.lookup_append] at h1
      cases h3 : List.lookup p s.stat_cache_.paths_ with
      | some g =>
        rw [h3] at h1
        simp only [Option.or_some, Option.some.injEq] at h1
        subst h1
        obtain ⟨file, h4, h5⟩ := h.paths_file p g h3
        exact ⟨file, (getElem?_snoc_eq_some _ _ _ _).2 (Or.inl h4), h5⟩
      | none =>
        rw [h3] at h1
        simp only [Option.none_or, List.lookup] at h1
        split at h1
        · rename_i heq
          simp only [Option.some.injEq] at h1
          subst h1
          have hp : p = path := by simpa using heq
          subst hp
          exact ⟨_, (getElem?_snoc_eq_some _ _ _ _).2 (Or.inr ⟨rfl, rfl⟩), rfl⟩
        · simp at h1
    · intro f file h1
      simp only [getElem?_snoc_eq_some] at h1
      simp only [List.lookup_append]
      rcases h1 with h1 | ⟨h1, h2⟩
      · rw [h.file_paths f file h1]
        rfl
      · subst h2
        subst h1
        simp only [hf, Option.none_or, List.lookup, beq_self_eq_true]
    · exact h.rule_lt
    · exact h.rules_lt
    · simp only [List.map_append, List.map_cons, List.map_nil]
      rw [List.nodup_append]
      refine ⟨h.paths_nodup, List.nodup_singleton _, ?_⟩
      intro k hk1 hk2
      rw [List.mem_singleton] at hk2
      subst hk2
      rw [List.lookup_eq_none_iff] at hf
      obtain ⟨x, hx, hxk⟩ := List.mem_map.1 hk1
      have := hf x hx
      rw [hxk] at this
      simp at this

theorem WF_GetNode {s s1 : State} {path : Str} {n : Nat} (h : s.WF)
    (hg : s.GetNode path = some (s1, n)) : s1.WF ∧ n < s1.nodes.length := by
  unfold State.GetNode at hg
  obtain ⟨h1, hf⟩ := WF_GetFile h path
  generalize s.GetFile path = r at hg h1 hf
  obtain ⟨s0, f⟩ := r
  simp only at hg h1 hf
  split at hg
  · simp at hg
  · rename_i file hfile
    split at hg
    · rename_i n0 hn0
      simp only [Option.some.injEq, Prod.mk.injEq] at hg
      obtain ⟨rfl, rfl⟩ := hg
      exact ⟨h1, h1.file_node_lt _ _ _ hfile hn0⟩
    · rename_i hn0
      simp only [Option.some.injEq, Prod.mk.injEq] at hg
      obtain ⟨rfl, rfl⟩ := hg
      refine ⟨?_, by simp⟩
      constructor
      · intro e ed he n hn
        have := h1.inputs_lt e ed he n hn
        simp; omega
      · intro e ed he n hn
        have := h1.outputs_lt e ed he n hn
        simp; omega
      · intro n nd hnd e he
        simp only [getElem?_snoc_eq_some] at hnd
        rcases hnd with hnd | ⟨_, rfl⟩
        · exact h1.out_edges_lt n nd hnd e he
        · simp at he
      · intro n nd hnd e he
        simp only [getElem?_snoc_eq_some] at hnd
        rcases hnd with hnd | ⟨_, rfl⟩
        · exact h1.in_edge_lt n nd hnd e he
        · simp at he
      · intro e ed n nd he hnd
        simp only [getElem?_snoc_eq_some] at hnd
        rcases hnd with hnd | ⟨rfl, rfl⟩
        · exact h1.inputs_iff e ed n nd he hnd
        · simp only [List.not_mem_nil, iff_false]
          intro hmem
          exact Nat.lt_irrefl _ (h1.inputs_lt e ed he _ hmem)
      · intro e ed n nd he hnd
        simp only [getElem?_snoc_eq_some] at hnd
        rcases hnd with hnd | ⟨rfl, rfl⟩
        · exact h1.outputs_iff e ed n nd he hnd
        · simp only [reduceCtorEq, iff_false]
          intro hmem
          exact Nat.lt_irrefl _ (h1.outputs_lt e ed he _ hmem)
      · intro g file1 n hg1 hn
        simp only [getElem?_set_eq_some] at hg1
        rcases hg1 with ⟨_, _, rfl⟩ | ⟨_, hg1⟩
        · simp at hn; subst hn; simp
        · have := h1.file_node_lt g file1 n hg1 hn
          simp; omega
      · intro p g hp
        have := h1.paths_lt p g hp
        simpa using this
      · exact h1.edges_eq
      · intro n nd hnd
        simp only [getElem?_snoc_eq_some] at hnd
        simp only [List.length_set]
        rcases hnd with hnd | ⟨_, rfl⟩
        · exact h1.node_file_lt n nd hnd
        · exact hf
      · intro n nd hnd
        simp only [getElem?_snoc_eq_some] at hnd
        rcases hnd with hnd | ⟨rfl, rfl⟩
        · obtain ⟨file1, k1, k2⟩ := h1.node_file n nd hnd
          refine ⟨file1, ?_, k2⟩
          rw [getElem?_set_eq_some]
          refine Or.inr ⟨?_, k1⟩
          intro heq
          rw [heq, hfile] at k1
          simp only [Option.some.injEq] at k1
          subst k1
          rw [hn0] at k2
          exact absurd k2 (by simp)
        · exact ⟨_, (getElem?_set_eq_some _ _ _ _ _).2 (Or.inl ⟨rfl, hf, rfl⟩), rfl⟩
      · intro g file1 n hg1 hn
        simp only [getElem?_set_eq_some] at hg1
        rcases hg1 with ⟨rfl, _, rfl⟩ | ⟨_, hg1⟩
        · simp only [Option.some.injEq] at hn
          subst hn
          exact ⟨_, (getElem?_snoc_eq_some _ _ _ _).2 (Or.inr ⟨rfl, rfl⟩), rfl⟩
        · obtain ⟨nd, k1, k2⟩ := h1.file_node g file1 n hg1 hn
          exact ⟨nd, (getElem?_snoc_eq_some _ _ _ _).2 (Or.inl k1), k2⟩
      · intro p g hp
        obtain ⟨file1, k1, k2⟩ := h1.paths_file p g hp
        by_cases hgf : g = f
        · subst hgf
          rw [hfile] at k1
          simp only [Option.some.injEq] at k1
          subst k1
          exact ⟨_, (getElem?_set_eq_some _ _ _ _ _).2 (Or.inl ⟨rfl, hf, rfl⟩), k2⟩
        · exact ⟨file1, (getElem?_set_eq_some _ _ _ _ _).2 (Or.inr ⟨hgf, k1⟩), k2⟩
      · intro g file1 hg1
        simp only [getElem?_set_eq_some] at hg1
        rcases hg1 with ⟨rfl, _, rfl⟩ | ⟨_, hg1⟩
        · exact h1.file_paths _ file hfile
        · exact h1.file_paths g file1 hg1
      · exact h1.rule_lt
      · exact h1.rules_lt
      · exact h1.paths_nodup

theorem WF_AddRule {s s1 : State} {name command : Str} {r : Nat} (h : s.WF)
    (hg : s.AddRule name command = some (s1, r)) : s1.WF := by
  unfold State.AddRule at hg
  split at hg
  · simp at hg
  · simp only [Option.some.injEq, Prod.mk.injEq] at hg
    obtain ⟨rfl, rfl⟩ := hg
    refine ⟨h.inputs_lt, h.outputs_lt, h.out_edges_lt, h.in_edge_lt, h.inputs_iff,
      h.outputs_iff, h.file_node_lt, h.paths_lt, h.edges_eq, h.node_file_lt, h.node_file,
      h.file_node, h.paths_file, h.file_paths, ?_, ?_, h.paths_nodup⟩
    · intro e ed r he hr
      have := h.rule_lt e ed r he hr
      simp only [List.length_append, List.length_singleton]
      omega
    · intro name1 r hr
      simp only [List.length_append, List.length_singleton]
      rw [lookup_mapSet] at hr
      split at hr
      · simp only [Option.some.injEq] at hr
        omega
      · have := h.rules_lt name1 r hr
        omega

theorem WF_AddEdge {s : State} (h : s.WF) (rule : Option Nat)
    (hrule : ∀ r, rule = some r → r < s.rules.length) :
    (s.AddEdge rule).1.WF ∧ (s.AddEdge rule).2 < (s.AddEdge rule).1.edges.length := by
  unfold State.AddEdge
  refine ⟨?_, by simp⟩
  constructor
  · intro e ed he n hn
    simp only [getElem?_snoc_eq_some] at he
    rcases he with he | ⟨_, rfl⟩
    · exact h.inputs_lt e ed he n hn
    · simp at hn
  · intro e ed he n hn
    simp only [getElem?_snoc_eq_some] at he
    rcases he with he | ⟨_, rfl⟩
    · exact h.outputs_lt e ed he n hn
    · simp at hn
  · intro n nd hnd e he
    have := h.out_edges_lt n nd hnd e he
    simp; omega
  · intro n nd hnd e he
    have := h.in_edge_lt n nd hnd e he
    simp; omega
  · intro e ed n nd he hnd
    simp only [getElem?_snoc_eq_some] at he
    rcases he with he | ⟨rfl, rfl⟩
    · exact h.inputs_iff e ed n nd he hnd
    · simp only [List.not_mem_nil, false_iff]
      intro hmem
      exact Nat.lt_irrefl _ (h.out_edges_lt n nd hnd _ hmem)
  · intro e ed n nd he hnd
    simp only [getElem?_snoc_eq_some] at he
    rcases he with he | ⟨rfl, rfl⟩
    · exact h.outputs_iff e ed n nd he hnd
    · simp only [List.not_mem_nil, false_iff]
      intro hmem
      exact Nat.lt_irrefl _ (h.in_edge_lt n nd hnd _ hmem)
  · exact h.file_node_lt
  · exact h.paths_lt
  · simp [h.edges_eq, List.range_succ]
  · exact h.node_file_lt
  · exact h.node_file
  · exact h.file_node
  · exact h.paths_file
  · exact h.file_paths
  · intro e ed r he hr
    simp only [getElem?_snoc_eq_some] at he
    rcases he with he | ⟨_, rfl⟩
    · exact h.rule_lt e ed r he hr
    · exact hrule r hr
  · exact h.rules_lt
  · exact h.paths_nodup

theorem WF_AddEdgeByName {s : State} (h : s.WF) (rule_name : Str) :
    (s.AddEdgeByName rule_name).1.WF := by
  unfold State.AddEdgeByName
  split
  · rename_i rule hrule
    refine (WF_AddEdge h rule ?_).1
    intro r hr
    subst hr
    exact h.rules_lt rule_name r hrule
  · rename_i hnone
    refine (@WF_AddEdge { s with rules_ := s.rules_ ++ [(rule_name, none)] } ?_ none
      (by simp)).1
    refine ⟨h.inputs_lt, h.outputs_lt, h.out_edges_lt, h.in_edge_lt, h.inputs_iff,
      h.outputs_iff, h.file_node_lt, h.paths_lt, h.edges_eq, h.node_file_lt, h.node_file,
      h.file_node, h.paths_file, h.file_paths, h.rule_lt, ?_, h.paths_nodup⟩
    intro name1 r hr
    simp only [List.lookup_append] at hr
    cases h3 : List.lookup name1 s.rules_ with
    | some x =>
      rw [h3] at hr
      simp only [Option.or_some, Option.some.injEq] at hr
      subst hr
      exact h.rules_lt name1 r h3
    | none =>
      rw [h3] at hr
      simp only [Option.none_or, List.lookup] at hr
      split at hr <;> simp at hr

theorem WF_AddInOut {s s1 : State} {edge : Nat} {inout : InOut} {path : Str} (h : s.WF)
    (hg : s.AddInOut edge inout path = some s1) : s1.WF := by
  unfold State.AddInOut at hg
  split at hg
  · simp at hg
  · rename_i s0 node hnode
    obtain ⟨h0, hlt⟩ := WF_GetNode h hnode
    split at hg
    · rename_i e nd he hnd
      have hedge : edge < s0.edges.length := lt_of_getElem?_eq_some he
      cases inout with
      | IN =>
        simp only [Option.some.injEq] at hg
        subst hg
        constructor
        · intro e1 ed1 he1 n hn
          simp only [getElem?_set_eq_some] at he1
          simp only [List.length_set]
          rcases he1 with ⟨_, _, rfl⟩ | ⟨_, he1⟩
          · simp only [List.mem_append, List.mem_singleton] at hn
            rcases hn with hn | rfl
            · exact h0.inputs_lt _ _ he n hn
            · exact hlt
          · exact h0.inputs_lt _ _ he1 n hn
        · intro e1 ed1 he1 n hn
          simp only [getElem?_set_eq_some] at he1
          simp only [List.length_set]
          rcases he1 with ⟨_, _, rfl⟩ | ⟨_, he1⟩
          · exact h0.outputs_lt _ _ he n hn
          · exact h0.outputs_lt _ _ he1 n hn
        · intro n nd1 hnd1 e1 he1
          simp only [getElem?_set_eq_some] at hnd1
          simp only [List.length_set]
          rcases hnd1 with ⟨_, _, rfl⟩ | ⟨_, hnd1⟩
          · simp only [List.mem_append, List.mem_singleton] at he1
            rcases he1 with he1 | rfl
            · exact h0.out_edges_lt _ _ hnd e1 he1
            · exact hedge
          · exact h0.out_edges_lt _ _ hnd1 e1 he1
        · intro n nd1 hnd1 e1 he1
          simp only [getElem?_set_eq_some] at hnd1
          simp only [List.length_set]
          rcases hnd1 with ⟨_, _, rfl⟩ | ⟨_, hnd1⟩
          · exact h0.in_edge_lt _ _ hnd e1 he1
          · exact h0.in_edge_lt _ _ hnd1 e1 he1
        · intro e1 ed1 n nd1 he1 hnd1
          simp only [getElem?_set_eq_some] at he1 hnd1
          rcases he1 with ⟨rfl, _, rfl⟩ | ⟨hne, he1⟩ <;>
            rcases hnd1 with ⟨rfl, _, rfl⟩ | ⟨hnn, hnd1⟩
          · simp
          · have := h0.inputs_iff _ _ _ _ he hnd1
            simp [List.mem_append, hnn, this]
          · have := h0.inputs_iff _ _ _ _ he1 hnd
            simp [List.mem_append, hne, this]
          · exact h0.inputs_iff _ _ _ _ he1 hnd1
        · intro e1 ed1 n nd1 he1 hnd1
          simp only [getElem?_set_eq_some] at he1 hnd1
          rcases he1 with ⟨rfl, _, rfl⟩ | ⟨hne, he1⟩ <;>
            rcases hnd1 with ⟨rfl, _, rfl⟩ | ⟨hnn, hnd1⟩
          · exact h0.outputs_iff _ e _ nd he hnd
          · exact h0.outputs_iff _ e _ nd1 he hnd1
          · exact h0.outputs_iff _ ed1 _ nd he1 hnd
          · exact h0.outputs_iff _ _ _ _ he1 hnd1
        · intro f file n hf hn
          simp only [List.length_set]
          exact h0.file_node_lt f file n hf hn
        · exact h0.paths_lt
        · simp only [List.length_set]
          exact h0.edges_eq
        · intro n nd1 hnd1
          simp only [getElem?_set_eq_some] at hnd1
          rcases hnd1 with ⟨_, _, rfl⟩ | ⟨_, hnd1⟩
          · exact h0.node_file_lt _ nd hnd
          · exact h0.node_file_lt _ nd1 hnd1
        · intro n nd1 hnd1
          simp only [getElem?_set_eq_some] at hnd1
          rcases hnd1 with ⟨rfl, _, rfl⟩ | ⟨_, hnd1⟩
          · exact h0.node_file _ nd hnd
          · exact h0.node_file _ nd1 hnd1
        · intro f file n hf hn
          obtain ⟨nd0, k1, k2⟩ := h0.file_node f file n hf hn
          by_cases hnn : n = node
          · subst hnn
            rw [hnd] at k1
            simp only [Option.some.injEq] at k1
            subst k1
            exact ⟨_, (getElem?_set_eq_some _ _ _ _ _).2 (Or.inl ⟨rfl, hlt, rfl⟩), k2⟩
          · exact ⟨nd0, (getElem?_set_eq_some _ _ _ _ _).2 (Or.inr ⟨hnn, k1⟩), k2⟩
        · exact h0.paths_file
        · exact h0.file_paths
        · intro e1 ed1 r he1 hr
          simp only [getElem?_set_eq_some] at he1
          rcases he1 with ⟨_, _, rfl⟩ | ⟨_, he1⟩
          · exact h0.rule_lt _ e r he hr
          · exact h0.rule_lt _ ed1 r he1 hr
        · exact h0.rules_lt
        · exact h0.paths_nodup
      | OUT =>
        simp only at hg
        split at hg
        · simp at hg
        · rename_i hnone
          simp only [ne_eq, Decidable.not_not] at hnone
          simp only [Option.some.injEq] at hg
          subst hg
          constructor
          · intro e1 ed1 he1 n hn
            simp only [getElem?_set_eq_some] at he1
            simp only [List.length_set]
            rcases he1 with ⟨_, _, rfl⟩ | ⟨_, he1⟩
            · exact h0.inputs_lt _ _ he n hn
            · exact h0.inputs_lt _ _ he1 n hn
          · intro e1 ed1 he1 n hn
            simp only [getElem?_set_eq_some] at he1
            simp only [List.length_set]
            rcases he1 with ⟨_, _, rfl⟩ | ⟨_, he1⟩
            · simp only [List.mem_append, List.mem_singleton] at hn
              rcases hn with hn | rfl
              · exact h0.outputs_lt _ _ he n hn
              · exact hlt
            · exact h0.outputs_lt _ _ he1 n hn
          · intro n nd1 hnd1 e1 he1
            simp only [getElem?_set_eq_some] at hnd1
            simp only [List.length_set]
            rcases hnd1 with ⟨_, _, rfl⟩ | ⟨_, hnd1⟩
            · exact h0.out_edges_lt _ _ hnd e1 he1
            · exact h0.out_edges_lt _ _ hnd1 e1 he1
          · intro n nd1 hnd1 e1 he1
            simp only [getElem?_set_eq_some] at hnd1
            simp only [List.length_set]
            rcases hnd1 with ⟨_, _, rfl⟩ | ⟨_, hnd1⟩
            · simp only [Option.some.injEq] at he1
              subst he1
              exact hedge
            · exact h0.in_edge_lt _ _ hnd1 e1 he1
          · intro e1 ed1 n nd1 he1 hnd1
            simp only [getElem?_set_eq_some] at he1 hnd1
            rcases he1 with ⟨rfl, _, rfl⟩ | ⟨hne, he1⟩ <;>
              rcases hnd1 with ⟨rfl, _, rfl⟩ | ⟨hnn, hnd1⟩
            · exact h0.inputs_iff _ e _ nd he hnd
            · exact h0.inputs_iff _ e _ nd1 he hnd1
            · exact h0.inputs_iff _ ed1 _ nd he1 hnd
            · exact h0.inputs_iff _ _ _ _ he1 hnd1
          · intro e1 ed1 n nd1 he1 hnd1
            simp only [getElem?_set_eq_some] at he1 hnd1
            rcases he1 with ⟨rfl, _, rfl⟩ | ⟨hne, he1⟩ <;>
              rcases hnd1 with ⟨rfl, _, rfl⟩ | ⟨hnn, hnd1⟩
            · simp
            · have := h0.outputs_iff _ _ _ _ he hnd1
              simp [List.mem_append, hnn, this]
            · have := h0.outputs_iff _ _ _ _ he1 hnd
              rw [this, hnone]
              simp only [reduceCtorEq, Option.some.injEq, false_iff]
              exact fun hh => hne hh.symm
            · exact h0.outputs_iff _ _ _ _ he1 hnd1
          · intro f file n hf hn
            simp only [List.length_set]
            exact h0.file_node_lt f file n hf hn
          · exact h0.paths_lt
          · simp only [List.length_set]
            exact h0.edges_eq
          · intro n nd1 hnd1
            simp only [getElem?_set_eq_some] at hnd1
            rcases hnd1 with ⟨_, _, rfl⟩ | ⟨_, hnd1⟩
            · exact h0.node_file_lt _ nd hnd
            · exact h0.node_file_lt _ nd1 hnd1
          · intro n nd1 hnd1
            simp only [getElem?_set_eq_some] at hnd1
            rcases hnd1 with ⟨rfl, _, rfl⟩ | ⟨_, hnd1⟩
            · exact h0.node_file _ nd hnd
            · exact h0.node_file _ nd1 hnd1
          · intro f file n hf hn
            obtain ⟨nd0, k1, k2⟩ := h0.file_node f file n hf hn
            by_cases hnn : n = node
            · subst hnn
              rw [hnd] at k1
              simp only [Option.some.injEq] at k1
              subst k1
              exact ⟨_, (getElem?_set_eq_some _ _ _ _ _).2 (Or.inl ⟨rfl, hlt, rfl⟩), k2⟩
            · exact ⟨nd0, (getElem?_set_eq_some _ _ _ _ _).2 (Or.inr ⟨hnn, k1⟩), k2⟩
          · exact h0.paths_file
          · exact h0.file_paths
          · intro e1 ed1 r he1 hr
            simp only [getElem?_set_eq_some] at he1
            rcases he1 with ⟨_, _, rfl⟩ | ⟨_, he1⟩
            · exact h0.rule_lt _ e r he hr
            · exact h0.rule_lt _ ed1 r he1 hr
          · exact h0.rules_lt
          · exact h0.paths_nodup
    · simp at hg

theorem AllClean_GetNode {s s1 : State} {path : Str} {n : Nat} (h : s.AllClean)
    (hg : s.GetNode path = some (s1, n)) : s1.AllClean := by
  unfold State.GetNode State.GetFile at hg
  intro m nd hm
  split at hg
  rename_i s0 f hs0
  have h0 : s0.nodes = s.nodes := by
    split at hs0 <;> (simp only [Prod.mk.injEq] at hs0; rw [← hs0.1])
  split at hg
  · simp at hg
  · split at hg
    · simp only [Option.some.injEq, Prod.mk.injEq] at hg
      rw [← hg.1, h0] at hm
      exact h m nd hm
    · simp only [Option.some.injEq, Prod.mk.injEq] at hg
      rw [← hg.1] at hm
      simp only [getElem?_snoc_eq_some, h0] at hm
      rcases hm with hm | ⟨_, rfl⟩
      · exact h m nd hm
      · rfl

theorem AllClean_AddInOut {s s1 : State} {edge : Nat} {inout : InOut} {path : Str}
    (h : s.AllClean) (hg : s.AddInOut edge inout path = some s1) : s1.AllClean := by
  unfold State.AddInOut at hg
  split at hg
  · simp at hg
  · rename_i s0 node hnode
    have h0 := AllClean_GetNode h hnode
    split at hg
    · rename_i e nd he hnd
      have hd := h0 _ _ hnd
      intro m nd1 hm
      cases inout with
      | IN =>
        simp only [Option.some.injEq] at hg
        subst hg
        simp only [getElem?_set_eq_some] at hm
        rcases hm with ⟨_, _, rfl⟩ | ⟨_, hm⟩
        · exact hd
        · exact h0 _ _ hm
      | OUT =>
        simp only at hg
        split at hg
        · simp at hg
        · simp only [Option.some.injEq] at hg
          subst hg
          simp only [getElem?_set_eq_some] at hm
          rcases hm with ⟨_, _, rfl⟩ | ⟨_, hm⟩
          · exact hd
          · exact h0 _ _ hm
    · simp at hg

theorem Built.built_inv {s : State} (h : Built s) : s.WF ∧ s.AllClean := by
  induction h with
  | empty => exact ⟨WF_empty, by intro n nd hn; simp [State.empty] at hn⟩
  | add_rule _ hr ih =>
    refine ⟨WF_AddRule ih.1 hr, ?_⟩
    unfold State.AddRule at hr
    split at hr
    · simp at hr
    · simp only [Option.some.injEq, Prod.mk.injEq] at hr
      rw [← hr.1]
      exact ih.2
  | add_edge rule _ hr ih => exact ⟨(WF_AddEdge ih.1 rule hr).1, ih.2⟩
  | add_edge_by_name name _ ih =>
    refine ⟨WF_AddEdgeByName ih.1 name, ?_⟩
    unfold State.AddEdgeByName
    split <;> exact ih.2
  | get_file path _ ih =>
    refine ⟨(WF_GetFile ih.1 path).1, ?_⟩
    unfold State.GetFile
    split <;> exact ih.2
  | get_node _ hg ih => exact ⟨(WF_GetNode ih.1 hg).1, AllClean_GetNode ih.2 hg⟩
  | add_in_out _ hg ih => exact ⟨WF_AddInOut ih.1 hg, AllClean_AddInOut ih.2 hg⟩

theorem Built.of_step {s s1 : State} {op : Op} (h : Built s) (hs : s.step op = some s1) :
    Built s1 := by
  cases op with
  | addRule name command =>
    simp only [State.step, Option.map_eq_some'] at hs
    obtain ⟨⟨s2, r⟩, h1, rfl⟩ := hs
    exact Built.add_rule h h1
  | addEdge rule =>
    cases rule with
    | none =>
      simp only [State.step, Option.some.injEq] at hs
      subst hs
      exact Built.add_edge none h (by simp)
    | some r =>
      simp only [State.step] at hs
      split at hs
      · rename_i hr
        simp only [Option.some.injEq] at hs
        subst hs
        refine Built.add_edge (some r) h ?_
        intro r1 h1
        simp only [Option.some.injEq] at h1
        subst h1
        exact hr
      · simp at hs
  | addEdgeByName rule_name =>
    simp only [State.step, Option.some.injEq] at hs
    subst hs
    exact Built.add_edge_by_name rule_name h
  | getFile path =>
    simp only [State.step, Option.some.injEq] at hs
    subst hs
    exact Built.get_file path h
  | getNode path =>
    simp only [State.step, Option.map_eq_some'] at hs
    obtain ⟨⟨s2, r⟩, h1, rfl⟩ := hs
    exact Built.get_node h h1
  | addInOut edge inout path => exact Built.add_in_out h hs

theorem Built.of_run {ops : List Op} :
    ∀ {s s1 : State}, Built s → s.run ops = some s1 → Built s1 := by
  induction ops with
  | nil =>
    intro s s1 h hs
    simp only [State.run, Option.some.injEq] at hs
    subst hs
    exact h
  | cons op ops ih =>
    intro s s1 h hs
    simp only [State.run] at hs
    split at hs
    · simp at hs
    · rename_i s2 h2
      exact ih (Built.of_step h h2) hs

theorem chainState_run : State.empty.run chainScript = some chainState := by decide

theorem chainState_built : Built chainState := Built.of_run Built.empty chainState_run

/-- C1: in every state built from the empty state by the graph-building
operations (calls that return, so none that trips the single-producer
assertion), every entry of the edge vector is an edge `E` such that for every
node `N`: `N` is in `E.inputs_` iff `E` is in `N.out_edges_`, and `N` is in
`E.outputs_` iff `N.in_edge_` is `E`; and no node is listed in the outputs of
two different edges. -/
theorem C1_bidirectional_single_producer (s : State) (h : Built s) :
    (∀ e ∈ s.edges_, ∃ ed, s.edges[e]? = some ed ∧
      ∀ (n : Nat) (nd : Node), s.nodes[n]? = some nd →
        ((n ∈ ed.inputs_ ↔ e ∈ nd.out_edges_) ∧
          (n ∈ ed.outputs_ ↔ nd.in_edge_ = some e))) ∧
    (∀ e1 ∈ s.edges_, ∀ e2 ∈ s.edges_, ∀ (ed1 ed2 : Edge) (n : Nat),
      s.edges[e1]? = some ed1 → s.edges[e2]? = some ed2 →
      n ∈ ed1.outputs_ → n ∈ ed2.outputs_ → e1 = e2) := by
  have hw := h.built_inv.1
  constructor
  · intro e he
    rw [hw.edges_eq, List.mem_range] at he
    obtain ⟨ed, hed⟩ : ∃ ed, s.edges[e]? = some ed := by
      rw [List.getElem?_eq_getElem he]
      exact ⟨_, rfl⟩
    exact ⟨ed, hed, fun n nd hnd =>
      ⟨hw.inputs_iff e ed n nd hed hnd, hw.outputs_iff e ed n nd hed hnd⟩⟩
  · intro e1 _ e2 _ ed1 ed2 n h1 h2 hn1 hn2
    have hn : n < s.nodes.length := hw.outputs_lt e1 ed1 h1 n hn1
    obtain ⟨nd, hnd⟩ : ∃ nd, s.nodes[n]? = some nd := by
      rw [List.getElem?_eq_getElem hn]
      exact ⟨_, rfl⟩
    have a1 := (hw.outputs_iff e1 ed1 n nd h1 hnd).1 hn1
    have a2 := (hw.outputs_iff e2 ed2 n nd h2 hnd).1 hn2
    rw [a1] at a2
    exact Option.some.inj a2

theorem C1_bidirectional_single_producer_witness :
    Built chainState ∧
    (∀ e ∈ chainState.edges_, ∃ ed, chainState.edges[e]? = some ed ∧
      ∀ (n : Nat) (nd : Node), chainState.nodes[n]? = some nd →
        ((n ∈ ed.inputs_ ↔ e ∈ nd.out_edges_) ∧
          (n ∈ ed.outputs_ ↔ nd.in_edge_ = some e))) ∧
    (∀ e1 ∈ chainState.edges_, ∀ e2 ∈ chainState.edges_, ∀ (ed1 ed2 : Edge) (n : Nat),
      chainState.edges[e1]? = some ed1 → chainState.edges[e2]? = some ed2 →
      n ∈ ed1.outputs_ → n ∈ ed2.outputs_ → e1 = e2) :=
  ⟨chainState_built, C1_bidirectional_single_producer chainState chainState_built⟩

theorem getElem?_some_of_lt {α : Type} {l : List α} {i : Nat} (h : i < l.length) :
    ∃ x, l[i]? = some x := by
  rw [List.getElem?_eq_getElem h]
  exact ⟨_, rfl⟩

theorem dirty_eq_true_iff {s : State} {n : Nat} :
    s.dirty n = true ↔ ∃ nd, s.nodes[n]? = some nd ∧ nd.dirty_ = true := by
  unfold State.dirty
  cases h : s.nodes[n]? with
  | none => simp
  | some nd => simp

theorem SameGraph.sg_refl (s : State) : SameGraph s s :=
  ⟨rfl, rfl, rfl, rfl, rfl, rfl, rfl, fun _ nd h => ⟨nd.dirty_, h, fun h1 => h1⟩⟩

theorem SameGraph.sg_trans {s s1 s2 : State} (h1 : SameGraph s s1) (h2 : SameGraph s1 s2) :
    SameGraph s s2 := by
  refine ⟨h2.files.trans h1.files, h2.rules.trans h1.rules, h2.edges.trans h1.edges,
    h2.stat_cache_.trans h1.stat_cache_, h2.rules_.trans h1.rules_,
    h2.edges_.trans h1.edges_, h2.length.trans h1.length, ?_⟩
  intro n nd hn
  obtain ⟨d1, hd1, hm1⟩ := h1.node n nd hn
  obtain ⟨d2, hd2, hm2⟩ := h2.node n _ hd1
  exact ⟨d2, hd2, fun h => hm2 (hm1 h)⟩

theorem SameGraph.node_rev {s s1 : State} (h : SameGraph s s1) {n : Nat} {nd1 : Node}
    (hn : s1.nodes[n]? = some nd1) :
    ∃ nd, s.nodes[n]? = some nd ∧ nd1 = { nd with dirty_ := nd1.dirty_ } ∧
      (nd.dirty_ = true → nd1.dirty_ = true) := by
  have hlt : n < s.nodes.length := h.length ▸ lt_of_getElem?_eq_some hn
  obtain ⟨nd, hnd⟩ := getElem?_some_of_lt hlt
  obtain ⟨d, hd, hm⟩ := h.node n nd hnd
  rw [hn] at hd
  simp only [Option.some.injEq] at hd
  subst hd
  exact ⟨nd, hnd, rfl, hm⟩

theorem SameGraph.dirty_mono {s s1 : State} (h : SameGraph s s1) {n : Nat}
    (hd : s.dirty n = true) : s1.dirty n = true := by
  rw [dirty_eq_true_iff] at hd ⊢
  obtain ⟨nd, hn, hdn⟩ := hd
  obtain ⟨d, hd1, hm⟩ := h.node n nd hn
  exact ⟨_, hd1, hm hdn⟩

theorem SameGraph.WF {s s1 : State} (h : SameGraph s s1) (hw : s.WF) : s1.WF := by
  constructor
  · intro e ed he n hn
    rw [h.edges] at he
    rw [h.length]
    exact hw.inputs_lt e ed he n hn
  · intro e ed he n hn
    rw [h.edges] at he
    rw [h.length]
    exact hw.outputs_lt e ed he n hn
  · intro n nd1 hn e he
    obtain ⟨nd, hnd, heq, _⟩ := h.node_rev hn
    rw [h.edges]
    rw [heq] at he
    exact hw.out_edges_lt n nd hnd e he
  · intro n nd1 hn e he
    obtain ⟨nd, hnd, heq, _⟩ := h.node_rev hn
    rw [h.edges]
    rw [heq] at he
    exact hw.in_edge_lt n nd hnd e he
  · intro e ed n nd1 he hn
    obtain ⟨nd, hnd, heq, _⟩ := h.node_rev hn
    rw [h.edges] at he
    rw [heq]
    exact hw.inputs_iff e ed n nd he hnd
  · intro e ed n nd1 he hn
    obtain ⟨nd, hnd, heq, _⟩ := h.node_rev hn
    rw [h.edges] at he
    rw [heq]
    exact hw.outputs_iff e ed n nd he hnd
  · intro f file n hf hn
    rw [h.files] at hf
    rw [h.length]
    exact hw.file_node_lt f file n hf hn
  · intro p f hp
    rw [h.stat_cache_] at hp
    rw [h.files]
    exact hw.paths_lt p f hp
  · rw [h.edges_, h.edges]
    exact hw.edges_eq
  · intro n nd1 hn
    obtain ⟨nd, hnd, heq, _⟩ := h.node_rev hn
    rw [h.files, heq]
    exact hw.node_file_lt n nd hnd
  · intro n nd1 hn
    obtain ⟨nd, hnd, heq, _⟩ := h.node_rev hn
    rw [h.files, heq]
    exact hw.node_file n nd hnd
  · intro f file n hf hn
    rw [h.files] at hf
    obtain ⟨nd, k1, k2⟩ := hw.file_node f file n hf hn
    obtain ⟨d, k3, _⟩ := h.node n nd k1
    exact ⟨_, k3, k2⟩
  · intro p f hp
    rw [h.stat_cache_] at hp
    rw [h.files]
    exact hw.paths_file p f hp
  · intro f file hf
    rw [h.files] at hf
    rw [h.stat_cache_]
    exact hw.file_paths f file hf
  · intro e ed r he hr
    rw [h.edges] at he
    rw [h.rules]
    exact hw.rule_lt e ed r he hr
  · intro name r hr
    rw [h.rules_] at hr
    rw [h.rules]
    exact hw.rules_lt name r hr
  · rw [h.stat_cache_]
    exact hw.paths_nodup

theorem SameGraph.step_iff {s s1 : State} (h : SameGraph s s1) (a b : Nat) :
    Step s1 a b ↔ Step s a b := by
  unfold Step
  rw [h.edges, h.edges_]

theorem SameGraph.cleanCard_le {s s1 : State} (h : SameGraph s s1) :
    cleanCard s1 ≤ cleanCard s := by
  unfold cleanCard
  apply Finset.card_le_card
  intro n
  simp only [Finset.mem_filter, Finset.mem_range, h.length]
  rintro ⟨h1, h2⟩
  refine ⟨h1, ?_⟩
  cases hd : s.dirty n with
  | false => rfl
  | true => rw [h.dirty_mono hd] at h2; exact absurd h2 (by simp)

/-- The assignment `dirty_ = true` in `Node::MarkDirty`. -/
theorem setDirty_spec {s : State} {n : Nat} {nd : Node} (hn : s.nodes[n]? = some nd)
    (hd : nd.dirty_ = false) :
    SameGraph s { s with nodes := s.nodes.set n { nd with dirty_ := true } } ∧
    State.dirty { s with nodes := s.nodes.set n { nd with dirty_ := true } } n = true ∧
    cleanCard { s with nodes := s.nodes.set n { nd with dirty_ := true } } < cleanCard s ∧
    (∀ m, m ≠ n →
      State.dirty { s with nodes := s.nodes.set n { nd with dirty_ := true } } m = s.dirty m) := by
  have hlt := lt_of_getElem?_eq_some hn
  have hsg : SameGraph s { s with nodes := s.nodes.set n { nd with dirty_ := true } } := by
    refine ⟨rfl, rfl, rfl, rfl, rfl, rfl, by simp, ?_⟩
    intro m md hm
    by_cases hmn : m = n
    · subst hmn
      rw [hn] at hm
      simp only [Option.some.injEq] at hm
      subst hm
      exact ⟨true, by simp [hlt], fun _ => rfl⟩
    · refine ⟨md.dirty_, ?_, fun h => h⟩
      simp only [List.getElem?_set_ne (Ne.symm hmn)]
      exact hm
  have hdn : State.dirty { s with nodes := s.nodes.set n { nd with dirty_ := true } } n = true := by
    rw [dirty_eq_true_iff]
    exact ⟨{ nd with dirty_ := true }, by simp [hlt], rfl⟩
  refine ⟨hsg, hdn, ?_, ?_⟩
  · unfold cleanCard
    apply Finset.card_lt_card
    rw [Finset.ssubset_iff_of_subset]
    · refine ⟨n, ?_, ?_⟩
      · simp only [Finset.mem_filter, Finset.mem_range]
        refine ⟨hlt, ?_⟩
        unfold State.dirty
        rw [hn]
        exact hd
      · simp only [Finset.mem_filter, Finset.mem_range, not_and]
        intro _
        rw [hdn]
        simp
    · intro m
      simp only [Finset.mem_filter, Finset.mem_range, List.length_set]
      rintro ⟨h1, h2⟩
      refine ⟨h1, ?_⟩
      cases hd : s.dirty m with
      | false => rfl
      | true => rw [hsg.dirty_mono hd] at h2; exact absurd h2 (by simp)
  · intro m hm
    unfold State.dirty
    simp only [List.getElem?_set_ne (Ne.symm hm)]

theorem SameGraph.sg_downstream {s s1 : State} (h : SameGraph s s1) {a b : Nat}
    (hd : Downstream s1 a b) : Downstream s a b :=
  Relation.ReflTransGen.mono (fun x y hxy => (h.step_iff x y).1 hxy) hd

theorem forEach_spec {body : State → Nat → Option State} (I : State → Prop)
    (Q : Nat → State → Prop)
    (hQ : ∀ x s s1, Q x s → SameGraph s s1 → Q x s1) :
    ∀ (xs : List Nat),
      (∀ s x, x ∈ xs → I s →
        ∃ s1, body s x = some s1 ∧ I s1 ∧ SameGraph s s1 ∧ Q x s1) →
      ∀ s, I s → ∃ s1, forEach body xs s = some s1 ∧ I s1 ∧ SameGraph s s1 ∧
        ∀ x ∈ xs, Q x s1 := by
  intro xs
  induction xs with
  | nil =>
    intro _ s hI
    exact ⟨s, rfl, hI, SameGraph.sg_refl s, by simp⟩
  | cons x xs ih =>
    intro hbody s hI
    obtain ⟨s1, hb, hI1, hsg1, hq1⟩ := hbody s x (List.mem_cons_self x xs) hI
    obtain ⟨s2, hf, hI2, hsg2, hq2⟩ :=
      ih (fun t y hy ht => hbody t y (List.mem_cons_of_mem x hy) ht) s1 hI1
    refine ⟨s2, ?_, hI2, hsg1.sg_trans hsg2, ?_⟩
    · simp only [forEach, hb]
      exact hf
    · intro y hy
      rcases List.mem_cons.1 hy with rfl | hy
      · exact hQ _ _ _ hq1 hsg2
      · exact hq2 y hy

theorem MarkDirty_spec : ∀ (fuel : Nat) (s : State) (n : Nat),
    s.WF → n < s.nodes.length → cleanCard s < fuel →
    ∃ s1, Node.MarkDirty fuel s n = some s1 ∧ SameGraph s s1 ∧ s1.dirty n = true ∧
      (∀ X : Nat → Prop, ClosedExcept s X → ClosedExcept s1 X) ∧
      (∀ m, s1.dirty m = true → s.dirty m = true ∨ Downstream s n m) := by
  intro fuel
  induction fuel with
  | zero => intro s n _ _ h; exact absurd h (Nat.not_lt_zero _)
  | succ fuel ih =>
    intro s n hw hlt hc
    obtain ⟨nd, hn⟩ := getElem?_some_of_lt hlt
    simp only [Node.MarkDirty, hn]
    cases hd : nd.dirty_ with
    | true =>
      refine ⟨s, by simp, SameGraph.sg_refl s, ?_, fun _ h => h, fun _ h => Or.inl h⟩
      exact dirty_eq_true_iff.2 ⟨nd, hn, hd⟩
    | false =>
      simp only [Bool.false_eq_true, ↓reduceIte]
      obtain ⟨hsg0, hd0, hc0, hother⟩ := setDirty_spec hn hd
      generalize hs0 : ({ s with nodes := s.nodes.set n { nd with dirty_ := true } } : State) = s0
        at hsg0 hd0 hc0 hother
      -- the loop invariant
      let I : State → Prop := fun t =>
        SameGraph s0 t ∧
        (∀ X : Nat → Prop, ClosedExcept s X → ClosedExcept t (fun m => X m ∨ m = n)) ∧
        (∀ m, t.dirty m = true → s.dirty m = true ∨ Downstream s n m)
      have hI0 : I s0 := by
        refine ⟨SameGraph.sg_refl s0, ?_, ?_⟩
        · intro X hX m md hm hmd hXm e he ed hed o ho
          have hmn : m ≠ n := fun h => hXm (Or.inr h)
          obtain ⟨md0, hmd0, heq, _⟩ := hsg0.node_rev hm
          have hdm : s.dirty m = true := by
            rw [← hother m hmn]
            exact dirty_eq_true_iff.2 ⟨md, hm, hmd⟩
          obtain ⟨md1, hmd1, hmd1d⟩ := dirty_eq_true_iff.1 hdm
          rw [hmd0] at hmd1
          simp only [Option.some.injEq] at hmd1
          subst hmd1
          rw [heq] at he
          rw [hsg0.edges] at hed
          exact hsg0.dirty_mono
            (hX m md0 hmd0 hmd1d (fun h => hXm (Or.inl h)) e he ed hed o ho)
        · intro m hm
          by_cases hmn : m = n
          · subst hmn
            exact Or.inr Relation.ReflTransGen.refl
          · rw [hother m hmn] at hm
            exact Or.inl hm
      have hinner : ∀ (e : Nat) (ed : Edge), s.edges[e]? = some ed → e ∈ s.edges_ →
          n ∈ ed.inputs_ →
          ∀ t, I t → ∃ t1, forEach (Node.MarkDirty fuel) ed.outputs_ t = some t1 ∧ I t1 ∧
            SameGraph t t1 ∧ ∀ o ∈ ed.outputs_, t1.dirty o = true := by
        intro e ed hed hemem hin
        refine forEach_spec I (fun o t => t.dirty o = true)
          (fun _ _ _ hq hsg => hsg.dirty_mono hq) ed.outputs_ ?_
        intro t o ho ⟨hsgt, hclt, hsndt⟩
        have hst : SameGraph s t := hsg0.sg_trans hsgt
        have hwt : t.WF := hst.WF hw
        have hot : o < t.nodes.length := by
          rw [hst.length]
          exact hw.outputs_lt e ed hed o ho
        have hct : cleanCard t < fuel := by
          have := hsgt.cleanCard_le
          omega
        obtain ⟨t1, hm1, hsg1, hd1, hcl1, hsnd1⟩ := ih t o hwt hot hct
        refine ⟨t1, hm1, ⟨hsgt.sg_trans hsg1, ?_, ?_⟩, hsg1, hd1⟩
        · intro X hX
          exact hcl1 _ (hclt X hX)
        · intro m hm
          rcases hsnd1 m hm with h1 | h1
          · exact hsndt m h1
          · right
            have h2 : Downstream s o m := hst.sg_downstream h1
            exact Relation.ReflTransGen.head ⟨e, hemem, ed, hed, hin, ho⟩ h2
      have hloop := @forEach_spec
        (fun s1 edge => Edge.MarkDirtyWith (Node.MarkDirty fuel) s1 edge n) I
        (fun e t => ∀ ed, s.edges[e]? = some ed → ∀ o ∈ ed.outputs_, t.dirty o = true)
        (fun _ _ _ hq hsg ed hed o ho => hsg.dirty_mono (hq ed hed o ho)) nd.out_edges_
        (by
          intro t e he hIt
          have helt : e < s.edges.length := hw.out_edges_lt n nd hn e he
          obtain ⟨ed, hed⟩ := getElem?_some_of_lt helt
          have hin : n ∈ ed.inputs_ := (hw.inputs_iff e ed n nd hed hn).2 he
          have hemem : e ∈ s.edges_ := by
            rw [hw.edges_eq]
            exact List.mem_range.2 helt
          obtain ⟨t1, hf, hI1, hsg1, hq⟩ := hinner e ed hed hemem hin t hIt
          have hedt : t.edges[e]? = some ed := by
            rw [(hsg0.sg_trans hIt.1).edges]
            exact hed
          refine ⟨t1, ?_, hI1, hsg1, ?_⟩
          · simp only [Edge.MarkDirtyWith, hedt, hin, ↓reduceIte]
            exact hf
          · intro ed1 hed1 o ho
            rw [hed] at hed1
            simp only [Option.some.injEq] at hed1
            subst hed1
            exact hq o ho)
        s0 hI0
      obtain ⟨s1, hf, ⟨_, hcl, hsnd⟩, hsg1, hq⟩ := hloop
      have hsg : SameGraph s s1 := hsg0.sg_trans hsg1
      refine ⟨s1, hf, hsg, hsg1.dirty_mono hd0, ?_, hsnd⟩
      intro X hX m md hm hmd hXm e he ed hed o ho
      by_cases hmn : m = n
      · subst hmn
        obtain ⟨md0, hmd0, heq, _⟩ := hsg.node_rev hm
        rw [hn] at hmd0
        simp only [Option.some.injEq] at hmd0
        subst hmd0
        rw [heq] at he
        rw [hsg.edges] at hed
        exact hq e he ed hed o ho
      · exact hcl X hX m md hm hmd (fun h => h.elim hXm hmn) e he ed hed o ho

theorem forEach_mono {body body1 : State → Nat → Option State}
    (h : ∀ s x s1, body s x = some s1 → body1 s x = some s1) :
    ∀ (xs : List Nat) (s s1 : State), forEach body xs s = some s1 →
      forEach body1 xs s = some s1 := by
  intro xs
  induction xs with
  | nil => intro s s1 hs; exact hs
  | cons x xs ih =>
    intro s s1 hs
    simp only [forEach] at hs ⊢
    split at hs
    · simp at hs
    · rename_i s2 h2
      rw [h _ _ _ h2]
      exact ih _ _ hs

/-- The result of `Node.MarkDirty` does not depend on the bound, once the bound
is large enough for a result. -/
theorem MarkDirty_fuel_mono : ∀ (fuel : Nat) (s : State) (n : Nat) (s1 : State),
    Node.MarkDirty fuel s n = some s1 → Node.MarkDirty (fuel + 1) s n = some s1 := by
  intro fuel
  induction fuel with
  | zero => intro s n s1 h; simp [Node.MarkDirty] at h
  | succ fuel ih =>
    intro s n s1 h
    rw [Node.MarkDirty] at h ⊢
    cases hnd : s.nodes[n]? with
    | none => simp [hnd] at h
    | some nd =>
      simp only [hnd] at h ⊢
      cases hd : nd.dirty_ with
      | true =>
        simp only [hd, ↓reduceIte] at h ⊢
        exact h
      | false =>
        simp only [hd, Bool.false_eq_true, ↓reduceIte] at h ⊢
        refine forEach_mono ?_ _ _ _ h
        intro t e t1 ht
        unfold Edge.MarkDirtyWith at ht ⊢
        cases hed : t.edges[e]? with
        | none => simp [hed] at ht
        | some ed =>
          simp only [hed] at ht ⊢
          by_cases hin : n ∈ ed.inputs_
          · simp only [hin, ↓reduceIte] at ht ⊢
            exact forEach_mono (fun a b c hc => ih a b c hc) _ _ _ ht
          · simp only [hin, ↓reduceIte] at ht ⊢
            exact ht

theorem MarkDirty_fuel_le {fuel fuel1 : Nat} {s : State} {n : Nat} {s1 : State}
    (h : Node.MarkDirty fuel s n = some s1) (hle : fuel ≤ fuel1) :
    Node.MarkDirty fuel1 s n = some s1 := by
  induction hle with
  | refl => exact h
  | step _ ih => exact MarkDirty_fuel_mono _ _ _ _ ih

theorem cleanCard_le_length (s : State) : cleanCard s ≤ s.nodes.length := by
  unfold cleanCard
  calc (Finset.filter (fun n => s.dirty n = false) (Finset.range s.nodes.length)).card
      ≤ (Finset.range s.nodes.length).card := Finset.card_filter_le _ _
    _ = s.nodes.length := Finset.card_range _

/-- What `FileStat::Touch` does on a record that has a node. -/
theorem Touch_spec {s : State} (hw : s.WF) {f n : Nat} {file : FileStat} (mtime : Int)
    (hf : s.files[f]? = some file) (hn : file.node_ = some n) :
    ∃ s1, FileStat.Touch s f mtime = some s1 ∧ SameGraph s s1 ∧ s1.dirty n = true ∧
      (∀ X : Nat → Prop, ClosedExcept s X → ClosedExcept s1 X) ∧
      (∀ m, s1.dirty m = true → s.dirty m = true ∨ Downstream s n m) := by
  have hlt := hw.file_node_lt f file n hf hn
  have hc : cleanCard s < s.nodes.length + 1 := Nat.lt_succ_of_le (cleanCard_le_length s)
  obtain ⟨s1, h1, h2⟩ := MarkDirty_spec (s.nodes.length + 1) s n hw hlt hc
  refine ⟨s1, ?_, h2⟩
  simp only [FileStat.Touch, hf, hn]
  exact h1

theorem ClosedExcept_GetFile {s : State} (path : Str) {X : Nat → Prop}
    (h : ClosedExcept s X) : ClosedExcept (s.GetFile path).1 X := by
  unfold State.GetFile
  split
  · exact h
  · exact h

/-- The call `touch(path, mtime)` returns, and keeps the state well formed and
the dirty flags closed. -/
theorem touch_spec {s : State} (hw : s.WF) (path : Str) (mtime : Int) :
    ∃ s1, s.touch path mtime = some s1 ∧ s1.WF ∧
      (∀ X : Nat → Prop, ClosedExcept s X → ClosedExcept s1 X) := by
  obtain ⟨hw0, hlt0⟩ := WF_GetFile hw path
  unfold State.touch
  generalize hg : s.GetFile path = r at hw0 hlt0
  obtain ⟨s0, f⟩ := r
  have hcl : ∀ X : Nat → Prop, ClosedExcept s X → ClosedExcept s0 X := by
    intro X hX
    have := ClosedExcept_GetFile path hX
    rw [hg] at this
    exact this
  simp only at hw0 hlt0 ⊢
  obtain ⟨file, hfile⟩ := getElem?_some_of_lt hlt0
  cases hn : file.node_ with
  | none =>
    refine ⟨s0, ?_, hw0, hcl⟩
    simp only [FileStat.Touch, hfile, hn]
  | some n =>
    obtain ⟨s1, h1, hsg, _, h3, _⟩ := Touch_spec hw0 mtime hfile hn
    exact ⟨s1, h1, hsg.WF hw0, fun X hX => h3 X (hcl X hX)⟩

theorem touchAll_spec (ts : List (Str × Int)) : ∀ {s : State}, s.WF →
    ∃ s1, s.touchAll ts = some s1 ∧ s1.WF ∧
      (∀ X : Nat → Prop, ClosedExcept s X → ClosedExcept s1 X) := by
  induction ts with
  | nil => intro s hw; exact ⟨s, rfl, hw, fun _ h => h⟩
  | cons t ts ih =>
    intro s hw
    obtain ⟨path, mtime⟩ := t
    obtain ⟨s1, h1, hw1, hc1⟩ := touch_spec hw path mtime
    obtain ⟨s2, h2, hw2, hc2⟩ := ih hw1
    refine ⟨s2, ?_, hw2, fun X hX => hc2 X (hc1 X hX)⟩
    simp only [State.touchAll, h1]
    exact h2

theorem State.AllClean.closedExcept {s : State} (h : s.AllClean) (X : Nat → Prop) :
    ClosedExcept s X := by
  intro n nd hn hd
  rw [h n nd hn] at hd
  exact absurd hd (by simp)

/-- C2: from a state built by the graph-building operations (no node of such a
state is dirty), every finite sequence of `touch` calls returns, and in the
state it leaves, for every dirty node `N` and every edge `E` in
`N.out_edges_`, every output node of `E` is dirty. -/
theorem C2_dirty_closure (s : State) (h : Built s) (ts : List (Str × Int)) :
    s.AllClean ∧
    ∃ s1, s.touchAll ts = some s1 ∧
      ∀ (n : Nat) (nd : Node), s1.nodes[n]? = some nd → nd.dirty_ = true →
        ∀ e ∈ nd.out_edges_, ∃ ed, s1.edges[e]? = some ed ∧
          ∀ o ∈ ed.outputs_, ∃ od, s1.nodes[o]? = some od ∧ od.dirty_ = true := by
  obtain ⟨hw, hc⟩ := h.built_inv
  refine ⟨hc, ?_⟩
  obtain ⟨s1, h1, hw1, hcl⟩ := touchAll_spec ts hw
  refine ⟨s1, h1, ?_⟩
  intro n nd hn hd e he
  obtain ⟨ed, hed⟩ := getElem?_some_of_lt (hw1.out_edges_lt n nd hn e he)
  refine ⟨ed, hed, ?_⟩
  intro o ho
  have := hcl (fun _ => False) (hc.closedExcept _) n nd hn hd (fun hx => hx) e he ed hed o ho
  exact dirty_eq_true_iff.1 this

theorem C2_dirty_closure_witness :
    Built chainState ∧ chainState.AllClean ∧
    ∃ s1, chainState.touchAll [(['b'], 7), (['a'], 3)] = some s1 ∧
      ∀ (n : Nat) (nd : Node), s1.nodes[n]? = some nd → nd.dirty_ = true →
        ∀ e ∈ nd.out_edges_, ∃ ed, s1.edges[e]? = some ed ∧
          ∀ o ∈ ed.outputs_, ∃ od, s1.nodes[o]? = some od ∧ od.dirty_ = true :=
  ⟨chainState_built, C2_dirty_closure chainState chainState_built [(['b'], 7), (['a'], 3)]⟩

/-- In a well-formed state whose dirty flags are closed, everything downstream
of a dirty node is dirty. -/
theorem dirty_of_downstream {s : State} (hw : s.WF) (hc : ClosedExcept s (fun _ => False))
    {a b : Nat} (hab : Downstream s a b) (ha : s.dirty a = true) : s.dirty b = true := by
  induction hab with
  | refl => exact ha
  | tail _ hstep ih =>
    obtain ⟨e, _, ed, hed, hin, hout⟩ := hstep
    obtain ⟨nd, hnd, hd⟩ := dirty_eq_true_iff.1 ih
    have he : e ∈ nd.out_edges_ := (hw.inputs_iff e ed _ nd hed hnd).1 hin
    exact hc _ nd hnd hd (fun hx => hx) e he ed hed _ hout

theorem GetFile_of_lookup {s : State} {path : Str} {f : Nat}
    (h : s.stat_cache_.paths_.lookup path = some f) : s.GetFile path = (s, f) := by
  simp only [State.GetFile, h]

theorem State.AllClean.dirty_eq_false {s : State} (h : s.AllClean) (n : Nat) :
    s.dirty n = false := by
  cases hd : s.dirty n with
  | false => rfl
  | true =>
    obtain ⟨nd, hnd, hdn⟩ := dirty_eq_true_iff.1 hd
    rw [h n nd hnd] at hdn
    exact absurd hdn (by simp)

theorem chainState_touch (mtime : Int) : chainState.touch ['a'] mtime = some chainDirty := by
  rfl

/-- In a state built by the graph-building operations, `touch` on a path whose
record has the node `n` makes dirty exactly `n` and the nodes downstream of it. -/
theorem touch_exact {s : State} (h : Built s) (p : Str) (m : Int) {f n : Nat}
    {file : FileStat} (hp : s.stat_cache_.paths_.lookup p = some f)
    (hf : s.files[f]? = some file) (hn : file.node_ = some n) :
    ∃ s1, s.touch p m = some s1 ∧ SameGraph s s1 ∧
      ∀ k, s1.dirty k = true ↔ Downstream s n k := by
  obtain ⟨hw, hc⟩ := h.built_inv
  obtain ⟨s1, h1, hsg, hd, hcl, hsnd⟩ := Touch_spec hw m hf hn
  refine ⟨s1, ?_, hsg, ?_⟩
  · simp only [State.touch, GetFile_of_lookup hp]
    exact h1
  · intro k
    constructor
    · intro hk
      rcases hsnd k hk with h2 | h2
      · rw [hc.dirty_eq_false k] at h2
        exact absurd h2 (by simp)
      · exact h2
    · intro hk
      have hk1 : Downstream s1 n k :=
        Relation.ReflTransGen.mono (fun x y hxy => (hsg.step_iff x y).2 hxy) hk
      exact dirty_of_downstream (hsg.WF hw) (hcl _ (hc.closedExcept _)) hk1 hd

/-- C3: in a state built by the graph-building operations (so with no dirty
node), `touch(p, m)` for a path `p` whose file record has the node `n` returns
a state with the same graph in which a node is dirty iff it is `n` or is
transitively downstream of `n`; in the graph `a -> edge1 -> b -> edge2 -> c`,
touching `a` leaves `a`, `b` and `c` dirty. -/
theorem C3_touch_dirties_exactly_downstream (s : State) (h : Built s) (p : Str) (m : Int)
    (f n : Nat) (file : FileStat) (hp : s.stat_cache_.paths_.lookup p = some f)
    (hf : s.files[f]? = some file) (hn : file.node_ = some n) :
    (∃ s1, s.touch p m = some s1 ∧ SameGraph s s1 ∧
      ∀ k, s1.dirty k = true ↔ Downstream s n k) ∧
    (chainState.touch ['a'] m = some chainDirty ∧
      chainDirty.dirty 0 = true ∧ chainDirty.dirty 1 = true ∧ chainDirty.dirty 2 = true) :=
  ⟨touch_exact h p m hp hf hn, chainState_touch m, rfl, rfl, rfl⟩

theorem C3_touch_dirties_exactly_downstream_witness :
    Built chainState ∧
    (∃ s1, chainState.touch ['a'] 1 = some s1 ∧ SameGraph chainState s1 ∧
      ∀ k, s1.dirty k = true ↔ Downstream chainState 0 k) ∧
    (chainState.touch ['a'] 1 = some chainDirty ∧
      chainDirty.dirty 0 = true ∧ chainDirty.dirty 1 = true ∧ chainDirty.dirty 2 = true) :=
  ⟨chainState_built,
    C3_touch_dirties_exactly_downstream chainState chainState_built ['a'] 1 0 0
      { path_ := ['a'], mtime_ := 0, node_ := some 0 } (by decide) (by decide) rfl⟩

theorem inputStep_iff_step {s : State} (hw : s.WF) (a b : Nat) :
    InputStep s a b ↔ Step s b a := by
  constructor
  · rintro ⟨nd, e, ed, hnd, hin, hed, hb⟩
    have he : e ∈ s.edges_ := by
      rw [hw.edges_eq]
      exact List.mem_range.2 (lt_of_getElem?_eq_some hed)
    exact ⟨e, he, ed, hed, hb, (hw.outputs_iff e ed a nd hed hnd).2 hin⟩
  · rintro ⟨e, _, ed, hed, hb, ha⟩
    obtain ⟨nd, hnd⟩ := getElem?_some_of_lt (hw.outputs_lt e ed hed a ha)
    exact ⟨nd, e, ed, hnd, (hw.outputs_iff e ed a nd hed hnd).1 ha, hed, hb⟩

theorem downstream_of_upstream {s : State} (hw : s.WF) {a b : Nat}
    (h : Relation.ReflTransGen (InputStep s) a b) : Downstream s b a := by
  induction h with
  | refl => exact Relation.ReflTransGen.refl
  | tail _ hstep ih =>
    exact Relation.ReflTransGen.head ((inputStep_iff_step hw _ _).1 hstep) ih

theorem Acyclic.no_input_cycle {s : State} (hac : Acyclic s) (hw : s.WF) {a b : Nat}
    (hab : InputStep s a b) (hba : Relation.ReflTransGen (InputStep s) b a) : False := by
  have h1 : Step s b a := (inputStep_iff_step hw a b).1 hab
  have h2 : Downstream s a b := downstream_of_upstream hw hba
  exact hac a (Relation.TransGen.tail' h2 h1)

theorem upstream_lt {s : State} (hw : s.WF) {a b : Nat}
    (h : Relation.ReflTransGen (InputStep s) a b) (ha : a < s.nodes.length) :
    b < s.nodes.length := by
  induction h with
  | refl => exact ha
  | tail _ hstep _ =>
    obtain ⟨nd, e, ed, _, _, hed, hb⟩ := hstep
    exact hw.inputs_lt e ed hed _ hb

theorem PlanExt.ext_refl (s : State) (p : Plan) : PlanExt s p p :=
  ⟨fun _ h => h, fun _ h => Or.inl h, [], by simp, by simp⟩

theorem PlanExt.ext_trans {s : State} {p p1 p2 : Plan} (h1 : PlanExt s p p1)
    (h2 : PlanExt s p1 p2) : PlanExt s p p2 := by
  obtain ⟨a1, b1, n1, c1, d1⟩ := h1
  obtain ⟨a2, b2, n2, c2, d2⟩ := h2
  refine ⟨fun m hm => a2 m (a1 m hm), ?_, n1 ++ n2, ?_, ?_⟩
  · intro m hm
    rcases b2 m hm with h | h
    · exact b1 m h
    · exact Or.inr h
  · rw [c2, c1, List.append_assoc]
  · intro e he
    rcases List.mem_append.1 he with h | h
    · exact d1 e h
    · exact d2 e h

/-- The loop over the inputs in `Plan::AddTarget`. -/
theorem forInputs_spec {s : State} {addTarget : Plan → Nat → Option (Bool × Plan)}
    (Q : Nat → Plan → Prop) (hQ : ∀ i p p1, Q i p → PlanExt s p p1 → Q i p1) :
    ∀ (is : List Nat),
      (∀ p i, i ∈ is → ∃ b p1, addTarget p i = some (b, p1) ∧
        (b = true ↔ NeedsBuild s i) ∧ PlanExt s p p1 ∧ Q i p1) →
      ∀ (aw : Bool) (p : Plan), ∃ aw1 p1, forInputs addTarget is (aw, p) = some (aw1, p1) ∧
        (aw1 = true ↔ aw = true ∨ ∃ i ∈ is, NeedsBuild s i) ∧ PlanExt s p p1 ∧
        ∀ i ∈ is, Q i p1 := by
  intro is
  induction is with
  | nil =>
    intro _ aw p
    exact ⟨aw, p, rfl, by simp, PlanExt.ext_refl s p, by simp⟩
  | cons i is ih =>
    intro hbody aw p
    obtain ⟨b, p1, hb, hnb, hext1, hq1⟩ := hbody p i (List.mem_cons_self i is)
    obtain ⟨aw2, p2, hf, haw, hext2, hq2⟩ :=
      ih (fun q j hj => hbody q j (List.mem_cons_of_mem i hj)) (if b then true else aw) p1
    refine ⟨aw2, p2, ?_, ?_, hext1.ext_trans hext2, ?_⟩
    · simp only [forInputs, hb]
      exact hf
    · rw [haw]
      cases b with
      | true =>
        have := hnb.1 rfl
        simp only [↓reduceIte, true_or, List.mem_cons, exists_eq_or_imp, true_iff]
        exact Or.inr (Or.inl this)
      | false =>
        have hn : ¬ NeedsBuild s i := fun h => by simpa using hnb.2 h
        simp only [Bool.false_eq_true, ↓reduceIte, List.mem_cons, exists_eq_or_imp, hn,
          false_or]
    · intro j hj
      rcases List.mem_cons.1 hj with rfl | hj
      · exact hQ _ _ _ hq1 hext2
      · exact hq2 j hj

/-- What `Plan::AddTarget(Node*)` does in a well-formed acyclic state, for every
bound that is at least the number of nodes upstream of the target. -/
theorem AddTargetAux_spec {s : State} (hw : s.WF) (hac : Acyclic s) :
    ∀ (fuel : Nat) (A : Finset Nat) (n : Nat) (p : Plan), n < s.nodes.length →
      (∀ m, Relation.ReflTransGen (InputStep s) n m → m ∈ A) → A.card ≤ fuel →
      ∃ b p1, Plan.AddTargetAux fuel s p n = some (b, p1) ∧
        (b = true ↔ NeedsBuild s n) ∧ (b = false → p1 = p) ∧ PlanExt s p p1 ∧
        (ClosedExcept s (fun _ => False) →
          ∀ m, Relation.ReflTransGen (InputStep s) n m → NeedsBuild s m →
            m ∈ p1.want_) := by
  intro fuel
  induction fuel with
  | zero =>
    intro A n p _ hA hcard
    have hn : n ∈ A := hA n Relation.ReflTransGen.refl
    have : A = ∅ := Finset.card_eq_zero.1 (Nat.le_zero.1 hcard)
    rw [this] at hn
    exact absurd hn (Finset.not_mem_empty n)
  | succ fuel ih =>
    intro A n p hlt hA hcard
    obtain ⟨nd, hnd⟩ := getElem?_some_of_lt hlt
    have hnb_iff : NeedsBuild s n ↔ (nd.dirty_ = true ∧ nd.in_edge_ ≠ none) := by
      constructor
      · rintro ⟨nd1, h1, h2⟩
        rw [hnd] at h1
        simp only [Option.some.injEq] at h1
        subst h1
        exact h2
      · intro h
        exact ⟨nd, hnd, h⟩
    -- when the target itself needs no build, nothing upstream of it does
    have hnone : ¬ NeedsBuild s n → ClosedExcept s (fun _ => False) →
        ∀ m, Relation.ReflTransGen (InputStep s) n m → NeedsBuild s m → m ∈ p.want_ := by
      intro hnb hcl m hm hmb
      exfalso
      apply hnb
      rw [hnb_iff]
      constructor
      · obtain ⟨md, hmd, hmdd, _⟩ := hmb
        have hdm : s.dirty m = true := dirty_eq_true_iff.2 ⟨md, hmd, hmdd⟩
        have hdn := dirty_of_downstream hw hcl (downstream_of_upstream hw hm) hdm
        obtain ⟨nd1, h1, h2⟩ := dirty_eq_true_iff.1 hdn
        rw [hnd] at h1
        simp only [Option.some.injEq] at h1
        subst h1
        exact h2
      · rcases Relation.ReflTransGen.cases_head hm with rfl | ⟨i, hi, _⟩
        · exact ((hnb_iff).1 hmb).2
        · obtain ⟨nd1, e, _, h1, h2, _⟩ := hi
          rw [hnd] at h1
          simp only [Option.some.injEq] at h1
          subst h1
          rw [h2]
          simp
    simp only [Plan.AddTargetAux, hnd]
    cases hd : nd.dirty_ with
    | false =>
      have hnb : ¬ NeedsBuild s n := by
        rw [hnb_iff, hd]
        simp
      refine ⟨false, p, by simp, by simp [hnb], fun _ => rfl, PlanExt.ext_refl s p, hnone hnb⟩
    | true =>
      simp only [Bool.not_true, Bool.false_eq_true, ↓reduceIte]
      cases hin : nd.in_edge_ with
      | none =>
        have hnb : ¬ NeedsBuild s n := by
          rw [hnb_iff, hin]
          simp
        refine ⟨false, p, by simp, by simp [hnb], fun _ => rfl, PlanExt.ext_refl s p, hnone hnb⟩
      | some e =>
        have hnb : NeedsBuild s n := by
          rw [hnb_iff, hd, hin]
          simp
        obtain ⟨ed, hed⟩ := getElem?_some_of_lt (hw.in_edge_lt n nd hnd e hin)
        simp only [hed]
        have hnA : n ∈ A := hA n Relation.ReflTransGen.refl
        have hloop := @forInputs_spec s
          (fun p1 i => Plan.AddTargetAux fuel s p1 i)
          (fun i q => ClosedExcept s (fun _ => False) →
            ∀ m, Relation.ReflTransGen (InputStep s) i m → NeedsBuild s m → m ∈ q.want_)
          (fun i q q1 hq hext hcl m hm hmb => hext.1 m (hq hcl m hm hmb)) ed.inputs_
          (by
            intro q i hi
            have hstep : InputStep s n i := ⟨nd, e, ed, hnd, hin, hed, hi⟩
            have hilt : i < s.nodes.length := hw.inputs_lt e ed hed i hi
            have hA1 : ∀ m, Relation.ReflTransGen (InputStep s) i m → m ∈ A.erase n := by
              intro m hm
              rw [Finset.mem_erase]
              refine ⟨?_, hA m (Relation.ReflTransGen.head hstep hm)⟩
              rintro rfl
              exact hac.no_input_cycle hw hstep hm
            have hcard1 : (A.erase n).card ≤ fuel := by
              rw [Finset.card_erase_of_mem hnA]
              omega
            obtain ⟨b, q1, h1, h2, _, h4, h5⟩ := ih (A.erase n) i q hilt hA1 hcard1
            exact ⟨b, q1, h1, h2, h4, h5⟩)
          false { p with want_ := p.want_.insert n }
        obtain ⟨aw, p2, hf, haw, hext, hq⟩ := hloop
        simp only [hf]
        have hext0 : PlanExt s p { p with want_ := p.want_.insert n } := by
          refine ⟨?_, ?_, [], by simp, by simp⟩
          · intro m hm
            exact List.mem_insert_iff.2 (Or.inr hm)
          · intro m hm
            rcases List.mem_insert_iff.1 hm with rfl | h
            · exact Or.inr hnb
            · exact Or.inl h
        have hext3 : PlanExt s p2
            (if (!aw) = true then { p2 with ready_ := p2.ready_ ++ [e] } else p2) := by
          cases haw1 : aw with
          | true => simpa using PlanExt.ext_refl s p2
          | false =>
            simp only [Bool.not_false, ↓reduceIte]
            refine ⟨fun _ h => h, fun _ h => Or.inl h, [e], rfl, ?_⟩
            intro e1 he1
            rw [List.mem_singleton] at he1
            subst he1
            refine ⟨ed, hed, ?_⟩
            intro i hi hnbi
            have : aw = true := haw.2 (Or.inr ⟨i, hi, hnbi⟩)
            rw [haw1] at this
            exact absurd this (by simp)
        have hext_all := (hext0.ext_trans hext).ext_trans hext3
        refine ⟨true, _, rfl, by simp [hnb], by simp, hext_all, ?_⟩
        intro hcl m hm hmb
        apply hext3.1
        rcases Relation.ReflTransGen.cases_head hm with rfl | ⟨i, hi, him⟩
        · exact hext.1 _ (List.mem_insert_iff.2 (Or.inl rfl))
        · obtain ⟨nd1, e1, ed1, h1, h2, h3, h4⟩ := hi
          rw [hnd] at h1
          simp only [Option.some.injEq] at h1
          subst h1
          rw [hin] at h2
          simp only [Option.some.injEq] at h2
          subst h2
          rw [hed] at h3
          simp only [Option.some.injEq] at h3
          subst h3
          exact hq i h4 hcl m him hmb

theorem forInputs_mono {f g : Plan → Nat → Option (Bool × Plan)}
    (h : ∀ p i r, f p i = some r → g p i = some r) :
    ∀ (is : List Nat) (a : Bool × Plan) (r : Bool × Plan), forInputs f is a = some r →
      forInputs g is a = some r := by
  intro is
  induction is with
  | nil => intro a r hr; exact hr
  | cons i is ih =>
    intro a r hr
    obtain ⟨aw, p⟩ := a
    simp only [forInputs] at hr ⊢
    cases hf : f p i with
    | none => simp [hf] at hr
    | some r1 =>
      obtain ⟨b, p1⟩ := r1
      rw [hf] at hr
      rw [h _ _ _ hf]
      exact ih _ _ hr

/-- The result of `Plan.AddTargetAux` does not depend on the bound, once the
bound is large enough for a result. -/
theorem AddTargetAux_fuel_mono (s : State) : ∀ (fuel : Nat) (p : Plan) (n : Nat)
    (r : Bool × Plan), Plan.AddTargetAux fuel s p n = some r →
    Plan.AddTargetAux (fuel + 1) s p n = some r := by
  intro fuel
  induction fuel with
  | zero => intro p n r h; simp [Plan.AddTargetAux] at h
  | succ fuel ih =>
    intro p n r h
    rw [Plan.AddTargetAux] at h ⊢
    cases hnd : s.nodes[n]? with
    | none => simp [hnd] at h
    | some nd =>
      simp only [hnd] at h ⊢
      cases hd : nd.dirty_ with
      | false => simpa [hd] using h
      | true =>
        simp only [hd, Bool.not_true, Bool.false_eq_true, ↓reduceIte] at h ⊢
        cases hin : nd.in_edge_ with
        | none => simpa [hin] using h
        | some e =>
          simp only [hin] at h ⊢
          cases hed : s.edges[e]? with
          | none => simp [hed] at h
          | some ed =>
            simp only [hed] at h ⊢
            cases hf : forInputs (fun p1 i => Plan.AddTargetAux fuel s p1 i) ed.inputs_
                (false, { p with want_ := p.want_.insert n }) with
            | none => simp [hf] at h
            | some r1 =>
              rw [hf] at h
              rw [forInputs_mono (fun q i r2 hr2 => ih q i r2 hr2) _ _ _ hf]
              exact h

theorem AddTargetAux_fuel_le {s : State} {fuel fuel1 : Nat} {p : Plan} {n : Nat}
    {r : Bool × Plan} (h : Plan.AddTargetAux fuel s p n = some r) (hle : fuel ≤ fuel1) :
    Plan.AddTargetAux fuel1 s p n = some r := by
  induction hle with
  | refl => exact h
  | step _ ih => exact AddTargetAux_fuel_mono s _ _ _ _ ih

/-- What `Plan::AddTarget(Node*)` does in a well-formed acyclic state. -/
theorem AddTarget_spec {s : State} (hw : s.WF) (hac : Acyclic s) (p : Plan) {n : Nat}
    (hn : n < s.nodes.length) :
    ∃ b p1, Plan.AddTarget s p n = some (b, p1) ∧
      (b = true ↔ NeedsBuild s n) ∧ (b = false → p1 = p) ∧ PlanExt s p p1 ∧
      (ClosedExcept s (fun _ => False) →
        ∀ m, Relation.ReflTransGen (InputStep s) n m → NeedsBuild s m → m ∈ p1.want_) := by
  refine AddTargetAux_spec hw hac s.nodes.length (Finset.range s.nodes.length) n p hn ?_ ?_
  · intro m hm
    exact Finset.mem_range.2 (upstream_lt hw hm hn)
  · rw [Finset.card_range]

theorem Touched.touched_inv {s : State} (h : Touched s) :
    s.WF ∧ ClosedExcept s (fun _ => False) := by
  obtain ⟨s0, ts, hb, ht⟩ := h
  obtain ⟨hw, hc⟩ := hb.built_inv
  obtain ⟨s1, h1, hw1, hcl⟩ := touchAll_spec ts hw
  rw [ht] at h1
  simp only [Option.some.injEq] at h1
  subst h1
  exact ⟨hw1, hcl _ (hc.closedExcept _)⟩

/-- A numbering of the nodes that increases along every edge shows that the
graph has no cycle. -/
theorem acyclic_of_rank {s : State} (rank : Nat → Nat)
    (h : ∀ a b, Step s a b → rank a < rank b) : Acyclic s := by
  have key : ∀ a b, Relation.TransGen (Step s) a b → rank a < rank b := by
    intro a b hab
    induction hab with
    | single h1 => exact h _ _ h1
    | tail _ h1 ih => exact Nat.lt_trans ih (h _ _ h1)
  intro n hn
  exact Nat.lt_irrefl _ (key n n hn)

theorem chainDirty_touched : Touched chainDirty :=
  ⟨chainState, [(['a'], 1)], chainState_built, rfl⟩

theorem chainDirty_acyclic : Acyclic chainDirty := by
  apply acyclic_of_rank id
  rintro a b ⟨e, he, ed, hed, ha, hb⟩
  simp only [chainDirty, chainState, List.mem_cons, List.mem_singleton, List.not_mem_nil,
    or_false] at he
  rcases he with rfl | rfl
  · simp only [chainDirty, chainState, List.getElem?_cons_zero, Option.some.injEq] at hed
    subst hed
    simp only [List.mem_singleton] at ha hb
    subst ha hb
    decide
  · simp only [chainDirty, chainState, List.getElem?_cons_succ, List.getElem?_cons_zero,
      Option.some.injEq] at hed
    subst hed
    simp only [List.mem_singleton] at ha hb
    subst ha hb
    decide

/-- C4: in an acyclic state built by the graph-building operations and then
dirtied by `touch` calls only, `AddTarget(t)` on any plan returns, and
afterwards every dirty node `N` that has an incoming edge and is reachable from
`t` (`t` included) by steps from a node to an input of its incoming edge is in
the want set. -/
theorem C4_plan_completeness (s : State) (hs : Touched s) (hac : Acyclic s) (p : Plan)
    (t : Nat) (ht : t < s.nodes.length) :
    ∃ b p1, Plan.AddTarget s p t = some (b, p1) ∧
      ∀ (N : Nat) (nd : Node), Relation.ReflTransGen (InputStep s) t N →
        s.nodes[N]? = some nd → nd.dirty_ = true → nd.in_edge_ ≠ none → N ∈ p1.want_ := by
  obtain ⟨hw, hcl⟩ := hs.touched_inv
  obtain ⟨b, p1, h1, _, _, _, h5⟩ := AddTarget_spec hw hac p ht
  exact ⟨b, p1, h1, fun N nd hN hnd hd hin => h5 hcl N hN ⟨nd, hnd, hd, hin⟩⟩

theorem C4_plan_completeness_witness :
    Touched chainDirty ∧ Acyclic chainDirty ∧ 2 < chainDirty.nodes.length ∧
    ∃ b p1, Plan.AddTarget chainDirty Plan.fresh 2 = some (b, p1) ∧
      ∀ (N : Nat) (nd : Node), Relation.ReflTransGen (InputStep chainDirty) 2 N →
        chainDirty.nodes[N]? = some nd → nd.dirty_ = true → nd.in_edge_ ≠ none →
        N ∈ p1.want_ :=
  ⟨chainDirty_touched, chainDirty_acyclic, by decide,
    C4_plan_completeness chainDirty chainDirty_touched chainDirty_acyclic Plan.fresh 2
      (by decide)⟩

/-- C7: in a well-formed acyclic state, `AddTarget(n)` on a node `n` returns
(with the bound of `Plan.AddTarget` and with every larger bound), and returns
`true` iff `n` is dirty and has an incoming edge; when it returns `false` the
want set and the ready queue are unchanged. -/
theorem C7_add_target_result (s : State) (hw : s.WF) (hac : Acyclic s) (p : Plan) (n : Nat)
    (hn : n < s.nodes.length) :
    ∃ b p1, Plan.AddTarget s p n = some (b, p1) ∧
      (∀ fuel, s.nodes.length ≤ fuel → Plan.AddTargetAux fuel s p n = some (b, p1)) ∧
      (b = true ↔ ∃ nd, s.nodes[n]? = some nd ∧ nd.dirty_ = true ∧ nd.in_edge_ ≠ none) ∧
      (b = false → p1.want_ = p.want_ ∧ p1.ready_ = p.ready_) := by
  obtain ⟨b, p1, h1, h2, h3, _, _⟩ := AddTarget_spec hw hac p hn
  refine ⟨b, p1, h1, fun fuel hf => AddTargetAux_fuel_le h1 hf, h2, ?_⟩
  intro hb
  rw [h3 hb]
  exact ⟨rfl, rfl⟩

theorem C7_add_target_result_witness :
    chainDirty.WF ∧ Acyclic chainDirty ∧ 0 < chainDirty.nodes.length ∧
    ∃ b p1, Plan.AddTarget chainDirty Plan.fresh 0 = some (b, p1) ∧
      (∀ fuel, chainDirty.nodes.length ≤ fuel →
        Plan.AddTargetAux fuel chainDirty Plan.fresh 0 = some (b, p1)) ∧
      (b = true ↔
        ∃ nd, chainDirty.nodes[0]? = some nd ∧ nd.dirty_ = true ∧ nd.in_edge_ ≠ none) ∧
      (b = false → p1.want_ = Plan.fresh.want_ ∧ p1.ready_ = Plan.fresh.ready_) :=
  ⟨chainDirty_touched.touched_inv.1, chainDirty_acyclic, by decide,
    C7_add_target_result chainDirty chainDirty_touched.touched_inv.1 chainDirty_acyclic Plan.fresh 0
      (by decide)⟩

theorem Grow_GetNode {s s1 : State} {path : Str} {n : Nat}
    (hg : s.GetNode path = some (s1, n)) : Grow s s1 := by
  unfold State.GetNode State.GetFile at hg
  split at hg
  rename_i s0 f hs0
  have h0 : s0.nodes = s.nodes ∧ s0.edges = s.edges ∧ s0.edges_ = s.edges_ := by
    split at hs0 <;> (simp only [Prod.mk.injEq] at hs0; rw [← hs0.1]; exact ⟨rfl, rfl, rfl⟩)
  split at hg
  · simp at hg
  · split at hg
    · simp only [Option.some.injEq, Prod.mk.injEq] at hg
      rw [← hg.1]
      exact ⟨h0.2.1, h0.2.2, fun m nd hm => by rw [h0.1]; exact hm⟩
    · simp only [Option.some.injEq, Prod.mk.injEq] at hg
      rw [← hg.1]
      refine ⟨h0.2.1, h0.2.2, ?_⟩
      intro m nd hm
      simp only [getElem?_snoc_eq_some, h0.1]
      exact Or.inl hm

theorem Grow.acyclic {s s1 : State} (h : Grow s s1) (hac : Acyclic s) : Acyclic s1 := by
  intro n hn
  apply hac n
  refine Relation.TransGen.mono ?_ hn
  intro a b hab
  unfold Step at hab ⊢
  rw [h.1, h.2.1] at hab
  exact hab

theorem Grow.needsBuild {s s1 : State} (h : Grow s s1) {m : Nat} (hm : NeedsBuild s m) :
    NeedsBuild s1 m := by
  obtain ⟨nd, h1, h2⟩ := hm
  exact ⟨nd, h.2.2 m nd h1, h2⟩

theorem Grow.readyOK {s s1 : State} (h : Grow s s1) (hw : s.WF) {e : Nat}
    (he : ReadyOK s e) : ReadyOK s1 e := by
  obtain ⟨ed, hed, hin⟩ := he
  refine ⟨ed, by rw [h.1]; exact hed, ?_⟩
  intro i hi hnb
  apply hin i hi
  obtain ⟨nd, hnd⟩ := getElem?_some_of_lt (hw.inputs_lt e ed hed i hi)
  obtain ⟨nd1, h1, h2⟩ := hnb
  rw [h.2.2 i nd hnd] at h1
  simp only [Option.some.injEq] at h1
  subst h1
  exact ⟨nd, hnd, h2⟩

theorem Grow.grow_planInv {s s1 : State} (h : Grow s s1) (hw : s.WF) {p : Plan}
    (hp : PlanInv s p) : PlanInv s1 p :=
  ⟨fun m hm => h.needsBuild (hp.1 m hm), fun e he => h.readyOK hw (hp.2 e he)⟩

theorem Grow.grow_length_le {s s1 : State} (h : Grow s s1) :
    s.nodes.length ≤ s1.nodes.length := by
  by_contra hlt
  have hlt : s1.nodes.length < s.nodes.length := Nat.lt_of_not_le hlt
  obtain ⟨nd, hnd⟩ := getElem?_some_of_lt hlt
  exact Nat.lt_irrefl _ (lt_of_getElem?_eq_some (h.2.2 _ nd hnd))

theorem PlanExt.ext_planInv {s : State} {p p1 : Plan} (h : PlanExt s p p1) (hp : PlanInv s p) :
    PlanInv s p1 := by
  obtain ⟨_, h2, new, h3, h4⟩ := h
  constructor
  · intro m hm
    rcases h2 m hm with h | h
    · exact hp.1 m h
    · exact h
  · intro e he
    rw [h3] at he
    rcases List.mem_append.1 he with h | h
    · exact hp.2 e h
    · exact h4 e h

theorem FindWork_planInv {s : State} {p : Plan} (hp : PlanInv s p) :
    PlanInv s (Plan.FindWork p).2 := by
  unfold Plan.FindWork
  split
  · exact hp
  · rename_i e rest hr
    refine ⟨hp.1, ?_⟩
    intro e1 he1
    apply hp.2
    rw [hr]
    exact List.mem_cons_of_mem e he1

/-- Every sequence of calls on a plan returns and keeps the invariant of the
plan, when the nodes handed to `AddTarget(Node*)` are nodes of the state. -/
theorem run_planInv (ops : List PlanOp) : ∀ (s : State) (p : Plan), s.WF → Acyclic s →
    PlanInv s p → (∀ n, PlanOp.addTarget n ∈ ops → n < s.nodes.length) →
    ∃ s1 p1, Plan.run s p ops = some (s1, p1) ∧ s1.WF ∧ PlanInv s1 p1 := by
  induction ops with
  | nil => intro s p hw _ hp _; exact ⟨s, p, rfl, hw, hp⟩
  | cons op ops ih =>
    intro s p hw hac hp hops
    have hops1 : ∀ n, PlanOp.addTarget n ∈ ops → n < s.nodes.length :=
      fun n hn => hops n (List.mem_cons_of_mem op hn)
    cases op with
    | addTarget node =>
      have hn := hops node (List.mem_cons_self _ _)
      obtain ⟨b, p1, h1, _, _, hext, _⟩ := AddTarget_spec hw hac p hn
      obtain ⟨s2, p2, h2, hw2, hp2⟩ := ih s p1 hw hac (hext.ext_planInv hp) hops1
      refine ⟨s2, p2, ?_, hw2, hp2⟩
      simp only [Plan.run, Plan.step, h1, Option.map_some']
      exact h2
    | addTargetPath path =>
      obtain ⟨hw0, hf0⟩ := WF_GetFile hw path
      have hgn : ∃ s1 n, s.GetNode path = some (s1, n) := by
        unfold State.GetNode
        generalize s.GetFile path = r at hw0 hf0
        obtain ⟨s0, f⟩ := r
        obtain ⟨file, hfile⟩ := getElem?_some_of_lt hf0
        simp only [hfile]
        cases file.node_ with
        | none => exact ⟨_, _, rfl⟩
        | some n => exact ⟨_, _, rfl⟩
      obtain ⟨s1, n, hg⟩ := hgn
      obtain ⟨hw1, hn1⟩ := WF_GetNode hw hg
      have hgrow := Grow_GetNode hg
      have hac1 := hgrow.acyclic hac
      obtain ⟨b, p1, h1, _, _, hext, _⟩ := AddTarget_spec hw1 hac1 p hn1
      have hops2 : ∀ n, PlanOp.addTarget n ∈ ops → n < s1.nodes.length :=
        fun n hn => Nat.lt_of_lt_of_le (hops1 n hn) hgrow.grow_length_le
      obtain ⟨s2, p2, h2, hw2, hp2⟩ :=
        ih s1 p1 hw1 hac1 (hext.ext_planInv (hgrow.grow_planInv hw hp)) hops2
      refine ⟨s2, p2, ?_, hw2, hp2⟩
      simp only [Plan.run, Plan.step, Plan.AddTargetPath, hg, h1]
      exact h2
    | findWork =>
      obtain ⟨s2, p2, h2, hw2, hp2⟩ := ih s _ hw hac (FindWork_planInv hp) hops1
      refine ⟨s2, p2, ?_, hw2, hp2⟩
      simp only [Plan.run, Plan.step]
      exact h2

/-- C5: in a well-formed acyclic state, every sequence of `AddTarget` (on nodes
of the state, or on paths) and `FindWork` calls on a fresh plan returns, and
afterwards every edge in the ready queue has each of its input nodes either
clean or not in the want set. -/
theorem C5_plan_readiness (s : State) (hw : s.WF) (hac : Acyclic s) (ops : List PlanOp)
    (hops : ∀ n, PlanOp.addTarget n ∈ ops → n < s.nodes.length) :
    ∃ s1 p1, Plan.run s Plan.fresh ops = some (s1, p1) ∧
      ∀ e ∈ p1.ready_, ∃ ed, s1.edges[e]? = some ed ∧
        ∀ i ∈ ed.inputs_, ∃ nd, s1.nodes[i]? = some nd ∧
          (nd.dirty_ = false ∨ i ∉ p1.want_) := by
  have hp0 : PlanInv s Plan.fresh := by
    constructor <;> intro _ h <;> simp [Plan.fresh] at h
  obtain ⟨s1, p1, h1, hw1, hp1⟩ := run_planInv ops s Plan.fresh hw hac hp0 hops
  refine ⟨s1, p1, h1, ?_⟩
  intro e he
  obtain ⟨ed, hed, hin⟩ := hp1.2 e he
  refine ⟨ed, hed, ?_⟩
  intro i hi
  obtain ⟨nd, hnd⟩ := getElem?_some_of_lt (hw1.inputs_lt e ed hed i hi)
  exact ⟨nd, hnd, Or.inr (fun hwant => hin i hi (hp1.1 i hwant))⟩

theorem C5_plan_readiness_witness :
    chainDirty.WF ∧ Acyclic chainDirty ∧
    ∃ s1 p1, Plan.run chainDirty Plan.fresh
        [PlanOp.addTarget 2, PlanOp.addTargetPath ['b'], PlanOp.findWork] = some (s1, p1) ∧
      ∀ e ∈ p1.ready_, ∃ ed, s1.edges[e]? = some ed ∧
        ∀ i ∈ ed.inputs_, ∃ nd, s1.nodes[i]? = some nd ∧
          (nd.dirty_ = false ∨ i ∉ p1.want_) :=
  ⟨chainDirty_touched.touched_inv.1, chainDirty_acyclic,
    C5_plan_readiness chainDirty chainDirty_touched.touched_inv.1 chainDirty_acyclic
      [PlanOp.addTarget 2, PlanOp.addTargetPath ['b'], PlanOp.findWork]
      (by
        intro n hn
        simp only [List.mem_cons, PlanOp.addTarget.injEq, reduceCtorEq, List.mem_singleton,
          or_false, List.not_mem_nil] at hn
        subst hn
        decide)⟩

theorem IsChain.in_edge {s : State} {ns es : List Nat} (hw : s.WF) (hc : IsChain s ns es)
    {i : Nat} (hi : i < es.length) :
    ∃ e a b ed nd, es[i]? = some e ∧ ns[i]? = some a ∧ ns[i + 1]? = some b ∧
      s.edges[e]? = some ed ∧ ed.inputs_ = [a] ∧ ed.outputs_ = [b] ∧
      s.nodes[b]? = some nd ∧ nd.in_edge_ = some e ∧ e ∈ s.edges_ := by
  obtain ⟨e, a, b, ed, h1, h2, h3, h4, h5, h6⟩ := hc.2.2 i hi
  have hb : b ∈ ed.outputs_ := by rw [h6]; exact List.mem_singleton.2 rfl
  obtain ⟨nd, hnd⟩ := getElem?_some_of_lt (hw.outputs_lt e ed h4 b hb)
  have he : e ∈ s.edges_ := by
    rw [hw.edges_eq]
    exact List.mem_range.2 (lt_of_getElem?_eq_some h4)
  exact ⟨e, a, b, ed, nd, h1, h2, h3, h4, h5, h6, hnd,
    (hw.outputs_iff e ed b nd h4 hnd).1 hb, he⟩

theorem IsChain.distinct {s : State} {ns es : List Nat} (hw : s.WF) (hc : IsChain s ns es) :
    ∀ j, j < ns.length → ∀ i, i < j → ns[i]? ≠ ns[j]? := by
  intro j
  induction j with
  | zero => intro _ i hi; exact absurd hi (Nat.not_lt_zero i)
  | succ j ih =>
    intro hj i hi heq
    have hj1 : j < es.length := by have := hc.1; omega
    obtain ⟨e, a, b, ed, nd, h1, h2, h3, h4, h5, h6, h7, h8, _⟩ := hc.in_edge hw hj1
    rw [h3] at heq
    cases i with
    | zero =>
      obtain ⟨n0, nd0, g1, g2, g3⟩ := hc.2.1
      rw [g1] at heq
      simp only [Option.some.injEq] at heq
      subst heq
      rw [g2] at h7
      simp only [Option.some.injEq] at h7
      subst h7
      rw [g3] at h8
      exact absurd h8 (by simp)
    | succ i =>
      have hi1 : i < es.length := by omega
      obtain ⟨e1, a1, b1, ed1, nd1, k1, k2, k3, k4, k5, k6, k7, k8, _⟩ := hc.in_edge hw hi1
      rw [k3] at heq
      simp only [Option.some.injEq] at heq
      subst heq
      rw [k7] at h7
      simp only [Option.some.injEq] at h7
      subst h7
      rw [k8] at h8
      simp only [Option.some.injEq] at h8
      subst h8
      rw [k4] at h4
      simp only [Option.some.injEq] at h4
      subst h4
      rw [k5] at h5
      simp only [List.cons.injEq, and_true] at h5
      subst h5
      apply ih (by omega) i (by omega)
      rw [k2, h2]

theorem IsChain.node_lt {s : State} {ns es : List Nat} (hw : s.WF) (hc : IsChain s ns es) :
    ∀ x ∈ ns, x < s.nodes.length := by
  intro x hx
  obtain ⟨j, hj, hjx⟩ := List.getElem_of_mem hx
  have hx1 : ns[j]? = some x := by
    rw [List.getElem?_eq_getElem hj, hjx]
  cases j with
  | zero =>
    obtain ⟨n0, nd0, g1, g2, _⟩ := hc.2.1
    rw [g1] at hx1
    simp only [Option.some.injEq] at hx1
    subst hx1
    exact lt_of_getElem?_eq_some g2
  | succ j =>
    have hj1 : j < es.length := by have := hc.1; omega
    obtain ⟨e, a, b, ed, nd, _, _, h3, _, _, _, h7, _, _⟩ := hc.in_edge hw hj1
    rw [h3] at hx1
    simp only [Option.some.injEq] at hx1
    subst hx1
    exact lt_of_getElem?_eq_some h7

theorem IsChain.chain_length_le {s : State} {ns es : List Nat} (hw : s.WF) (hc : IsChain s ns es) :
    ns.length ≤ s.nodes.length := by
  have hnd : ns.Nodup :=
    List.nodup_iff_getElem?_ne_getElem?.2 (fun i j hij hj => hc.distinct hw j hj i hij)
  have hsub : ns.toFinset ⊆ Finset.range s.nodes.length := by
    intro x hx
    rw [List.mem_toFinset] at hx
    exact Finset.mem_range.2 (hc.node_lt hw x hx)
  have := Finset.card_le_card hsub
  rw [List.toFinset_card_of_nodup hnd, Finset.card_range] at this
  exact this

theorem IsChain.chain_downstream {s : State} {ns es : List Nat} (hw : s.WF) (hc : IsChain s ns es)
    {n0 : Nat} (h0 : ns[0]? = some n0) :
    ∀ j, j < ns.length → ∀ a, ns[j]? = some a → Downstream s n0 a := by
  intro j
  induction j with
  | zero =>
    intro _ a ha
    rw [h0] at ha
    simp only [Option.some.injEq] at ha
    subst ha
    exact Relation.ReflTransGen.refl
  | succ j ih =>
    intro hj a ha
    have hj1 : j < es.length := by have := hc.1; omega
    obtain ⟨e, a1, b, ed, nd, _, h2, h3, h4, h5, h6, _, _, he⟩ := hc.in_edge hw hj1
    rw [h3] at ha
    simp only [Option.some.injEq] at ha
    subst ha
    refine Relation.ReflTransGen.tail (ih (by omega) a1 h2) ⟨e, he, ed, h4, ?_, ?_⟩
    · rw [h5]; exact List.mem_singleton.2 rfl
    · rw [h6]; exact List.mem_singleton.2 rfl

/-- Touching the first node of a chain makes the whole chain dirty. -/
theorem IsChain.dirtyChain {s s1 : State} {ns es : List Nat} (hw : s.WF)
    (hc : IsChain s ns es) {n0 : Nat} (h0 : ns[0]? = some n0) (hsg : SameGraph s s1)
    (hd : ∀ k, s1.dirty k = true ↔ Downstream s n0 k) : DirtyChain s1 ns es := by
  constructor
  · obtain ⟨m0, nd0, g1, g2, g3⟩ := hc.2.1
    rw [h0] at g1
    simp only [Option.some.injEq] at g1
    subst g1
    obtain ⟨d, hnd, _⟩ := hsg.node _ nd0 g2
    have hdn := (hd n0).2 Relation.ReflTransGen.refl
    obtain ⟨nd1, k1, k2⟩ := dirty_eq_true_iff.1 hdn
    rw [hnd] at k1
    simp only [Option.some.injEq] at k1
    subst k1
    exact ⟨n0, _, h0, hnd, k2, g3⟩
  · intro i hi
    obtain ⟨e, a, b, ed, nd, h1, h2, h3, h4, h5, _, h7, h8, _⟩ := hc.in_edge hw hi
    obtain ⟨d, hnd, _⟩ := hsg.node _ nd h7
    have hlt : i + 1 < ns.length := by have := hc.1; omega
    have hdn := (hd b).2 (hc.chain_downstream hw h0 (i + 1) hlt b h3)
    obtain ⟨nd1, k1, k2⟩ := dirty_eq_true_iff.1 hdn
    rw [hnd] at k1
    simp only [Option.some.injEq] at k1
    subst k1
    exact ⟨e, a, b, ed, _, h1, h2, h3, by rw [hsg.edges]; exact h4, h5, hnd, k2, h8⟩

/-- `Plan::AddTarget` along a dirty chain: on `n0` it returns `false`, on a
later node it returns `true` and has pushed exactly the first edge. -/
theorem DirtyChain.addTarget {t : State} {ns es : List Nat} (hc : DirtyChain t ns es)
    {e1 : Nat} (he1 : es[0]? = some e1) :
    ∀ j, j < ns.length → j ≤ es.length → ∀ a, ns[j]? = some a → ∀ p : Plan,
      (j = 0 → Plan.AddTargetAux 1 t p a = some (false, p)) ∧
      (0 < j → ∃ w, Plan.AddTargetAux (j + 1) t p a =
        some (true, { want_ := w, ready_ := p.ready_ ++ [e1] })) := by
  intro j
  induction j with
  | zero =>
    intro _ _ a ha p
    refine ⟨fun _ => ?_, fun h => absurd h (Nat.lt_irrefl 0)⟩
    obtain ⟨n0, nd0, g1, g2, g3, g4⟩ := hc.1
    rw [g1] at ha
    simp only [Option.some.injEq] at ha
    subst ha
    simp [Plan.AddTargetAux, g2, g3, g4]
  | succ j ih =>
    intro hj hje a ha p
    refine ⟨fun h => absurd h (Nat.succ_ne_zero j), fun _ => ?_⟩
    have hj1 : j < es.length := hje
    obtain ⟨e, a1, b, ed, nd, h1, h2, h3, h4, h5, h6, h7, h8⟩ := hc.2 j hj1
    rw [h3] at ha
    simp only [Option.some.injEq] at ha
    subst ha
    obtain ⟨ih0, ih1⟩ := ih (by omega) (by omega) a1 h2 { p with want_ := p.want_.insert b }
    rw [Plan.AddTargetAux]
    simp only [h6, h7, h8, h4, h5, Bool.not_true, Bool.false_eq_true, ↓reduceIte, forInputs]
    cases j with
    | zero =>
      rw [h1] at he1
      simp only [Option.some.injEq] at he1
      subst he1
      rw [ih0 rfl]
      exact ⟨_, rfl⟩
    | succ j =>
      obtain ⟨w, hw1⟩ := ih1 (Nat.succ_pos j)
      rw [hw1]
      exact ⟨_, rfl⟩

theorem FindWork_empty_iterate (p : Plan) (hp : p.ready_ = []) :
    ∀ j, (Plan.FindWork ((fun q => (Plan.FindWork q).2)^[j] p)).1 = none := by
  have hfix : (Plan.FindWork p).2 = p := by
    simp only [Plan.FindWork, hp]
  intro j
  have hj : (fun q => (Plan.FindWork q).2)^[j] p = p := by
    induction j with
    | zero => rfl
    | succ j ih =>
      rw [Function.iterate_succ_apply, hfix]
      exact ih
  rw [hj]
  simp only [Plan.FindWork, hp]

theorem chainState_isChain : IsChain chainState [0, 1, 2] [0, 1] := by
  refine ⟨rfl, ⟨0, _, rfl, rfl, rfl⟩, ?_⟩
  intro i hi
  have hi2 : i < 2 := hi
  interval_cases i
  · exact ⟨0, 0, 1, _, rfl, rfl, rfl, rfl, rfl, rfl⟩
  · exact ⟨1, 1, 2, _, rfl, rfl, rfl, rfl, rfl, rfl⟩

/-- C6: for every chain `n0 -> e1 -> n1 -> ... -> ek -> nk` with `k >= 1` in a
state built by the graph-building operations, after `touch` on the path of
`n0` only, `AddTarget(nk)` on a fresh plan returns `true`, the first
`FindWork` yields `e1`, and every later `FindWork` yields null; for the graph
`a -> edge1 -> b -> edge2 -> c` and the target `c` this is `edge1`, then null. -/
theorem C6_chain_plan_order (s : State) (h : Built s) (ns es : List Nat)
    (hc : IsChain s ns es) (hk : 1 ≤ es.length) (n0 nk e1 : Nat) (hn0 : ns[0]? = some n0)
    (hnk : ns[es.length]? = some nk) (he1 : es[0]? = some e1) (p0 : Str) (m : Int)
    (f : Nat) (file : FileStat) (hp : s.stat_cache_.paths_.lookup p0 = some f)
    (hf : s.files[f]? = some file) (hnode : file.node_ = some n0) :
    (∃ s1 p1 p2, s.touch p0 m = some s1 ∧
      Plan.AddTarget s1 Plan.fresh nk = some (true, p1) ∧
      Plan.FindWork p1 = (some e1, p2) ∧
      ∀ j, (Plan.FindWork ((fun q => (Plan.FindWork q).2)^[j] p2)).1 = none) ∧
    (chainState.touch ['a'] m = some chainDirty ∧
      Plan.AddTarget chainDirty Plan.fresh 2 =
        some (true, { want_ := [1, 2], ready_ := [0] }) ∧
      Plan.FindWork { want_ := [1, 2], ready_ := [0] } =
        (some 0, { want_ := [1, 2], ready_ := [] }) ∧
      Plan.FindWork { want_ := [1, 2], ready_ := [] } =
        (none, { want_ := [1, 2], ready_ := [] })) := by
  refine ⟨?_, chainState_touch m, by decide, rfl, rfl⟩
  obtain ⟨hw, _⟩ := h.built_inv
  obtain ⟨s1, h1, hsg, hd⟩ := touch_exact h p0 m hp hf hnode
  have hdc : DirtyChain s1 ns es := hc.dirtyChain hw hn0 hsg hd
  have hlen : es.length < ns.length := by have := hc.1; omega
  obtain ⟨w, hw1⟩ :=
    (hdc.addTarget he1 es.length hlen (Nat.le_refl _) nk hnk Plan.fresh).2 hk
  have hfuel : es.length + 1 ≤ s1.nodes.length := by
    have := hc.chain_length_le hw
    rw [hsg.length]
    omega
  refine ⟨s1, _, { want_ := w, ready_ := [] }, h1, AddTargetAux_fuel_le hw1 hfuel, ?_,
    FindWork_empty_iterate _ rfl⟩
  simp [Plan.FindWork, Plan.fresh]

theorem C6_chain_plan_order_witness :
    Built chainState ∧ IsChain chainState [0, 1, 2] [0, 1] ∧
    (∃ s1 p1 p2, chainState.touch ['a'] 1 = some s1 ∧
      Plan.AddTarget s1 Plan.fresh 2 = some (true, p1) ∧
      Plan.FindWork p1 = (some 0, p2) ∧
      ∀ j, (Plan.FindWork ((fun q => (Plan.FindWork q).2)^[j] p2)).1 = none) ∧
    (chainState.touch ['a'] 1 = some chainDirty ∧
      Plan.AddTarget chainDirty Plan.fresh 2 =
        some (true, { want_ := [1, 2], ready_ := [0] }) ∧
      Plan.FindWork { want_ := [1, 2], ready_ := [0] } =
        (some 0, { want_ := [1, 2], ready_ := [] }) ∧
      Plan.FindWork { want_ := [1, 2], ready_ := [] } =
        (none, { want_ := [1, 2], ready_ := [] })) :=
  ⟨chainState_built, chainState_isChain,
    C6_chain_plan_order chainState chainState_built [0, 1, 2] [0, 1] chainState_isChain
      (by decide) 0 2 0 rfl rfl rfl ['a'] 1 0
      { path_ := ['a'], mtime_ := 0, node_ := some 0 } (by decide) (by decide) rfl⟩

theorem isLower_not_sigil {c : Char} (h : isLower c = true) : isSigil c = false := by
  cases hs : isSigil c with
  | false => rfl
  | true =>
    simp only [isSigil, Bool.or_eq_true, beq_iff_eq] at hs
    rcases hs with rfl | rfl
    · exact absurd h (by decide)
    · exact absurd h (by decide)

theorem find_first_of_none {input : Str} {start : Nat} (hle : start ≤ input.length)
    (h : find_first_of input start = none) : ∀ c ∈ input.drop start, isSigil c = false := by
  unfold find_first_of at h
  simp only at h
  split at h
  · simp at h
  · rename_i hlt
    have h1 := @List.findIdx_le_length _ isSigil (input.drop start)
    have h2 : (input.drop start).length = input.length - start := List.length_drop _ _
    have h3 : List.findIdx isSigil (input.drop start) = (input.drop start).length := by omega
    intro c hc
    have := (List.findIdx_eq_length.1 h3) c hc
    simpa using this

theorem find_first_of_some {input : Str} {start e : Nat}
    (h : find_first_of input start = some e) :
    start ≤ e ∧ e < input.length ∧ ∃ c, input.drop e = c :: input.drop (e + 1) ∧
      isSigil c = true ∧ input.drop start = substr input start (e - start) ++ input.drop e ∧
      ∀ x ∈ substr input start (e - start), isSigil x = false := by
  unfold find_first_of at h
  simp only at h
  split at h
  · rename_i hlt
    simp only [Option.some.injEq] at h
    subst h
    refine ⟨Nat.le_add_right _ _, hlt, ?_⟩
    have hi : List.findIdx isSigil (input.drop start) < (input.drop start).length := by
      rw [List.length_drop]
      omega
    refine ⟨input[start + List.findIdx isSigil (input.drop start)], ?_, ?_, ?_, ?_⟩
    · exact List.drop_eq_getElem_cons hlt
    · have := @List.findIdx_getElem _ isSigil (input.drop start) hi
      simpa using this
    · unfold substr
      rw [Nat.add_sub_cancel_left, ← List.drop_drop]
      exact (List.take_append_drop _ _).symm
    · intro x hx
      unfold substr at hx
      rw [Nat.add_sub_cancel_left] at hx
      obtain ⟨j, hj, hjx⟩ := List.getElem_of_mem hx
      rw [List.length_take] at hj
      have hj1 : j < List.findIdx isSigil (input.drop start) := by omega
      have := List.not_of_lt_findIdx hj1
      rw [List.getElem_take] at hjx
      rw [hjx] at this
      simpa using this
  · simp at h

theorem drop_length_takeWhile {α : Type} (p : α → Bool) (l : List α) :
    l.drop (l.takeWhile p).length = l.dropWhile p := by
  induction l with
  | nil => rfl
  | cons x l ih =>
    by_cases h : p x = true
    · simp [List.takeWhile_cons, List.dropWhile_cons, h, ih]
    · simp [List.takeWhile_cons, List.dropWhile_cons, h]

theorem take_length_takeWhile {α : Type} (p : α → Bool) (l : List α) :
    l.take (l.takeWhile p).length = l.takeWhile p := by
  induction l with
  | nil => rfl
  | cons x l ih =>
    by_cases h : p x = true
    · simp [List.takeWhile_cons, h, ih]
    · simp [List.takeWhile_cons, h]

theorem scanLower_spec (input : Str) (pos : Nat) :
    scanLower input pos = pos + ((input.drop pos).takeWhile isLower).length ∧
    input.drop (scanLower input pos) = (input.drop pos).dropWhile isLower ∧
    (input.drop pos).take (scanLower input pos - pos) = (input.drop pos).takeWhile isLower := by
  refine ⟨rfl, ?_, ?_⟩
  · unfold scanLower
    rw [← List.drop_drop]
    exact drop_length_takeWhile isLower _
  · unfold scanLower
    rw [Nat.add_sub_cancel_left]
    exact take_length_takeWhile isLower _

theorem hasBadSigil_append_left {l1 : Str} (h : ∀ x ∈ l1, isSigil x = false) (l2 : Str) :
    hasBadSigil (l1 ++ l2) = hasBadSigil l2 := by
  induction l1 with
  | nil => rfl
  | cons x l1 ih =>
    have hx : isSigil x = false := h x (List.mem_cons_self x l1)
    have ih1 := ih (fun y hy => h y (List.mem_cons_of_mem x hy))
    rw [List.cons_append, hasBadSigil, hx, Bool.false_and, Bool.false_or, ih1]

theorem hasBadSigil_sigil_lower (c : Char) {lows : Str}
    (hl : ∀ x ∈ lows, isLower x = true) (hne : lows ≠ []) (rest : Str) :
    hasBadSigil (c :: (lows ++ rest)) = hasBadSigil rest := by
  cases lows with
  | nil => exact absurd rfl hne
  | cons d lows =>
    have hd : isLower d = true := hl d (List.mem_cons_self d lows)
    have h1 : hasBadSigil (c :: (d :: lows ++ rest)) = hasBadSigil (d :: lows ++ rest) := by
      rw [hasBadSigil, List.cons_append, startsLower, hd]
      simp
    rw [h1]
    exact hasBadSigil_append_left (fun x hx => isLower_not_sigil (hl x hx)) rest

theorem hasBadSigil_sigil_bad {c : Char} (hc : isSigil c = true) {tail : Str}
    (ht : tail.takeWhile isLower = []) : hasBadSigil (c :: tail) = true := by
  cases tail with
  | nil => simp [hasBadSigil, startsLower, hc]
  | cons d tail =>
    have hd : isLower d = false := by
      cases h : isLower d with
      | false => rfl
      | true => simp [List.takeWhile_cons, h] at ht
    simp [hasBadSigil, startsLower, hc, hd]

/-- One iteration of the loop of `EvalString::Parse`, seen on the rest of the
input: a literal run, the sigil, the letters after it, and what is left. -/
theorem parse_iteration {input : Str} {start e : Nat}
    (h : find_first_of input start = some e) :
    start ≤ e ∧ e < input.length ∧ ∃ c,
      isSigil c = true ∧
      (∀ x ∈ substr input start (e - start), isSigil x = false) ∧
      (start < e ∨ substr input start (e - start) = []) ∧
      input.drop start = substr input start (e - start) ++ c :: input.drop (e + 1) ∧
      scanLower input (e + 1) = e + 1 + ((input.drop (e + 1)).takeWhile isLower).length ∧
      substr input e (scanLower input (e + 1) - e) =
        c :: (input.drop (e + 1)).takeWhile isLower ∧
      input.drop (scanLower input (e + 1)) = (input.drop (e + 1)).dropWhile isLower := by
  obtain ⟨h1, h2, c, h3, h4, h5, h6⟩ := find_first_of_some h
  obtain ⟨k1, k2, k3⟩ := scanLower_spec input (e + 1)
  refine ⟨h1, h2, c, h4, h6, ?_, ?_, k1, ?_, k2⟩
  · by_cases hlt : start < e
    · exact Or.inl hlt
    · right
      have : e - start = 0 := by omega
      simp [substr, this]
  · rw [h5, h3]
  · unfold substr
    rw [h3, k1]
    have : e + 1 + ((input.drop (e + 1)).takeWhile isLower).length - e =
        ((input.drop (e + 1)).takeWhile isLower).length + 1 := by omega
    rw [this, List.take_succ_cons, take_length_takeWhile]

/-- The loop of `EvalString::Parse` returns when the bound exceeds the number of
characters left, appends tokens whose texts concatenate to the rest of the
input, and fails exactly when the rest has a bad sigil. -/
theorem parseLoop_spec (input : Str) : ∀ (fuel start : Nat) (parsed : TokenList),
    start ≤ input.length → input.length - start < fuel →
    ∃ b toks, EvalString.parseLoop input fuel start parsed = some (b, parsed ++ toks) ∧
      (b = true → (toks.map Prod.fst).flatten = input.drop start) ∧
      b = !hasBadSigil (input.drop start) := by
  intro fuel
  induction fuel with
  | zero => intro _ _ _ h; exact absurd h (Nat.not_lt_zero _)
  | succ fuel ih =>
    intro start parsed hle hfuel
    rw [EvalString.parseLoop]
    cases hfind : find_first_of input start with
    | none =>
      have hno := find_first_of_none hle hfind
      have hbad : hasBadSigil (input.drop start) = false := by
        have := hasBadSigil_append_left hno []
        rw [List.append_nil] at this
        rw [this]
        rfl
      simp only
      by_cases hlt : input.length > start
      · refine ⟨true, [(substr input start (input.length - start), TokenType.RAW)], ?_, ?_, ?_⟩
        · simp only [hlt, ↓reduceIte]
        · intro _
          simp only [substr, List.map_cons, List.map_nil, List.flatten_cons, List.flatten_nil,
            List.append_nil]
          rw [List.take_of_length_le]
          rw [List.length_drop]
        · rw [hbad]; rfl
      · refine ⟨true, [], ?_, ?_, ?_⟩
        · simp only [hlt, ↓reduceIte, List.append_nil]
        · intro _
          have : input.length ≤ start := Nat.le_of_not_lt hlt
          simp [List.drop_eq_nil_of_le this]
        · rw [hbad]; rfl
    | some e =>
      obtain ⟨h1, h2, c, hc, hraw, hrawnil, hdrop, hscan, hspecial, hrest⟩ :=
        parse_iteration hfind
      simp only
      generalize hlows : (input.drop (e + 1)).takeWhile isLower = lows at hscan hspecial
      generalize hrest1 : (input.drop (e + 1)).dropWhile isLower = rest at hrest
      have htail : input.drop (e + 1) = lows ++ rest := by
        rw [← hlows, ← hrest1]
        exact (List.takeWhile_append_dropWhile isLower _).symm
      have hlowsl : ∀ x ∈ lows, isLower x = true := by
        intro x hx
        rw [← hlows] at hx
        exact List.mem_takeWhile_imp hx
      -- the tokens pushed before the sigil
      obtain ⟨toks1, htoks1, hflat1⟩ : ∃ toks1 : TokenList,
          (if e > start then parsed ++ [(substr input start (e - start), TokenType.RAW)]
            else parsed) = parsed ++ toks1 ∧
          (toks1.map Prod.fst).flatten = substr input start (e - start) := by
        by_cases hlt : e > start
        · exact ⟨[(substr input start (e - start), TokenType.RAW)], by simp [hlt], by simp⟩
        · refine ⟨[], by simp [hlt], ?_⟩
          rcases hrawnil with h | h
          · exact absurd h hlt
          · rw [h]; rfl
      rw [htoks1]
      by_cases hend : scanLower input (e + 1) = e + 1
      · -- the sigil is not followed by a letter
        have hl0 : lows = [] := by
          rw [hscan] at hend
          have : lows.length = 0 := by omega
          exact List.length_eq_zero.1 this
        refine ⟨false, toks1, by simp only [hend, ↓reduceIte], by simp, ?_⟩
        rw [hdrop, hasBadSigil_append_left hraw,
          hasBadSigil_sigil_bad hc (by rw [hlows]; exact hl0)]
        rfl
      · have hlne : lows ≠ [] := by
          intro h
          apply hend
          rw [hscan, h]
          rfl
        have hbadeq : hasBadSigil (input.drop start) = hasBadSigil rest := by
          rw [hdrop, hasBadSigil_append_left hraw, htail,
            hasBadSigil_sigil_lower c hlowsl hlne]
        have hfl : input.drop start =
            substr input start (e - start) ++ (c :: lows) ++ rest := by
          rw [hdrop, htail]
          simp
        simp only [hend, ↓reduceIte, hspecial, gt_iff_lt, Nat.lt_irrefl]
        by_cases hlt : scanLower input (e + 1) < input.length
        · simp only [hlt, ↓reduceIte]
          have hle2 : scanLower input (e + 1) ≤ input.length := Nat.le_of_lt hlt
          have hfuel2 : input.length - scanLower input (e + 1) < fuel := by
            rw [hscan] at hlt ⊢
            omega
          obtain ⟨b, toks2, hp, hflat2, hb⟩ :=
            ih (scanLower input (e + 1)) (parsed ++ toks1 ++ [(c :: lows, TokenType.SPECIAL)])
              hle2 hfuel2
          refine ⟨b, toks1 ++ [(c :: lows, TokenType.SPECIAL)] ++ toks2, ?_, ?_, ?_⟩
          · rw [hp]
            simp
          · intro hbt
            rw [hfl]
            simp only [List.map_append, List.map_cons, List.map_nil, List.flatten_append,
              List.flatten_cons, List.flatten_nil, List.append_nil, hflat1, hflat2 hbt, hrest]
          · rw [hb, hrest, hbadeq]
        · simp only [hlt, ↓reduceIte]
          have hrn : rest = [] := by
            rw [← hrest]
            exact List.drop_eq_nil_of_le (Nat.le_of_not_lt hlt)
          refine ⟨true, toks1 ++ [(c :: lows, TokenType.SPECIAL)], by simp, ?_, ?_⟩
          · intro _
            rw [hfl, hrn]
            simp only [List.map_append, List.map_cons, List.map_nil, List.flatten_append,
              List.flatten_cons, List.flatten_nil, List.append_nil, hflat1]
          · rw [hbadeq, hrn]
            rfl

/-- `EvalString::Parse` on a fresh object returns; the texts of the tokens
concatenate to the input when it succeeds, and it fails exactly when the input
has a bad sigil. -/
theorem Parse_spec (input : Str) :
    ∃ b toks, EvalString.fresh.Parse input =
        some (b, { unparsed_ := input, parsed_ := toks }) ∧
      (b = true → (toks.map Prod.fst).flatten = input) ∧ b = !hasBadSigil input := by
  obtain ⟨b, toks, h1, h2, h3⟩ :=
    parseLoop_spec input (input.length + 1) 0 [] (Nat.zero_le _) (by omega)
  refine ⟨b, toks, ?_, ?_, ?_⟩
  · simp only [EvalString.Parse, EvalString.fresh, h1, List.nil_append, Option.map_some']
  · simpa using h2
  · simpa using h3

theorem hasBadSigil_iff (l : Str) :
    hasBadSigil l = true ↔
      ∃ pre c post, l = pre ++ c :: post ∧ isSigil c = true ∧ startsLower post = false := by
  induction l with
  | nil =>
    simp only [hasBadSigil, Bool.false_eq_true, false_iff]
    rintro ⟨pre, c, post, h, _⟩
    cases pre <;> simp at h
  | cons x l ih =>
    rw [hasBadSigil, Bool.or_eq_true, ih]
    constructor
    · rintro (h | ⟨pre, c, post, h1, h2, h3⟩)
      · simp only [Bool.and_eq_true, Bool.not_eq_true'] at h
        exact ⟨[], x, l, rfl, h.1, h.2⟩
      · exact ⟨x :: pre, c, post, by rw [h1]; rfl, h2, h3⟩
    · rintro ⟨pre, c, post, h1, h2, h3⟩
      cases pre with
      | nil =>
        simp only [List.nil_append, List.cons.injEq] at h1
        obtain ⟨rfl, rfl⟩ := h1
        left
        simp [h2, h3]
      | cons y pre =>
        simp only [List.cons_append, List.cons.injEq] at h1
        exact Or.inr ⟨pre, c, post, h1.2, h2, h3⟩

theorem isSigil_iff (c : Char) : isSigil c = true ↔ (c = '$' ∨ c = '@') := by
  simp only [isSigil, Bool.or_eq_true, beq_iff_eq]
  exact Or.comm

theorem startsLower_eq_false_iff (post : Str) :
    startsLower post = false ↔
      (post = [] ∨ ∃ d rest, post = d :: rest ∧ ¬ ('a' ≤ d ∧ d ≤ 'z')) := by
  cases post with
  | nil => simp [startsLower]
  | cons d rest =>
    have hl : isLower d = false ↔ ¬ ('a' ≤ d ∧ d ≤ 'z') := by
      simp only [isLower, Bool.and_eq_false_imp, decide_eq_true_eq, decide_eq_false_iff_not,
        not_and]
    rw [startsLower, hl]
    constructor
    · intro h
      exact Or.inr ⟨d, rest, rfl, h⟩
    · rintro (h | ⟨d1, rest1, h1, h2⟩)
      · exact absurd h (by simp)
      · simp only [List.cons.injEq] at h1
        rw [h1.1]
        exact h2

theorem evalLoop_eq {env : Str → Option Str} (g : Str → Str) :
    ∀ (toks : TokenList) (acc : Str),
      (∀ tok ∈ toks, tok.2 ≠ TokenType.RAW → env tok.1 = some (g tok.1)) →
      EvalString.evalLoop env toks acc =
        some (acc ++
          (toks.map (fun tok => if tok.2 = TokenType.RAW then tok.1 else g tok.1)).flatten) := by
  intro toks
  induction toks with
  | nil => intro acc _; simp [EvalString.evalLoop]
  | cons tok toks ih =>
    intro acc h
    have ih1 := fun acc1 => ih acc1 (fun t ht => h t (List.mem_cons_of_mem tok ht))
    rw [EvalString.evalLoop]
    by_cases hraw : tok.2 = TokenType.RAW
    · simp only [hraw, ↓reduceIte, ih1, List.map_cons, List.flatten_cons, List.append_assoc]
    · simp only [hraw, ↓reduceIte, h tok (List.mem_cons_self tok toks) hraw, ih1,
        List.map_cons, List.flatten_cons, List.append_assoc]

/-- C8: when `EvalString::Parse` succeeds on a fresh object, the texts of the
parsed tokens concatenated in order are the input, and `Evaluate` with the
resolver that returns every variable name unchanged returns the input. -/
theorem C8_template_round_trip (input : Str) (es : EvalString)
    (h : EvalString.fresh.Parse input = some (true, es)) :
    (es.parsed_.map Prod.fst).flatten = input ∧
    es.Evaluate (fun v => some v) = some input := by
  obtain ⟨b, toks, h1, h2, _⟩ := Parse_spec input
  rw [h1] at h
  simp only [Option.some.injEq, Prod.mk.injEq] at h
  obtain ⟨rfl, rfl⟩ := h
  have hflat := h2 rfl
  refine ⟨hflat, ?_⟩
  rw [EvalString.Evaluate, evalLoop_eq (fun v => v) toks [] (fun _ _ _ => rfl)]
  simp only [ite_self, List.nil_append]
  exact congrArg some hflat

theorem C8_template_round_trip_witness :
    EvalString.fresh.Parse catText = some (true, catTemplate) ∧
    (catTemplate.parsed_.map Prod.fst).flatten = catText ∧
    catTemplate.Evaluate (fun v => some v) = some catText :=
  ⟨by decide, C8_template_round_trip catText catTemplate (by decide)⟩

/-- C9: `EvalString::Parse` on a fresh object returns for every input, and it
fails iff the input contains a sigil (`$` or `@`) that is last or is followed
by a character outside `a..z`; parsing `echo $` fails. -/
theorem C9_parse_fails_iff_bad_sigil (input : Str) :
    (∃ b es, EvalString.fresh.Parse input = some (b, es) ∧
      (b = false ↔
        ∃ pre c post, input = pre ++ c :: post ∧ (c = '$' ∨ c = '@') ∧
          (post = [] ∨ ∃ d rest, post = d :: rest ∧ ¬ ('a' ≤ d ∧ d ≤ 'z')))) ∧
    (EvalString.fresh.Parse ['e', 'c', 'h', 'o', ' ', '$']).map Prod.fst = some false := by
  refine ⟨?_, by decide⟩
  obtain ⟨b, toks, h1, _, h3⟩ := Parse_spec input
  refine ⟨b, _, h1, ?_⟩
  have hb : b = false ↔ hasBadSigil input = true := by
    rw [h3]
    cases hasBadSigil input <;> simp
  rw [hb, hasBadSigil_iff]
  constructor
  · rintro ⟨pre, c, post, k1, k2, k3⟩
    exact ⟨pre, c, post, k1, (isSigil_iff c).1 k2, (startsLower_eq_false_iff post).1 k3⟩
  · rintro ⟨pre, c, post, k1, k2, k3⟩
    exact ⟨pre, c, post, k1, (isSigil_iff c).2 k2, (startsLower_eq_false_iff post).2 k3⟩

theorem nodePath_some {s : State} (hw : s.WF) {n : Nat} (hn : n < s.nodes.length) :
    ∃ p, s.nodePath n = some p := by
  obtain ⟨nd, hnd⟩ := getElem?_some_of_lt hn
  obtain ⟨file, hfile⟩ := getElem?_some_of_lt (hw.node_file_lt n nd hnd)
  exact ⟨file.path_, by simp only [State.nodePath, hnd, hfile]⟩

theorem intercalate_cons_eq {α : Type} (sep : List α) (p : List α) (ps : List (List α)) :
    List.intercalate sep (p :: ps) = p ++ (ps.map (fun q => sep ++ q)).flatten := by
  induction ps generalizing p with
  | nil => simp [List.intercalate]
  | cons q ps ih =>
    have := ih q
    simp only [List.intercalate, List.intersperse_cons₂, List.flatten_cons, List.map_cons,
      List.append_assoc] at this ⊢
    rw [this]

/-- The loop of the `@in` branch, when no input path is empty. -/
theorem joinInputs_spec {s : State} : ∀ (is : List Nat),
    (∀ i ∈ is, ∃ p, s.nodePath i = some p ∧ p ≠ []) →
    ∀ acc : Str, acc ≠ [] →
      EdgeEnv.joinInputs s is acc =
        some (acc ++
          ((is.map (fun i => (s.nodePath i).getD [])).map (fun q => [' '] ++ q)).flatten) := by
  intro is
  induction is with
  | nil => intro _ acc _; simp [EdgeEnv.joinInputs]
  | cons i is ih =>
    intro h acc hacc
    obtain ⟨p, hp, hpne⟩ := h i (List.mem_cons_self i is)
    rw [EdgeEnv.joinInputs]
    simp only [hp, hacc, ne_eq, not_false_eq_true, ↓reduceIte]
    rw [ih (fun j hj => h j (List.mem_cons_of_mem i hj))]
    · simp [hp]
    · simp [hacc]

theorem joinInputs_nil_spec {s : State} (is : List Nat)
    (h : ∀ i ∈ is, ∃ p, s.nodePath i = some p ∧ p ≠ []) :
    EdgeEnv.joinInputs s is [] =
      some (List.intercalate [' '] (is.map (fun i => (s.nodePath i).getD []))) := by
  cases is with
  | nil => rfl
  | cons i is =>
    obtain ⟨p, hp, hpne⟩ := h i (List.mem_cons_self i is)
    rw [EdgeEnv.joinInputs]
    simp only [hp, ne_eq, not_true_eq_false, ↓reduceIte, List.nil_append]
    rw [joinInputs_spec is (fun j hj => h j (List.mem_cons_of_mem i hj)) p hpne,
      List.map_cons, intercalate_cons_eq, hp]
    rfl

theorem catState_run : State.empty.run catScript = some catState := by decide

theorem catState_built : Built catState := Built.of_run Built.empty catState_run

/-- C10: for an edge of a well-formed state that has a rule, at least one
output, and no input whose path is empty, `EvaluateCommand` returns the
concatenation in token order of every literal token and of the expansion of
every variable token, where `@in` expands to the input paths joined by single
spaces, `$out` to the path of the first output and every other name to the
empty string (this holds for every token list, so for every parsed template);
for `cat @in > $out`, inputs `a`, `b` and output `c` the result is
`cat a b > c`. -/
theorem C10_evaluate_command (s : State) (hw : s.WF) (edge : Nat) (e : Edge) (r : Nat)
    (rule : Rule) (o : Nat) (outs : List Nat) (he : s.edges[edge]? = some e)
    (hr : e.rule_ = some r) (hrule : s.rules[r]? = some rule) (hout : e.outputs_ = o :: outs)
    (hin : ∀ i ∈ e.inputs_, s.nodePath i ≠ some []) :
    (∃ ins out,
      ins = List.intercalate [' '] (e.inputs_.map (fun i => (s.nodePath i).getD [])) ∧
      (∀ i ∈ e.inputs_, (s.nodePath i).isSome = true) ∧
      s.nodePath o = some out ∧
      Edge.EvaluateCommand s edge =
        some ((rule.command_.parsed_.map (fun tok =>
          if tok.2 = TokenType.RAW then tok.1
          else if tok.1 = ['@', 'i', 'n'] then ins
          else if tok.1 = ['$', 'o', 'u', 't'] then out
          else [])).flatten)) ∧
    Edge.EvaluateCommand catState 0 =
      some ['c', 'a', 't', ' ', 'a', ' ', 'b', ' ', '>', ' ', 'c'] := by
  refine ⟨?_, by decide⟩
  have hins : ∀ i ∈ e.inputs_, ∃ p, s.nodePath i = some p ∧ p ≠ [] := by
    intro i hi
    obtain ⟨p, hp⟩ := nodePath_some hw (hw.inputs_lt edge e he i hi)
    refine ⟨p, hp, ?_⟩
    rintro rfl
    exact hin i hi hp
  have ho : o ∈ e.outputs_ := by rw [hout]; exact List.mem_cons_self o outs
  obtain ⟨out, hout1⟩ := nodePath_some hw (hw.outputs_lt edge e he o ho)
  refine ⟨_, out, rfl, ?_, hout1, ?_⟩
  · intro i hi
    obtain ⟨p, hp, _⟩ := hins i hi
    rw [hp]
    rfl
  · simp only [Edge.EvaluateCommand, he, hr, hrule, EvalString.Evaluate]
    rw [evalLoop_eq (fun v =>
      if v = ['@', 'i', 'n'] then
        List.intercalate [' '] (e.inputs_.map (fun i => (s.nodePath i).getD []))
      else if v = ['$', 'o', 'u', 't'] then out
      else [])]
    · rw [List.nil_append]
    · intro tok _ _
      unfold EdgeEnv.Evaluate
      by_cases h1 : tok.1 = ['@', 'i', 'n']
      · simp only [h1, ↓reduceIte, he]
        exact joinInputs_nil_spec e.inputs_ hins
      · by_cases h2 : tok.1 = ['$', 'o', 'u', 't']
        · simp only [h1, h2, ↓reduceIte, he, hout, List.getElem?_cons_zero]
          exact hout1
        · simp only [h1, h2, ↓reduceIte]

theorem C10_evaluate_command_witness :
    catState.WF ∧
    (∃ ins out,
      ins = List.intercalate [' ']
        (({ rule_ := some 0, inputs_ := [0, 1], outputs_ := [2] } : Edge).inputs_.map
          (fun i => (catState.nodePath i).getD [])) ∧
      (∀ i ∈ ({ rule_ := some 0, inputs_ := [0, 1], outputs_ := [2] } : Edge).inputs_,
        (catState.nodePath i).isSome = true) ∧
      catState.nodePath 2 = some out ∧
      Edge.EvaluateCommand catState 0 =
        some ((({ name_ := ['c', 'a', 't'], command_ := catTemplate } : Rule).command_.parsed_.map
          (fun tok =>
            if tok.2 = TokenType.RAW then tok.1
            else if tok.1 = ['@', 'i', 'n'] then ins
            else if tok.1 = ['$', 'o', 'u', 't'] then out
            else [])).flatten)) ∧
    Edge.EvaluateCommand catState 0 =
      some ['c', 'a', 't', ' ', 'a', ' ', 'b', ' ', '>', ' ', 'c'] :=
  ⟨catState_built.built_inv.1,
    C10_evaluate_command catState catState_built.built_inv.1 0
      { rule_ := some 0, inputs_ := [0, 1], outputs_ := [2] } 0
      { name_ := ['c', 'a', 't'], command_ := catTemplate } 2 [] rfl rfl rfl rfl
      (by decide)⟩

theorem emptyPathState_run : State.empty.run emptyPathScript = some emptyPathState := by
  decide

/-- Outside the states of a program run: an edge that direct calls
`AddInOut(edge, IN, "")` and `AddInOut(edge, IN, "a")` gave the input paths `""`
and `a`.  The parser never passes an empty path, since `NextToken` returns
`true` only with a non-empty token.  Here `EdgeEnv::Evaluate("@in")` returns
`a`: the test `!result.empty()` puts no separator after an empty first path. -/
theorem emptyPathState_in :
    State.empty.run emptyPathScript = some emptyPathState ∧
    emptyPathState.nodePath 0 = some [] ∧ emptyPathState.nodePath 1 = some ['a'] ∧
    (emptyPathState.edges.map Edge.inputs_) = [[0, 1]] ∧
    EdgeEnv.Evaluate emptyPathState 0 ['@', 'i', 'n'] = some ['a'] ∧
    List.intercalate [' '] [[], ['a']] = [' ', 'a'] ∧
    EdgeEnv.Evaluate emptyPathState 0 ['@', 'i', 'n'] ≠
      some (List.intercalate [' '] [[], ['a']]) := by
  decide

/-- C16: `touch("a", 5)` on the chain graph returns, and the record of `a` still
has the modification time 0 it was created with: `FileStat::Touch` does not
assign `mtime_`. -/
theorem C16_touch_does_not_store_mtime :
    chainState.touch ['a'] 5 = some chainDirty ∧
    chainState.stat_cache_.paths_.lookup ['a'] = some 0 ∧
    chainState.files[0]? = some { path_ := ['a'], mtime_ := 0, node_ := some 0 } ∧
    chainDirty.files[0]? = some { path_ := ['a'], mtime_ := 0, node_ := some 0 } ∧
    (State.empty.touch ['b'] 5).map State.files =
      some [{ path_ := ['b'], mtime_ := 0, node_ := none }] := by
  decide

theorem GetFile_lookup_self (s : State) (path : Str) :
    (s.GetFile path).1.stat_cache_.paths_.lookup path = some (s.GetFile path).2 := by
  unfold State.GetFile
  split
  · rename_i f hf
    exact hf
  · rename_i hf
    simp only [List.lookup_append, hf, Option.none_or, List.lookup_cons, beq_self_eq_true]

/-- C18: in a well-formed state, `touch(p, m1)` returns a state on which
`touch(p, m2)` returns that same state; so the dirty nodes after both calls
are those after the first call. -/
theorem C18_touch_twice (s : State) (hw : s.WF) (p : Str) (m1 m2 : Int) :
    ∃ s1, s.touch p m1 = some s1 ∧ s1.touch p m2 = some s1 ∧
      ∀ n, (∃ s2, s1.touch p m2 = some s2 ∧ s2.dirty n = true) ↔ s1.dirty n = true := by
  obtain ⟨hw0, hlt0⟩ := WF_GetFile hw p
  have hself := GetFile_lookup_self s p
  have key : ∃ s1, s.touch p m1 = some s1 ∧ s1.touch p m2 = some s1 := by
    unfold State.touch
    generalize hg : s.GetFile p = r at hw0 hlt0 hself
    obtain ⟨s0, f⟩ := r
    simp only at hw0 hlt0 hself ⊢
    obtain ⟨file, hfile⟩ := getElem?_some_of_lt hlt0
    cases hn : file.node_ with
    | none =>
      refine ⟨s0, by simp only [FileStat.Touch, hfile, hn], ?_⟩
      rw [GetFile_of_lookup hself]
      simp only [FileStat.Touch, hfile, hn]
    | some n =>
      obtain ⟨s1, h1, hsg, hd, _, _⟩ := Touch_spec hw0 m1 hfile hn
      refine ⟨s1, h1, ?_⟩
      have hself1 : s1.stat_cache_.paths_.lookup p = some f := by
        rw [hsg.stat_cache_]
        exact hself
      rw [GetFile_of_lookup hself1]
      obtain ⟨nd, hnd, hdn⟩ := dirty_eq_true_iff.1 hd
      simp only [FileStat.Touch, hsg.files, hfile, hn, Node.MarkDirty, hnd, hdn, ↓reduceIte]
  obtain ⟨s1, h1, h2⟩ := key
  refine ⟨s1, h1, h2, ?_⟩
  intro n
  constructor
  · rintro ⟨s2, h3, h4⟩
    rw [h2] at h3
    simp only [Option.some.injEq] at h3
    subst h3
    exact h4
  · intro h
    exact ⟨s1, h2, h⟩

theorem C18_touch_twice_witness :
    chainState.WF ∧
    ∃ s1, chainState.touch ['a'] 1 = some s1 ∧ s1.touch ['a'] 2 = some s1 ∧
      ∀ n, (∃ s2, s1.touch ['a'] 2 = some s2 ∧ s2.dirty n = true) ↔ s1.dirty n = true :=
  ⟨chainState_built.built_inv.1,
    C18_touch_twice chainState chainState_built.built_inv.1 ['a'] 1 2⟩

theorem forkState_run : State.empty.run forkScript = some forkState := by decide

theorem forkState_built : Built forkState := Built.of_run Built.empty forkState_run

theorem forkDirty_touched : Touched forkDirty :=
  ⟨forkState, [(['s'], 1)], forkState_built, by decide⟩

theorem forkDirty_acyclic : Acyclic forkDirty := by
  apply acyclic_of_rank (fun n => if n = 0 then 0 else if n = 3 then 2 else 1)
  rintro a b ⟨e, he, ed, hed, ha, hb⟩
  simp only [forkDirty, forkState, List.mem_cons, List.mem_singleton, List.not_mem_nil,
    or_false] at he
  rcases he with rfl | rfl
  · simp only [forkDirty, forkState, List.getElem?_cons_zero, Option.some.injEq] at hed
    subst hed
    simp only [List.mem_cons, List.mem_singleton, List.not_mem_nil, or_false] at ha hb
    subst ha
    rcases hb with rfl | rfl <;> decide
  · simp only [forkDirty, forkState, List.getElem?_cons_succ, List.getElem?_cons_zero,
      Option.some.injEq] at hed
    subst hed
    simp only [List.mem_cons, List.mem_singleton, List.not_mem_nil, or_false] at ha hb
    subst hb
    rcases ha with rfl | rfl <;> decide

/-- C19: the state `forkDirty` (edge `E1` = 0 from `s` to `x`, `y`; edge `E2` = 1
from `x`, `y` to `t`; `s` touched) is built by the graph-building operations
and `touch`, is well formed and acyclic, and one `AddTarget(t)` on a fresh plan
leaves `E1` twice in the ready queue, once for `x` and once for `y`;
`FindWork` then yields `E1`, `E1` again, and then null. -/
theorem C19_ready_queue_holds_edge_twice :
    Touched forkDirty ∧ forkDirty.WF ∧ Acyclic forkDirty ∧
    Plan.AddTarget forkDirty Plan.fresh 3 =
      some (true, { want_ := [2, 1, 3], ready_ := [0, 0] }) ∧
    Plan.FindWork { want_ := [2, 1, 3], ready_ := [0, 0] } =
      (some 0, { want_ := [2, 1, 3], ready_ := [0] }) ∧
    Plan.FindWork { want_ := [2, 1, 3], ready_ := [0] } =
      (some 0, { want_ := [2, 1, 3], ready_ := [] }) ∧
    Plan.FindWork { want_ := [2, 1, 3], ready_ := [] } =
      (none, { want_ := [2, 1, 3], ready_ := [] }) :=
  ⟨forkDirty_touched, forkDirty_touched.touched_inv.1, forkDirty_acyclic, by decide, rfl, rfl,
    rfl⟩

theorem WF_step {s s1 : State} {op : Op} (h : s.WF) (hs : s.step op = some s1) : s1.WF := by
  cases op with
  | addRule name command =>
    simp only [State.step, Option.map_eq_some'] at hs
    obtain ⟨⟨s2, r⟩, h1, rfl⟩ := hs
    exact WF_AddRule h h1
  | addEdge rule =>
    cases rule with
    | none =>
      simp only [State.step, Option.some.injEq] at hs
      subst hs
      exact (WF_AddEdge h none (by simp)).1
    | some r =>
      simp only [State.step] at hs
      split at hs
      · rename_i hr
        simp only [Option.some.injEq] at hs
        subst hs
        refine (WF_AddEdge h (some r) ?_).1
        intro r1 h1
        simp only [Option.some.injEq] at h1
        subst h1
        exact hr
      · simp at hs
  | addEdgeByName rule_name =>
    simp only [State.step, Option.some.injEq] at hs
    subst hs
    exact WF_AddEdgeByName h rule_name
  | getFile path =>
    simp only [State.step, Option.some.injEq] at hs
    subst hs
    exact (WF_GetFile h path).1
  | getNode path =>
    simp only [State.step, Option.map_eq_some'] at hs
    obtain ⟨⟨s2, r⟩, h1, rfl⟩ := hs
    exact (WF_GetNode h h1).1
  | addInOut edge inout path => exact WF_AddInOut h hs

theorem Reachable.wf {s : State} (h : Reachable s) : s.WF := by
  induction h with
  | empty => exact WF_empty
  | op o _ hs ih => exact WF_step ih hs
  | touch path mtime _ hs ih =>
    obtain ⟨s2, h2, hw2, _⟩ := touch_spec ih path mtime
    rw [hs] at h2
    simp only [Option.some.injEq] at h2
    subst h2
    exact hw2

theorem Reachable.reach_of_run {ops : List Op} :
    ∀ {s s1 : State}, Reachable s → s.run ops = some s1 → Reachable s1 := by
  induction ops with
  | nil =>
    intro s s1 h hs
    simp only [State.run, Option.some.injEq] at hs
    subst hs
    exact h
  | cons op ops ih =>
    intro s s1 h hs
    simp only [State.run] at hs
    split at hs
    · simp at hs
    · rename_i s2 h2
      exact ih (Reachable.op op h h2) hs

theorem lookup_of_mem_nodup {V : Type} : ∀ (m : List (Str × V)) (k : Str) (v : V),
    (m.map Prod.fst).Nodup → (k, v) ∈ m → m.lookup k = some v := by
  intro m
  induction m with
  | nil => intro k v _ h; simp at h
  | cons x m ih =>
    intro k v hnd hmem
    obtain ⟨k1, v1⟩ := x
    rw [List.map_cons, List.nodup_cons] at hnd
    rw [List.lookup_cons]
    rcases List.mem_cons.1 hmem with heq | hmem1
    · simp only [Prod.mk.injEq] at heq
      obtain ⟨rfl, rfl⟩ := heq
      simp
    · have hne : k ≠ k1 := by
        rintro rfl
        exact hnd.1 (List.mem_map.2 ⟨(k, v), hmem1, rfl⟩)
      have hb : (k == k1) = false := by simpa using hne
      rw [hb]
      exact ih k v hnd.2 hmem1

theorem GetNode_some {s : State} (hw : s.WF) (path : Str) :
    ∃ s1 n, s.GetNode path = some (s1, n) := by
  obtain ⟨hw0, hf0⟩ := WF_GetFile hw path
  unfold State.GetNode
  generalize s.GetFile path = r at hw0 hf0
  obtain ⟨s0, f⟩ := r
  obtain ⟨file, hfile⟩ := getElem?_some_of_lt hf0
  simp only [hfile]
  cases file.node_ with
  | none => exact ⟨_, _, rfl⟩
  | some n => exact ⟨_, _, rfl⟩

theorem GetNode_twice {s s1 : State} {path : Str} {n : Nat}
    (h : s.GetNode path = some (s1, n)) : s1.GetNode path = some (s1, n) := by
  have hself := GetFile_lookup_self s path
  unfold State.GetNode at h
  generalize s.GetFile path = r at h hself
  obtain ⟨s0, f⟩ := r
  simp only at h hself
  cases hfile : s0.files[f]? with
  | none => simp [hfile] at h
  | some file =>
    simp only [hfile] at h
    cases hn : file.node_ with
    | some m =>
      simp only [hn, Option.some.injEq, Prod.mk.injEq] at h
      obtain ⟨rfl, rfl⟩ := h
      simp only [State.GetNode, GetFile_of_lookup hself, hfile, hn]
    | none =>
      simp only [hn, Option.some.injEq, Prod.mk.injEq] at h
      obtain ⟨rfl, rfl⟩ := h
      have hlt := lt_of_getElem?_eq_some hfile
      simp only [State.GetNode]
      rw [GetFile_of_lookup (by exact hself)]
      simp [hlt]

theorem GetFile_twice (s : State) (path : Str) :
    (s.GetFile path).1.GetFile path = s.GetFile path :=
  GetFile_of_lookup (GetFile_lookup_self s path)

theorem GetFile_created {s : State} {path : Str}
    (h : s.stat_cache_.paths_.lookup path = none) :
    (s.GetFile path).1.files[(s.GetFile path).2]? =
      some { path_ := path, mtime_ := 0, node_ := none } := by
  simp only [State.GetFile, h, List.getElem?_concat_length]

/-- C17: in every state reachable by graph-building and `touch` calls, for
every path `p`: `GetNode(p)` returns, and called again on the state it leaves
returns the same node and leaves that state unchanged; the same holds for
`GetFile(p)`; a record created by `GetFile` has `mtime_` 0 and no node; and
the map `paths_` has no key twice and maps every key to a record whose
`path_` is the key, the records of different keys being different. -/
theorem C17_interning (s : State) (h : Reachable s) (p : Str) :
    (∃ s1 n, s.GetNode p = some (s1, n) ∧ s1.GetNode p = some (s1, n)) ∧
    (s.GetFile p).1.GetFile p = s.GetFile p ∧
    (s.stat_cache_.paths_.lookup p = none →
      (s.GetFile p).1.files[(s.GetFile p).2]? =
        some { path_ := p, mtime_ := 0, node_ := none }) ∧
    (s.stat_cache_.paths_.map Prod.fst).Nodup ∧
    (∀ k f, (k, f) ∈ s.stat_cache_.paths_ →
      ∃ file, s.files[f]? = some file ∧ file.path_ = k) ∧
    (∀ k1 k2 f, (k1, f) ∈ s.stat_cache_.paths_ → (k2, f) ∈ s.stat_cache_.paths_ →
      k1 = k2) := by
  have hw := h.wf
  have hfile : ∀ k f, (k, f) ∈ s.stat_cache_.paths_ →
      ∃ file, s.files[f]? = some file ∧ file.path_ = k :=
    fun k f hkf => hw.paths_file k f (lookup_of_mem_nodup _ k f hw.paths_nodup hkf)
  obtain ⟨s1, n, h1⟩ := GetNode_some hw p
  refine ⟨⟨s1, n, h1, GetNode_twice h1⟩, GetFile_twice s p, GetFile_created, hw.paths_nodup,
    hfile, ?_⟩
  intro k1 k2 f h1 h2
  obtain ⟨file1, a1, a2⟩ := hfile k1 f h1
  obtain ⟨file2, b1, b2⟩ := hfile k2 f h2
  rw [a1] at b1
  simp only [Option.some.injEq] at b1
  subst b1
  rw [← a2, ← b2]

theorem chainDirty_reachable : Reachable chainDirty :=
  Reachable.touch ['a'] 1 (Reachable.reach_of_run Reachable.empty chainState_run)
    (chainState_touch 1)

theorem C17_interning_witness :
    Reachable chainDirty ∧
    (∃ s1 n, chainDirty.GetNode ['z'] = some (s1, n) ∧ s1.GetNode ['z'] = some (s1, n)) ∧
    (chainDirty.GetFile ['z']).1.GetFile ['z'] = chainDirty.GetFile ['z'] ∧
    (chainDirty.stat_cache_.paths_.lookup ['z'] = none →
      (chainDirty.GetFile ['z']).1.files[(chainDirty.GetFile ['z']).2]? =
        some { path_ := ['z'], mtime_ := 0, node_ := none }) ∧
    (chainDirty.stat_cache_.paths_.map Prod.fst).Nodup ∧
    (∀ k f, (k, f) ∈ chainDirty.stat_cache_.paths_ →
      ∃ file, chainDirty.files[f]? = some file ∧ file.path_ = k) ∧
    (∀ k1 k2 f, (k1, f) ∈ chainDirty.stat_cache_.paths_ →
      (k2, f) ∈ chainDirty.stat_cache_.paths_ → k1 = k2) :=
  ⟨chainDirty_reachable, C17_interning chainDirty chainDirty_reachable ['z']⟩

theorem helloManifest_result :
    ManifestParser.Parse State.empty helloManifest =
      Res.error ruleCatState 2 11 "expected output file list".toList := by
  decide

/-- C13, as stated, fails: parsing the manifest with the names `hello.c` and
`hello.o` does not succeed. -/
theorem C13_hello_manifest_rejected :
    ¬ ∃ s1, ManifestParser.Parse State.empty helloManifest = Res.ok s1 := by
  rintro ⟨s1, h⟩
  rw [helloManifest_result] at h
  exact absurd h (by simp)

/-- C13, amended: parsing the manifest `rule cat`, `command cat @in > $out`,
`build hello.c : cat hello.o` on an empty state stops at the `.`, which is not
an identifier character, with `line 3, col 12: expected output file list`, the
rule `cat` added and no edge; with the names written `helloc` and `helloo`
parsing succeeds and leaves one rule `cat`, one edge with the inputs `[helloc]`
and the outputs `[helloo]`, and the `in_edge_` of the node of `helloo` equal to
that edge. -/
theorem C13_plain_names_manifest :
    ManifestParser.Parse State.empty helloManifestPlain = Res.ok helloState ∧
    helloState.rules.map Rule.name_ = ["cat".toList] ∧
    helloState.rules_ = [("cat".toList, some 0)] ∧
    helloState.edges = [{ rule_ := some 0, inputs_ := [0], outputs_ := [1] }] ∧
    helloState.edges_ = [0] ∧
    helloState.nodePath 0 = some "helloc".toList ∧
    helloState.nodePath 1 = some "helloo".toList ∧
    (helloState.nodes[1]?).map Node.in_edge_ = some (some 0) ∧
    ManifestParser.Parse State.empty helloManifest =
      Res.error ruleCatState 2 11 "expected output file list".toList ∧
    (ManifestParser.Parse State.empty helloManifest).err =
      some "line 3, col 12: expected output file list".toList ∧
    ruleCatState.rules.map Rule.name_ = ["cat".toList] ∧ ruleCatState.edges = [] := by
  decide

/-- C15: on the manifest `rule r`, `command echo $` the template parser
returns `false`, the `assert` in the constructor of `Rule` fails, and
`ManifestParser::Parse` does not return: it neither reports a failure nor
succeeds. -/
theorem C15_bad_sigil_aborts :
    (EvalString.fresh.Parse "echo $".toList).map Prod.fst = some false ∧
    Rule.new "r".toList "echo $".toList = none ∧
    State.empty.AddRule "r".toList "echo $".toList = none ∧
    ManifestParser.Parse State.empty "rule r\ncommand echo $\n".toList = Res.abort ∧
    (ManifestParser.Parse State.empty "rule r\ncommand echo $\n".toList).err = none := by
  decide

/-- C14, as stated, fails: on the input `xyz` and a newline the diagnostic is
not `line 1, col 1: unknown token: xyz`. -/
theorem C14_xyz_column_is_not_1 :
    (ManifestParser.Parse State.empty "xyz\n".toList).err ≠
      some "line 1, col 1: unknown token: xyz".toList := by
  decide

theorem wrapInt_of_range {x : Int} (h1 : -2147483648 ≤ x) (h2 : x < 2147483648) :
    wrapInt x = x := by
  unfold wrapInt
  omega

theorem incr_iterate_zero : ∀ n : Nat, n < 2147483648 → incr^[n] 0 = (n : Int) := by
  intro n
  induction n with
  | zero => intro _; rfl
  | succ n ih =>
    intro hn
    rw [Function.iterate_succ_apply', ih (by omega)]
    unfold incr
    rw [wrapInt_of_range (by omega) (by omega)]
    push_cast
    rfl

theorem IsIdentChar_ne {c : Char} (h : IsIdentChar c = true) :
    c ≠ ' ' ∧ c ≠ '\n' ∧ c ≠ ':' := by
  refine ⟨?_, ?_, ?_⟩ <;> (rintro rfl; exact absurd h (by decide))

theorem identLoop_spec : ∀ (t rest : Str) (col : Int) (tok : Str),
    (∀ c ∈ t, IsIdentChar c = true) → NoIdentHead rest →
    ManifestParser.identLoop (t ++ rest) col tok = (rest, incr^[t.length] col, tok ++ t) := by
  intro t
  induction t with
  | nil =>
    intro rest col tok _ hrest
    cases rest with
    | nil => simp [ManifestParser.identLoop]
    | cons c r =>
      have := hrest c r rfl
      simp [ManifestParser.identLoop, this]
  | cons c t ih =>
    intro rest col tok ht hrest
    have hc : IsIdentChar c = true := ht c (List.mem_cons_self c t)
    rw [List.cons_append, ManifestParser.identLoop]
    simp only [hc, ↓reduceIte]
    rw [ih rest (incr col) (tok ++ [c]) (fun d hd => ht d (List.mem_cons_of_mem c hd)) hrest]
    simp [Function.iterate_succ_apply]

theorem skipLoop_false_of_ne_space (c : Char) (rest : Str) (line col : Int) (sk : Bool)
    (h : c ≠ ' ') :
    ManifestParser.skipLoop false (c :: rest) line col sk = (c :: rest, line, col, sk) := by
  simp [ManifestParser.skipLoop, h]

/-- `NextToken` on an identifier that starts at the cursor. -/
theorem NextToken_ident (p : ManifestParser) (t rest : Str) (hp : p.cur_ = t ++ rest)
    (ht : IsIdent t) (hrest : NoIdentHead rest) :
    p.NextToken =
      (true, { cur_ := rest, line_ := p.line_, col_ := incr^[t.length] p.col_, token_ := t }) := by
  obtain ⟨hne, hall⟩ := ht
  cases t with
  | nil => exact absurd rfl hne
  | cons c t =>
    have hc : IsIdentChar c = true := hall c (List.mem_cons_self c t)
    have hloop := identLoop_spec (c :: t) rest p.col_ [] hall hrest
    rw [List.cons_append] at hp hloop
    simp only [ManifestParser.NextToken, ManifestParser.SkipWhitespace, hp,
      skipLoop_false_of_ne_space c (t ++ rest) p.line_ p.col_ false (IsIdentChar_ne hc).1, hc,
      ↓reduceIte, hloop]
    simp

theorem skipLoop_space (nl : Bool) (rest : Str) (line col : Int) (sk : Bool) :
    ManifestParser.skipLoop nl (' ' :: rest) line col sk =
      ManifestParser.skipLoop nl rest line (incr col) true := by
  rw [ManifestParser.skipLoop]
  simp

/-- `NextToken` on one space followed by an identifier. -/
theorem NextToken_space_ident (p : ManifestParser) (t rest : Str)
    (hp : p.cur_ = ' ' :: (t ++ rest)) (ht : IsIdent t) (hrest : NoIdentHead rest) :
    p.NextToken =
      (true, { cur_ := rest, line_ := p.line_, col_ := incr^[t.length] (incr p.col_),
               token_ := t }) := by
  obtain ⟨hne, hall⟩ := ht
  cases t with
  | nil => exact absurd rfl hne
  | cons c t =>
    have hc : IsIdentChar c = true := hall c (List.mem_cons_self c t)
    have hloop := identLoop_spec (c :: t) rest (incr p.col_) [] hall hrest
    rw [List.cons_append] at hp hloop
    simp only [ManifestParser.NextToken, ManifestParser.SkipWhitespace, hp, skipLoop_space,
      skipLoop_false_of_ne_space c (t ++ rest) p.line_ (incr p.col_) true (IsIdentChar_ne hc).1,
      hc, ↓reduceIte, hloop]
    simp

theorem formatError_unknown_token (t : Str) (h : t.length < 2147483647) :
    formatError 0 t.length ("unknown token: ".toList ++ t) =
      "line 1, col ".toList ++ decimal (t.length + 1) ++ ": unknown token: ".toList ++ t := by
  unfold formatError
  rw [wrapInt_of_range (x := (t.length : Int) + 1) (by omega) (by omega)]
  have h1 : decimal (wrapInt (0 + 1)) = ['1'] := by decide
  rw [h1]
  simp

/-- C14, amended: a manifest that begins with an identifier token `t` other
than `rule` and `build` makes `ManifestParser::Parse` fail with the column after
the token: the diagnostic is `line 1, col <length of t + 1>: unknown token: t`
when that text fits the buffer of `Error`; the input `xyz` and a newline yields
`line 1, col 4: unknown token: xyz`. -/
theorem C14_unknown_token_diagnostic (s : State) (t rest : Str) (ht : IsIdent t)
    (hrest : NoIdentHead rest) (hrule : t ≠ "rule".toList) (hbuild : t ≠ "build".toList)
    (hfit : ("line 1, col ".toList ++ decimal (t.length + 1) ++ ": unknown token: ".toList ++
      t).length < 1024) :
    (ManifestParser.Parse s (t ++ rest) =
        Res.error s 0 t.length ("unknown token: ".toList ++ t) ∧
      (ManifestParser.Parse s (t ++ rest)).err =
        some ("line 1, col ".toList ++ decimal (t.length + 1) ++ ": unknown token: ".toList ++
          t)) ∧
    (ManifestParser.Parse State.empty "xyz\n".toList).err =
      some "line 1, col 4: unknown token: xyz".toList := by
  refine ⟨?_, by decide⟩
  have hlen : t.length < 1024 := by
    simp only [List.length_append] at hfit
    omega
  have hres : ManifestParser.Parse s (t ++ rest) =
      Res.error s 0 t.length ("unknown token: ".toList ++ t) := by
    unfold ManifestParser.Parse
    rw [ManifestParser.parseLoop,
      NextToken_ident { cur_ := t ++ rest, line_ := 0, col_ := 0, token_ := [] } t rest rfl ht
        hrest]
    have hr : t ≠ ['r', 'u', 'l', 'e'] := hrule
    have hb : t ≠ ['b', 'u', 'i', 'l', 'd'] := hbuild
    have hfmt := formatError_unknown_token t (by omega)
    have hfit1 : (formatError 0 t.length ("unknown token: ".toList ++ t)).length + 1 ≤ 1024 := by
      rw [hfmt]
      omega
    simp only [hr, hb, ↓reduceIte, ManifestParser.Error, incr_iterate_zero t.length (by omega)]
    exact if_pos hfit1
  refine ⟨hres, ?_⟩
  rw [hres]
  simp only [Res.err, ManifestParser.errText]
  rw [formatError_unknown_token t (by omega)]
  have : ("line 1, col ".toList ++ decimal (↑t.length + 1) ++ ": unknown token: ".toList ++
      t).length + 1 ≤ 1024 := by omega
  rw [if_pos this]

theorem C14_unknown_token_diagnostic_witness :
    (ManifestParser.Parse State.empty ("xyz".toList ++ "\n".toList) =
        Res.error State.empty 0 "xyz".toList.length ("unknown token: ".toList ++ "xyz".toList) ∧
      (ManifestParser.Parse State.empty ("xyz".toList ++ "\n".toList)).err =
        some ("line 1, col ".toList ++ decimal ("xyz".toList.length + 1) ++
          ": unknown token: ".toList ++ "xyz".toList)) ∧
    (ManifestParser.Parse State.empty "xyz\n".toList).err =
      some "line 1, col 4: unknown token: xyz".toList :=
  C14_unknown_token_diagnostic State.empty "xyz".toList "\n".toList
    ⟨by decide, by decide⟩ (by intro c r h; cases h; decide) (by decide) (by decide) (by decide)

theorem skipLoop_false_fix : ∀ (cur : Str) (line col : Int) (sk sk1 : Bool),
    ManifestParser.skipLoop false (ManifestParser.skipLoop false cur line col sk).1
        (ManifestParser.skipLoop false cur line col sk).2.1
        (ManifestParser.skipLoop false cur line col sk).2.2.1 sk1 =
      ((ManifestParser.skipLoop false cur line col sk).1,
        (ManifestParser.skipLoop false cur line col sk).2.1,
        (ManifestParser.skipLoop false cur line col sk).2.2.1, sk1) := by
  intro cur
  induction cur with
  | nil => intro line col sk sk1; simp [ManifestParser.skipLoop]
  | cons c rest ih =>
    intro line col sk sk1
    by_cases hc : c = ' '
    · subst hc
      rw [skipLoop_space]
      exact ih line (incr col) true sk1
    · rw [skipLoop_false_of_ne_space c rest line col sk hc]
      exact skipLoop_false_of_ne_space c rest line col sk1 hc

theorem SkipWhitespace_false_twice (p : ManifestParser) :
    ((p.SkipWhitespace false).2.SkipWhitespace false).2 = (p.SkipWhitespace false).2 := by
  simp only [ManifestParser.SkipWhitespace, skipLoop_false_fix]

theorem NextToken_skip (p : ManifestParser) :
    ((p.SkipWhitespace false).2).NextToken = p.NextToken := by
  unfold ManifestParser.NextToken
  rw [SkipWhitespace_false_twice]

theorem NextToken_space_colon (p : ManifestParser) (rest : Str)
    (hp : p.cur_ = ' ' :: ':' :: rest) :
    p.NextToken =
      (true, { cur_ := rest, line_ := p.line_, col_ := incr (incr p.col_), token_ := [':'] }) := by
  simp only [ManifestParser.NextToken, ManifestParser.SkipWhitespace, hp, skipLoop_space,
    skipLoop_false_of_ne_space ':' rest p.line_ (incr p.col_) true (by decide)]
  have h1 : IsIdentChar ':' = false := by decide
  simp [h1]

theorem NextToken_newline (p : ManifestParser) (rest : Str) (hp : p.cur_ = '\n' :: rest) :
    p.NextToken = (false, { p with token_ := [] }) := by
  simp only [ManifestParser.NextToken, ManifestParser.SkipWhitespace, hp,
    skipLoop_false_of_ne_space '\n' rest p.line_ p.col_ false (by decide)]
  have h1 : IsIdentChar '\n' = false := by decide
  simp [h1, hp]

theorem NextToken_nil (p : ManifestParser) (hp : p.cur_ = []) :
    p.NextToken = (false, { p with token_ := [] }) := by
  simp [ManifestParser.NextToken, ManifestParser.SkipWhitespace, hp, ManifestParser.skipLoop]

theorem readIns_skip (fuel : Nat) (p : ManifestParser) (s : State) (acc : List Str) :
    ManifestParser.readIns fuel (p.SkipWhitespace false).2 s acc =
      ManifestParser.readIns fuel p s acc := by
  cases fuel with
  | zero => rfl
  | succ fuel => rw [ManifestParser.readIns, ManifestParser.readIns, NextToken_skip]

theorem noIdentHead_space (x : Str) : NoIdentHead (' ' :: x) := by
  intro c r h
  cases h
  decide

theorem noIdentHead_newline (x : Str) : NoIdentHead ('\n' :: x) := by
  intro c r h
  cases h
  decide

theorem noIdentHead_words (ws : List Str) (x : Str) (hx : NoIdentHead x) :
    NoIdentHead ((ws.map fun t => ' ' :: t).flatten ++ x) := by
  cases ws with
  | nil => simpa using hx
  | cons w ws =>
    simp only [List.map_cons, List.flatten_cons, List.cons_append]
    exact noIdentHead_space _

theorem IsIdent.ne_colon {t : Str} (h : IsIdent t) : t ≠ [':'] := by
  rintro rfl
  exact absurd (h.2 ':' (List.mem_singleton.2 rfl)) (by decide)

theorem words_length_ge (ws : List Str) :
    ws.length ≤ ((ws.map fun t => ' ' :: t).flatten).length := by
  induction ws with
  | nil => simp
  | cons w ws ih =>
    simp only [List.map_cons, List.flatten_cons, List.length_append, List.length_cons]
    omega

/-- The first loop of `ParseEdge` reads the input names up to the colon. -/
theorem readIns_spec (s : State) : ∀ (ins : List Str) (rest : Str) (p : ManifestParser)
    (acc : List Str) (fuel : Nat),
    p.cur_ = (ins.map fun t => ' ' :: t).flatten ++ ' ' :: ':' :: rest →
    (∀ t ∈ ins, IsIdent t) → ins.length < fuel →
    ∃ col, ManifestParser.readIns fuel p s acc =
      Res.ok ({ cur_ := rest, line_ := p.line_, col_ := col, token_ := [':'] }, acc ++ ins) := by
  intro ins
  induction ins with
  | nil =>
    intro rest p acc fuel hp _ hf
    obtain ⟨fuel, rfl⟩ : ∃ k, fuel = k + 1 := ⟨fuel - 1, by omega⟩
    simp only [List.map_nil, List.flatten_nil, List.nil_append] at hp
    rw [ManifestParser.readIns, NextToken_space_colon p rest hp]
    exact ⟨incr (incr p.col_), by simp⟩
  | cons t ins ih =>
    intro rest p acc fuel hp hins hf
    obtain ⟨fuel, rfl⟩ : ∃ k, fuel = k + 1 := ⟨fuel - 1, by omega⟩
    simp only [List.map_cons, List.flatten_cons, List.cons_append, List.append_assoc] at hp
    have ht : IsIdent t := hins t (List.mem_cons_self t ins)
    rw [ManifestParser.readIns, NextToken_space_ident p t _ hp ht
      (noIdentHead_words ins _ (noIdentHead_space _))]
    simp only [ht.ne_colon, ↓reduceIte]
    obtain ⟨col, hcol⟩ := ih rest
      { cur_ := (ins.map fun t => ' ' :: t).flatten ++ ' ' :: ':' :: rest, line_ := p.line_,
        col_ := incr^[t.length] (incr p.col_), token_ := t } (acc ++ [t]) fuel rfl
      (fun u hu => hins u (List.mem_cons_of_mem t hu)) (by simpa using hf)
    exact ⟨col, by rw [hcol]; simp⟩

/-- The second loop of `ParseEdge` reads the output names up to the newline. -/
theorem readOuts_spec : ∀ (outs : List Str) (rest : Str) (p : ManifestParser)
    (acc : List Str) (fuel : Nat),
    p.cur_ = (outs.map fun t => ' ' :: t).flatten ++ '\n' :: rest →
    (∀ t ∈ outs, IsIdent t) → outs.length < fuel →
    ∃ col, ManifestParser.readOuts fuel p acc =
      Res.ok ({ cur_ := '\n' :: rest, line_ := p.line_, col_ := col, token_ := [] },
        acc ++ outs) := by
  intro outs
  induction outs with
  | nil =>
    intro rest p acc fuel hp _ hf
    obtain ⟨fuel, rfl⟩ : ∃ k, fuel = k + 1 := ⟨fuel - 1, by omega⟩
    simp only [List.map_nil, List.flatten_nil, List.nil_append] at hp
    rw [ManifestParser.readOuts, NextToken_newline p rest hp]
    exact ⟨p.col_, by simp [hp]⟩
  | cons t outs ih =>
    intro rest p acc fuel hp houts hf
    obtain ⟨fuel, rfl⟩ : ∃ k, fuel = k + 1 := ⟨fuel - 1, by omega⟩
    simp only [List.map_cons, List.flatten_cons, List.cons_append, List.append_assoc] at hp
    have ht : IsIdent t := houts t (List.mem_cons_self t outs)
    rw [ManifestParser.readOuts, NextToken_space_ident p t _ hp ht
      (noIdentHead_words outs _ (noIdentHead_newline _))]
    dsimp only
    obtain ⟨col, hcol⟩ := ih rest
      { cur_ := (outs.map fun t => ' ' :: t).flatten ++ '\n' :: rest, line_ := p.line_,
        col_ := incr^[t.length] (incr p.col_), token_ := t } (acc ++ [t]) fuel rfl
      (fun u hu => houts u (List.mem_cons_of_mem t hu)) (by simpa using hf)
    exact ⟨col, by rw [hcol]; simp⟩

theorem skipLoop_words_length (ins : List Str) (rest : Str) (line col : Int) (sk : Bool)
    (hins : ∀ t ∈ ins, IsIdent t) :
    ins.length < (ManifestParser.skipLoop false
      ((ins.map fun t => ' ' :: t).flatten ++ ' ' :: ':' :: rest) line col sk).1.length + 1 := by
  cases ins with
  | nil =>
    simp only [List.map_nil, List.flatten_nil, List.nil_append, skipLoop_space,
      skipLoop_false_of_ne_space ':' rest line (incr col) true (by decide)]
    simp
  | cons t ins =>
    obtain ⟨hne, hall⟩ := hins t (List.mem_cons_self t ins)
    cases t with
    | nil => exact absurd rfl hne
    | cons c t =>
      have hc : IsIdentChar c = true := hall c (List.mem_cons_self c t)
      simp only [List.map_cons, List.flatten_cons, List.cons_append, skipLoop_space,
        skipLoop_false_of_ne_space c _ line (incr col) true (IsIdentChar_ne hc).1]
      have := words_length_ge ins
      simp only [List.length_cons, List.length_append]
      omega

/-- `ParseEdge` on the text of a build declaration after the word `build`:
the names are read, the edge is added, and the two `AddInOut` loops run. -/
theorem ParseEdge_spec (p : ManifestParser) (s : State) (ins outs : List Str) (r rest : Str)
    (hp : p.cur_ = (ins.map fun t => ' ' :: t).flatten ++
      ' ' :: ':' :: ' ' :: (r ++ ((outs.map fun t => ' ' :: t).flatten ++ '\n' :: rest)))
    (hins : ∀ t ∈ ins, IsIdent t) (hr : IsIdent r) (houts : ∀ t ∈ outs, IsIdent t) :
    p.ParseEdge s =
      match State.addInOuts (s.AddEdgeByName r).2 InOut.IN ins (s.AddEdgeByName r).1 with
      | none => Res.abort
      | some s2 =>
        match State.addInOuts (s.AddEdgeByName r).2 InOut.OUT outs s2 with
        | none => Res.abort
        | some s3 =>
          Res.ok ({ cur_ := rest, line_ := incr p.line_, col_ := 0, token_ := [] }, s3) := by
  unfold ManifestParser.ParseEdge
  simp only [readIns_skip]
  have hfuel : ins.length < (p.SkipWhitespace false).2.cur_.length + 1 := by
    simp only [ManifestParser.SkipWhitespace, hp]
    exact skipLoop_words_length ins _ p.line_ p.col_ false hins
  obtain ⟨col1, h1⟩ := readIns_spec s ins _ p [] _ hp hins hfuel
  rw [h1]
  simp only [Res.bind, List.nil_append]
  rw [NextToken_space_ident _ r _ rfl hr (noIdentHead_words outs _ (noIdentHead_newline _))]
  dsimp only
  obtain ⟨col2, h2⟩ := readOuts_spec outs rest
    { cur_ := (outs.map fun t => ' ' :: t).flatten ++ '\n' :: rest, line_ := p.line_,
      col_ := incr^[r.length] (incr col1), token_ := r } []
    (((outs.map fun t => ' ' :: t).flatten ++ '\n' :: rest).length + 1) rfl houts
    (by have := words_length_ge outs; simp only [List.length_append]; omega)
  rw [h2]
  simp only [Res.bind, List.nil_append, ManifestParser.Newline, ↓reduceIte,
    ManifestParser.addEdge]

theorem buildDecl_eq (ins outs : List Str) (r : Str) :
    buildDecl ins r outs = ['b', 'u', 'i', 'l', 'd'] ++ ((ins.map fun t => ' ' :: t).flatten ++
      ' ' :: ':' :: ' ' :: (r ++ ((outs.map fun t => ' ' :: t).flatten ++ '\n' :: []))) := by
  simp [buildDecl]

/-- Parsing a manifest that is one build declaration: the edge is added by name
and the two `AddInOut` loops run on the names in order. -/
theorem Parse_buildDecl (s : State) (ins outs : List Str) (r : Str)
    (hins : ∀ t ∈ ins, IsIdent t) (hr : IsIdent r) (houts : ∀ t ∈ outs, IsIdent t) :
    ManifestParser.Parse s (buildDecl ins r outs) =
      match State.addInOuts (s.AddEdgeByName r).2 InOut.IN ins (s.AddEdgeByName r).1 with
      | none => Res.abort
      | some s2 =>
        match State.addInOuts (s.AddEdgeByName r).2 InOut.OUT outs s2 with
        | none => Res.abort
        | some s3 => Res.ok s3 := by
  unfold ManifestParser.Parse
  rw [ManifestParser.parseLoop,
    NextToken_ident { cur_ := buildDecl ins r outs, line_ := 0, col_ := 0, token_ := [] }
      ['b', 'u', 'i', 'l', 'd'] _ (buildDecl_eq ins outs r) ⟨by decide, by decide⟩
      (noIdentHead_words ins _ (noIdentHead_space _))]
  have hne : (['b', 'u', 'i', 'l', 'd'] : Str) ≠ ['r', 'u', 'l', 'e'] := by decide
  simp only [hne, ↓reduceIte]
  rw [ParseEdge_spec _ s ins outs r [] rfl hins hr houts]
  have hlen : (buildDecl ins r outs).length = ((buildDecl ins r outs).length - 1) + 1 := by
    simp [buildDecl]
  cases State.addInOuts (s.AddEdgeByName r).2 InOut.IN ins (s.AddEdgeByName r).1 with
  | none => rfl
  | some s2 =>
    dsimp only
    cases State.addInOuts (s.AddEdgeByName r).2 InOut.OUT outs s2 with
    | none => rfl
    | some s3 =>
      simp only [Res.bind]
      rw [hlen, ManifestParser.parseLoop, NextToken_nil _ (by
        simp [ManifestParser.SkipWhitespace, ManifestParser.skipLoop])]
      simp [ManifestParser.SkipWhitespace, ManifestParser.skipLoop]

theorem nodeOf_eq_some_iff {s : State} {p : Str} {n : Nat} :
    s.nodeOf p = some n ↔ ∃ f file, s.stat_cache_.paths_.lookup p = some f ∧
      s.files[f]? = some file ∧ file.node_ = some n := by
  unfold State.nodeOf
  constructor
  · intro h
    split at h
    · simp at h
    · rename_i f hf
      split at h
      · simp at h
      · rename_i file hfile
        exact ⟨f, file, hf, hfile, h⟩
  · rintro ⟨f, file, hf, hfile, hn⟩
    simp only [hf, hfile, hn]

/-- In a well-formed state two paths with the same node are the same path. -/
theorem nodeOf_inj {s : State} (hw : s.WF) {p q : Str} {n : Nat}
    (hp : s.nodeOf p = some n) (hq : s.nodeOf q = some n) : p = q := by
  obtain ⟨f, file, hf, hfile, hn⟩ := nodeOf_eq_some_iff.1 hp
  obtain ⟨g, file1, hg, hfile1, hn1⟩ := nodeOf_eq_some_iff.1 hq
  obtain ⟨nd, hnd, hndf⟩ := hw.file_node f file n hfile hn
  obtain ⟨nd1, hnd1, hndg⟩ := hw.file_node g file1 n hfile1 hn1
  rw [hnd] at hnd1
  cases hnd1
  have hfg : f = g := hndf.symm.trans hndg
  subst hfg
  obtain ⟨fl, hfl, hpath⟩ := hw.paths_file p f hf
  obtain ⟨fl1, hfl1, hpath1⟩ := hw.paths_file q f hg
  rw [hfl] at hfl1
  cases hfl1
  exact hpath.symm.trans hpath1

theorem inEdge_append_fresh {s s1 : State} {nd0 : Node} (h : s1.nodes = s.nodes ++ [nd0])
    (h0 : nd0.in_edge_ = none) (m : Nat) : s1.inEdge m = s.inEdge m := by
  unfold State.inEdge
  rw [h]
  rcases Nat.lt_trichotomy m s.nodes.length with hm | hm | hm
  · rw [List.getElem?_append_left hm]
  · subst hm
    simp [h0]
  · rw [List.getElem?_eq_none (by simp; omega), List.getElem?_eq_none (by omega)]

theorem inEdge_none_of_ge {s : State} {m : Nat} (h : s.nodes.length ≤ m) :
    s.inEdge m = none := by
  unfold State.inEdge
  rw [List.getElem?_eq_none h]

/-- What `GetNode` does to the state: it is unchanged when the path has a node;
otherwise one clean node without edges is appended and becomes the node of the
path, and the nodes of the other paths stay. -/
theorem GetNode_cases {s s1 : State} {path : Str} {n : Nat} (hw : s.WF)
    (h : s.GetNode path = some (s1, n)) :
    (s1 = s ∧ s.nodeOf path = some n) ∨
    (n = s.nodes.length ∧ s.nodeOf path = none ∧
      (∃ f, s1.nodes = s.nodes ++
        [{ file_ := f, dirty_ := false, in_edge_ := none, out_edges_ := [] }]) ∧
      s1.edges = s.edges ∧ s1.edges_ = s.edges_ ∧ s1.rules_ = s.rules_ ∧
      s1.rules = s.rules ∧
      s1.nodeOf path = some n ∧ ∀ q, q ≠ path → s1.nodeOf q = s.nodeOf q) := by
  unfold State.GetNode State.GetFile at h
  cases hl : s.stat_cache_.paths_.lookup path with
  | some f =>
    simp only [hl] at h
    have hflt := hw.paths_lt _ _ hl
    obtain ⟨file, hfile⟩ := getElem?_some_of_lt hflt
    simp only [hfile] at h
    cases hnode : file.node_ with
    | some m =>
      simp only [hnode, Option.some.injEq, Prod.mk.injEq] at h
      obtain ⟨rfl, rfl⟩ := h
      exact Or.inl ⟨rfl, nodeOf_eq_some_iff.2 ⟨f, file, hl, hfile, hnode⟩⟩
    | none =>
      simp only [hnode, Option.some.injEq, Prod.mk.injEq] at h
      obtain ⟨rfl, rfl⟩ := h
      refine Or.inr ⟨rfl, ?_, ⟨f, rfl⟩, rfl, rfl, rfl, rfl, ?_, ?_⟩
      · simp only [State.nodeOf, hl, hfile, hnode]
      · simp [State.nodeOf, hl, List.getElem?_set, hflt]
      · intro q hq
        unfold State.nodeOf
        dsimp only
        cases hlq : s.stat_cache_.paths_.lookup q with
        | none => rfl
        | some g =>
          have hgf : f ≠ g := by
            rintro rfl
            obtain ⟨fl, hfl, hp1⟩ := hw.paths_file q f hlq
            obtain ⟨fl1, hfl1, hp2⟩ := hw.paths_file path f hl
            rw [hfl] at hfl1
            cases hfl1
            exact hq (hp1.symm.trans hp2)
          simp only [List.getElem?_set_ne hgf]
  | none =>
    simp only [hl, List.getElem?_concat_length, Option.some.injEq, Prod.mk.injEq] at h
    obtain ⟨rfl, rfl⟩ := h
    refine Or.inr ⟨rfl, ?_, ⟨s.files.length, rfl⟩, rfl, rfl, rfl, rfl, ?_, ?_⟩
    · simp only [State.nodeOf, hl]
    · simp [State.nodeOf, List.lookup_append, hl, List.getElem?_set]
    · intro q hq
      unfold State.nodeOf
      dsimp only
      have hq1 : (q == path) = false := by simpa using hq
      simp only [List.lookup_append, List.lookup_cons, hq1, List.lookup_nil, Option.or_none]
      cases hlq : s.stat_cache_.paths_.lookup q with
      | none => rfl
      | some g =>
        have hg := hw.paths_lt _ _ hlq
        have hgf : s.files.length ≠ g := by omega
        simp only [List.getElem?_set_ne hgf, List.getElem?_append_left hg]

/-- What `GetNode` keeps: the edges, the rules, the nodes of the paths that
have one, and every `in_edge_`; the path has a node afterwards. -/
theorem GetNode_spec {s s1 : State} {path : Str} {n : Nat} (hw : s.WF)
    (h : s.GetNode path = some (s1, n)) :
    s1.edges = s.edges ∧ s1.edges_ = s.edges_ ∧ s1.rules_ = s.rules_ ∧ s1.rules = s.rules ∧
    s1.nodeOf path = some n ∧ (∀ q m, s.nodeOf q = some m → s1.nodeOf q = some m) ∧
    (∀ m, s1.inEdge m = s.inEdge m) ∧ (∀ q, s1.producer q = s.producer q) := by
  rcases GetNode_cases hw h with
    ⟨rfl, hn⟩ | ⟨rfl, hnone, ⟨f, hnodes⟩, h1, h2, h3, h4, hn, hother⟩
  · exact ⟨rfl, rfl, rfl, rfl, hn, fun _ _ hq => hq, fun _ => rfl, fun _ => rfl⟩
  · have hin : ∀ m, s1.inEdge m = s.inEdge m := inEdge_append_fresh hnodes rfl
    refine ⟨h1, h2, h3, h4, hn, ?_, hin, ?_⟩
    · intro q m hq
      by_cases hqp : q = path
      · subst hqp
        rw [hnone] at hq
        cases hq
      · rw [hother q hqp]
        exact hq
    · intro q
      unfold State.producer
      by_cases hqp : q = path
      · subst hqp
        rw [hn, hnone]
        dsimp only
        rw [hin]
        exact inEdge_none_of_ge (le_refl _)
      · rw [hother q hqp]
        cases s.nodeOf q with
        | none => rfl
        | some m => exact hin m

/-- What `AddInOut(edge, IN, path)` does in a well-formed state: it returns,
appends the node of the path to the inputs of the edge, and keeps the other
edges, the rules, the nodes of the paths and every producer. -/
theorem AddInOut_IN_spec {s : State} (hw : s.WF) {e : Nat} {ed : Edge}
    (he : s.edges[e]? = some ed) (path : Str) :
    ∃ s1 n, s.AddInOut e InOut.IN path = some s1 ∧ s1.WF ∧ s1.nodeOf path = some n ∧
      s1.edges = s.edges.set e { ed with inputs_ := ed.inputs_ ++ [n] } ∧
      s1.edges_ = s.edges_ ∧ s1.rules_ = s.rules_ ∧ s1.rules = s.rules ∧
      (∀ q, s1.producer q = s.producer q) ∧
      (∀ q m, s.nodeOf q = some m → s1.nodeOf q = some m) := by
  obtain ⟨s0, n, hg⟩ := GetNode_some hw path
  obtain ⟨hw0, hn⟩ := WF_GetNode hw hg
  obtain ⟨h1, h2, h3, h4, hnode, hmono, hin, hprod⟩ := GetNode_spec hw hg
  obtain ⟨nd, hnd⟩ := getElem?_some_of_lt hn
  have he0 : s0.edges[e]? = some ed := by rw [h1]; exact he
  have hadd : s.AddInOut e InOut.IN path = some { s0 with
      edges := s0.edges.set e { ed with inputs_ := ed.inputs_ ++ [n] },
      nodes := s0.nodes.set n { nd with out_edges_ := nd.out_edges_ ++ [e] } } := by
    simp only [State.AddInOut, hg, he0, hnd]
  refine ⟨_, n, hadd, WF_AddInOut hw hadd, hnode, by rw [← h1], h2, h3, h4, ?_, hmono⟩
  intro q
  rw [← hprod q]
  unfold State.producer
  show (match s0.nodeOf q with
    | none => none
    | some m => State.inEdge _ m) = _
  cases s0.nodeOf q with
  | none => rfl
  | some m =>
    simp only [State.inEdge, List.getElem?_set]
    by_cases hmn : n = m
    · subst hmn
      simp [hn, hnd]
    · simp [hmn]

/-- What `AddInOut(edge, OUT, path)` does in a well-formed state when the path
has no producer: it returns, appends the node of the path to the outputs of the
edge, makes the edge the producer of the path, and keeps the rest. -/
theorem AddInOut_OUT_spec {s : State} (hw : s.WF) {e : Nat} {ed : Edge}
    (he : s.edges[e]? = some ed) (path : Str) (hfree : s.producer path = none) :
    ∃ s1 n, s.AddInOut e InOut.OUT path = some s1 ∧ s1.WF ∧ s1.nodeOf path = some n ∧
      s1.edges = s.edges.set e { ed with outputs_ := ed.outputs_ ++ [n] } ∧
      s1.edges_ = s.edges_ ∧ s1.rules_ = s.rules_ ∧ s1.rules = s.rules ∧
      (∀ q, s1.producer q = if q = path then some e else s.producer q) ∧
      (∀ q m, s.nodeOf q = some m → s1.nodeOf q = some m) := by
  obtain ⟨s0, n, hg⟩ := GetNode_some hw path
  obtain ⟨hw0, hn⟩ := WF_GetNode hw hg
  obtain ⟨h1, h2, h3, h4, hnode, hmono, hin, hprod⟩ := GetNode_spec hw hg
  obtain ⟨nd, hnd⟩ := getElem?_some_of_lt hn
  have he0 : s0.edges[e]? = some ed := by rw [h1]; exact he
  have hnone : nd.in_edge_ = none := by
    have := hprod path
    rw [hfree] at this
    simpa only [State.producer, hnode, State.inEdge, hnd] using this
  have hadd : s.AddInOut e InOut.OUT path = some { s0 with
      edges := s0.edges.set e { ed with outputs_ := ed.outputs_ ++ [n] },
      nodes := s0.nodes.set n { nd with in_edge_ := some e } } := by
    simp only [State.AddInOut, hg, he0, hnd, hnone, ne_eq, not_true_eq_false, ↓reduceIte]
  refine ⟨_, n, hadd, WF_AddInOut hw hadd, hnode, by rw [← h1], h2, h3, h4, ?_, hmono⟩
  intro q
  rw [← hprod q]
  unfold State.producer
  show (match s0.nodeOf q with
    | none => none
    | some m => State.inEdge _ m) = _
  cases hq : s0.nodeOf q with
  | none =>
    have hqp : q ≠ path := by
      rintro rfl
      rw [hnode] at hq
      cases hq
    simp [hqp]
  | some m =>
    simp only [State.inEdge, List.getElem?_set]
    by_cases hmn : n = m
    · subst hmn
      have hqp : q = path := nodeOf_inj hw0 hq hnode
      simp [hn, hqp]
    · have hqp : q ≠ path := by
        rintro rfl
        rw [hnode] at hq
        exact hmn (Option.some.inj hq)
      simp [hmn, hqp]

theorem set_of_getElem? {α : Type} (l : List α) (i : Nat) (a : α) (h : l[i]? = some a) :
    l.set i a = l := by
  apply List.ext_getElem?
  intro j
  rw [List.getElem?_set]
  split
  · rename_i hij
    subst hij
    simp [lt_of_getElem?_eq_some h, h]
  · rfl

theorem set_set_same {α : Type} (l : List α) (i : Nat) (a b : α) :
    (l.set i a).set i b = l.set i b := by
  simp

/-- The loop of `ParseEdge` over the inputs. -/
theorem addInOuts_IN_spec (e : Nat) : ∀ (ins : List Str) (s : State) (ed : Edge), s.WF →
    s.edges[e]? = some ed →
    ∃ s1 ns, State.addInOuts e InOut.IN ins s = some s1 ∧ s1.WF ∧
      List.Forall₂ (fun p n => s1.nodeOf p = some n) ins ns ∧
      s1.edges = s.edges.set e { ed with inputs_ := ed.inputs_ ++ ns } ∧
      s1.edges_ = s.edges_ ∧ s1.rules_ = s.rules_ ∧ s1.rules = s.rules ∧
      (∀ q, s1.producer q = s.producer q) ∧
      (∀ q m, s.nodeOf q = some m → s1.nodeOf q = some m) := by
  intro ins
  induction ins with
  | nil =>
    intro s ed hw he
    refine ⟨s, [], rfl, hw, List.Forall₂.nil, ?_, rfl, rfl, rfl, fun _ => rfl,
      fun _ _ h => h⟩
    simp only [List.append_nil]
    exact (set_of_getElem? _ _ _ he).symm
  | cons p ins ih =>
    intro s ed hw he
    obtain ⟨s1, n, hadd, hw1, hn, hedges, h2, h3, h4, hprod, hmono⟩ :=
      AddInOut_IN_spec hw he p
    have he1 : s1.edges[e]? = some { ed with inputs_ := ed.inputs_ ++ [n] } := by
      rw [hedges, List.getElem?_set_self (lt_of_getElem?_eq_some he)]
    obtain ⟨s2, ns, hloop, hw2, hall, hedges2, g2, g3, g4, gprod, gmono⟩ := ih s1 _ hw1 he1
    refine ⟨s2, n :: ns, ?_, hw2, List.Forall₂.cons (gmono p n hn) hall, ?_, g2.trans h2,
      g3.trans h3, g4.trans h4, fun q => (gprod q).trans (hprod q),
      fun q m h => gmono q m (hmono q m h)⟩
    · simp only [State.addInOuts, hadd, hloop]
    · rw [hedges2, hedges, set_set_same]
      simp

/-- The loop of `ParseEdge` over the outputs, for pairwise distinct paths
without a producer. -/
theorem addInOuts_OUT_spec (e : Nat) : ∀ (outs : List Str) (s : State) (ed : Edge), s.WF →
    s.edges[e]? = some ed → outs.Nodup → (∀ o ∈ outs, s.producer o = none) →
    ∃ s1 ns, State.addInOuts e InOut.OUT outs s = some s1 ∧ s1.WF ∧
      List.Forall₂ (fun p n => s1.nodeOf p = some n) outs ns ∧
      s1.edges = s.edges.set e { ed with outputs_ := ed.outputs_ ++ ns } ∧
      s1.edges_ = s.edges_ ∧ s1.rules_ = s.rules_ ∧ s1.rules = s.rules ∧
      (∀ q, s1.producer q = if q ∈ outs then some e else s.producer q) ∧
      (∀ q m, s.nodeOf q = some m → s1.nodeOf q = some m) := by
  intro outs
  induction outs with
  | nil =>
    intro s ed hw he _ _
    refine ⟨s, [], rfl, hw, List.Forall₂.nil, ?_, rfl, rfl, rfl, fun _ => by simp,
      fun _ _ h => h⟩
    simp only [List.append_nil]
    exact (set_of_getElem? _ _ _ he).symm
  | cons p outs ih =>
    intro s ed hw he hnd hfree
    obtain ⟨hp, hnd1⟩ := List.nodup_cons.1 hnd
    obtain ⟨s1, n, hadd, hw1, hn, hedges, h2, h3, h4, hprod, hmono⟩ :=
      AddInOut_OUT_spec hw he p (hfree p (List.mem_cons_self p outs))
    have he1 : s1.edges[e]? = some { ed with outputs_ := ed.outputs_ ++ [n] } := by
      rw [hedges, List.getElem?_set_self (lt_of_getElem?_eq_some he)]
    have hfree1 : ∀ o ∈ outs, s1.producer o = none := by
      intro o ho
      have hop : o ≠ p := by
        rintro rfl
        exact hp ho
      rw [hprod o, if_neg hop]
      exact hfree o (List.mem_cons_of_mem p ho)
    obtain ⟨s2, ns, hloop, hw2, hall, hedges2, g2, g3, g4, gprod, gmono⟩ :=
      ih s1 _ hw1 he1 hnd1 hfree1
    refine ⟨s2, n :: ns, ?_, hw2, List.Forall₂.cons (gmono p n hn) hall, ?_, g2.trans h2,
      g3.trans h3, g4.trans h4, ?_, fun q m h => gmono q m (hmono q m h)⟩
    · simp only [State.addInOuts, hadd, hloop]
    · rw [hedges2, hedges, set_set_same]
      simp
    · intro q
      rw [gprod q, hprod q]
      by_cases hq : q = p
      · subst hq
        simp
      · simp [hq]

/-- What `AddEdge(rule_name)` does: it returns a new edge, the last one of the
arena, bound to the entry of the name in the rule map (null when the name has
no entry), and keeps the files and the nodes. -/
theorem AddEdgeByName_spec (s : State) (r : Str) :
    (s.AddEdgeByName r).2 = s.edges.length ∧
    (s.AddEdgeByName r).1.edges =
      s.edges ++ [{ rule_ := (s.rules_.lookup r).join, inputs_ := [], outputs_ := [] }] ∧
    (s.AddEdgeByName r).1.edges_ = s.edges_ ++ [s.edges.length] ∧
    (s.AddEdgeByName r).1.rules = s.rules ∧
    (s.AddEdgeByName r).1.nodes = s.nodes ∧
    (s.AddEdgeByName r).1.files = s.files ∧
    (s.AddEdgeByName r).1.stat_cache_ = s.stat_cache_ := by
  unfold State.AddEdgeByName
  cases s.rules_.lookup r with
  | none => exact ⟨rfl, rfl, rfl, rfl, rfl, rfl, rfl⟩
  | some rule => exact ⟨rfl, rfl, rfl, rfl, rfl, rfl, rfl⟩

theorem AddEdgeByName_rules_ (s : State) (r : Str) :
    (s.AddEdgeByName r).1.rules_ =
      match s.rules_.lookup r with
      | some _ => s.rules_
      | none => s.rules_ ++ [(r, none)] := by
  unfold State.AddEdgeByName
  cases s.rules_.lookup r with
  | none => rfl
  | some rule => rfl

theorem set_snoc_length {α : Type} (l : List α) (a b : α) :
    (l ++ [a]).set l.length b = l ++ [b] := by
  induction l with
  | nil => rfl
  | cons x l ih => simp [ih]

theorem forall2_mem_right {α β : Type} {R : α → β → Prop} {l1 : List α} {l2 : List β}
    (h : List.Forall₂ R l1 l2) {b : β} (hb : b ∈ l2) : ∃ a, a ∈ l1 ∧ R a b := by
  induction h with
  | nil => simp at hb
  | cons hab _ ih =>
    rcases List.mem_cons.1 hb with rfl | hb1
    · exact ⟨_, List.mem_cons_self _ _, hab⟩
    · obtain ⟨a, ha, hr⟩ := ih hb1
      exact ⟨a, List.mem_cons_of_mem _ ha, hr⟩

/-- Parsing a manifest that is one build declaration, in a well-formed state:
the call succeeds, and the state afterwards has one more edge, bound to the
entry of the rule name in the rule map, whose inputs and outputs are the nodes
of the names in order; the edge is the producer of exactly the outputs among
the paths that had no producer. -/
theorem Parse_buildDecl_graph (s : State) (hw : s.WF) (ins outs : List Str) (r : Str)
    (hins : ∀ t ∈ ins, IsIdent t) (hr : IsIdent r) (houts : ∀ t ∈ outs, IsIdent t)
    (hnd : outs.Nodup) (hfree : ∀ o ∈ outs, s.producer o = none) :
    ∃ s3 inNodes outNodes, ManifestParser.Parse s (buildDecl ins r outs) = Res.ok s3 ∧ s3.WF ∧
      s3.edges = s.edges ++
        [{ rule_ := (s.rules_.lookup r).join, inputs_ := inNodes, outputs_ := outNodes }] ∧
      s3.edges_ = s.edges_ ++ [s.edges.length] ∧
      s3.rules_ = (s.AddEdgeByName r).1.rules_ ∧ s3.rules = s.rules ∧
      List.Forall₂ (fun p n => s3.nodeOf p = some n) ins inNodes ∧
      List.Forall₂ (fun p n => s3.nodeOf p = some n) outs outNodes ∧
      (∀ n ∈ outNodes, s3.inEdge n = some s.edges.length) ∧
      (∀ q, s3.producer q = if q ∈ outs then some s.edges.length else s.producer q) := by
  obtain ⟨he, hedges, hedges_, hrules, hnodes, hfiles, hcache⟩ := AddEdgeByName_spec s r
  have hw1 : (s.AddEdgeByName r).1.WF := WF_AddEdgeByName hw r
  have hprod1 : ∀ q, (s.AddEdgeByName r).1.producer q = s.producer q := by
    intro q
    simp only [State.producer, State.nodeOf, State.inEdge, hnodes, hfiles, hcache]
  have he1 : (s.AddEdgeByName r).1.edges[s.edges.length]? =
      some { rule_ := (s.rules_.lookup r).join, inputs_ := [], outputs_ := [] } := by
    rw [hedges, List.getElem?_concat_length]
  obtain ⟨s2, inNodes, hloop2, hw2, hall2, hedges2, g2, g3, g4, gprod, gmono⟩ :=
    addInOuts_IN_spec s.edges.length ins _ _ hw1 he1
  have he2 : s2.edges[s.edges.length]? =
      some { rule_ := (s.rules_.lookup r).join, inputs_ := inNodes, outputs_ := [] } := by
    rw [hedges2, hedges, set_snoc_length, List.getElem?_concat_length]
    rfl
  have hfree2 : ∀ o ∈ outs, s2.producer o = none := by
    intro o ho
    rw [gprod o, hprod1 o]
    exact hfree o ho
  obtain ⟨s3, outNodes, hloop3, hw3, hall3, hedges3, k2, k3, k4, kprod, kmono⟩ :=
    addInOuts_OUT_spec s.edges.length outs s2 _ hw2 he2 hnd hfree2
  have hparse : ManifestParser.Parse s (buildDecl ins r outs) = Res.ok s3 := by
    rw [Parse_buildDecl s ins outs r hins hr houts, he, hloop2]
    dsimp only
    rw [hloop3]
  have hprod3 : ∀ q,
      s3.producer q = if q ∈ outs then some s.edges.length else s.producer q := by
    intro q
    rw [kprod q, gprod q, hprod1 q]
  refine ⟨s3, inNodes, outNodes, hparse, hw3, ?_, ?_, ?_, ?_, ?_, hall3, ?_, hprod3⟩
  · rw [hedges3, hedges2, hedges, set_snoc_length, set_snoc_length]
    rfl
  · rw [k2, g2, hedges_]
  · rw [k3, g3]
  · rw [k4, g4, hrules]
  · exact hall2.imp fun {p n} h => kmono p n h
  · intro n hn
    obtain ⟨o, ho, hon⟩ := forall2_mem_right hall3 hn
    have := hprod3 o
    rw [if_pos ho] at this
    simpa only [State.producer, hon] using this

theorem Error_ne_timeout {α : Type} (p : ManifestParser) (s : State) (m : Str) :
    (p.Error s m : Res α) ≠ Res.timeout := by
  unfold ManifestParser.Error
  split <;> simp

theorem Error_ne_ok {α : Type} (p : ManifestParser) (s : State) (m : Str) (a : α) :
    (p.Error s m : Res α) ≠ Res.ok a := by
  unfold ManifestParser.Error
  split <;> simp

theorem ok_avoids {α : Type} (a : α) (M : Str) : (Res.ok a).Avoids M := by
  intro s l c m h
  cases h

theorem abort_avoids {α : Type} (M : Str) : (Res.abort : Res α).Avoids M := by
  intro s l c m h
  cases h

theorem timeout_avoids {α : Type} (M : Str) : (Res.timeout : Res α).Avoids M := by
  intro s l c m h
  cases h

theorem Error_avoids {α : Type} (p : ManifestParser) (s : State) {m M : Str} (h : m ≠ M) :
    (p.Error s m : Res α).Avoids M := by
  intro s1 l c m1 heq
  unfold ManifestParser.Error at heq
  split at heq
  · simp only [Res.error.injEq] at heq
    rw [← heq.2.2.2]
    exact h
  · cases heq

theorem bind_avoids {α β : Type} {x : Res α} {f : α → Res β} {M : Str} (hx : x.Avoids M)
    (hf : ∀ a, (f a).Avoids M) : (x.bind f).Avoids M := by
  cases x with
  | ok a => exact hf a
  | error s l c m =>
    intro s1 l1 c1 m1 heq
    simp only [Res.bind, Res.error.injEq] at heq
    rw [← heq.2.2.2]
    exact hx s l c m rfl
  | abort => exact abort_avoids M
  | timeout => exact timeout_avoids M

theorem unknown_token_ne (tok : Str) :
    ['u', 'n', 'k', 'n', 'o', 'w', 'n', ' ', 't', 'o', 'k', 'e', 'n', ':', ' '] ++ tok ≠
      "unknown build rule name name".toList := by
  show _ ≠ ['u', 'n', 'k', 'n', 'o', 'w', 'n', ' ', 'b', 'u', 'i', 'l', 'd', ' ',
    'r', 'u', 'l', 'e', ' ', 'n', 'a', 'm', 'e', ' ', 'n', 'a', 'm', 'e']
  simp

theorem Newline_avoids (p : ManifestParser) (s : State) :
    (p.Newline s).Avoids "unknown build rule name name".toList := by
  unfold ManifestParser.Newline
  split
  · split
    · exact ok_avoids _ _
    · exact Error_avoids _ _ (by decide)
  · exact Error_avoids _ _ (by decide)

theorem ReadToNewline_avoids (p : ManifestParser) (s : State) (text : Str) :
    (p.ReadToNewline s text).Avoids "unknown build rule name name".toList := by
  unfold ManifestParser.ReadToNewline
  generalize ManifestParser.readLoop p.cur_ p.col_ text = x
  obtain ⟨cur, col, text1⟩ := x
  exact bind_avoids (Newline_avoids _ _) fun _ => ok_avoids _ _

theorem ParseRule_avoids (p : ManifestParser) (s : State) :
    (p.ParseRule s).Avoids "unknown build rule name name".toList := by
  unfold ManifestParser.ParseRule
  generalize ((p.SkipWhitespace false).2).NextToken = x
  obtain ⟨b, p2⟩ := x
  cases b with
  | false => exact Error_avoids _ _ (by decide)
  | true =>
    refine bind_avoids (Newline_avoids _ _) fun p3 => ?_
    dsimp only
    generalize p3.NextToken = y
    obtain ⟨b, p4⟩ := y
    dsimp only
    split
    · exact Error_avoids _ _ (by decide)
    · refine bind_avoids (ReadToNewline_avoids _ _ _) fun r => ?_
      split
      · exact abort_avoids _
      · exact ok_avoids _ _

theorem readIns_avoids : ∀ (fuel : Nat) (p : ManifestParser) (s : State) (acc : List Str),
    (ManifestParser.readIns fuel p s acc).Avoids "unknown build rule name name".toList := by
  intro fuel
  induction fuel with
  | zero => intro p s acc; exact timeout_avoids _
  | succ fuel ih =>
    intro p s acc
    rw [ManifestParser.readIns]
    generalize p.NextToken = x
    obtain ⟨b, p1⟩ := x
    cases b with
    | false => exact Error_avoids _ _ (by decide)
    | true =>
      dsimp only
      split
      · exact ok_avoids _ _
      · exact ih _ _ _

theorem readOuts_avoids : ∀ (fuel : Nat) (p : ManifestParser) (acc : List Str),
    (ManifestParser.readOuts fuel p acc).Avoids "unknown build rule name name".toList := by
  intro fuel
  induction fuel with
  | zero => intro p acc; exact timeout_avoids _
  | succ fuel ih =>
    intro p acc
    rw [ManifestParser.readOuts]
    generalize p.NextToken = x
    obtain ⟨b, p1⟩ := x
    cases b with
    | false => exact ok_avoids _ _
    | true => exact ih _ _

theorem ParseEdge_avoids (p : ManifestParser) (s : State) :
    (p.ParseEdge s).Avoids "unknown build rule name name".toList := by
  unfold ManifestParser.ParseEdge
  refine bind_avoids (readIns_avoids _ _ _ _) fun r1 => ?_
  generalize r1.1.NextToken = x
  obtain ⟨b, p2⟩ := x
  cases b with
  | false => exact Error_avoids _ _ (by decide)
  | true =>
    refine bind_avoids (readOuts_avoids _ _ _) fun r2 => ?_
    refine bind_avoids (Newline_avoids _ _) fun p3 => ?_
    simp only [ManifestParser.addEdge]
    split
    · exact abort_avoids _
    · split
      · exact abort_avoids _
      · exact ok_avoids _ _

theorem parseLoop_avoids : ∀ (fuel : Nat) (p : ManifestParser) (s : State),
    (ManifestParser.parseLoop fuel p s).Avoids "unknown build rule name name".toList := by
  intro fuel
  induction fuel with
  | zero => intro p s; exact timeout_avoids _
  | succ fuel ih =>
    intro p s
    rw [ManifestParser.parseLoop]
    generalize p.NextToken = x
    obtain ⟨b, p1⟩ := x
    cases b with
    | false =>
      dsimp only
      split
      · exact Error_avoids _ _ (by decide)
      · exact ok_avoids _ _
    | true =>
      dsimp only
      split
      · exact bind_avoids (ParseRule_avoids _ _) fun r => ih _ _
      · split
        · exact bind_avoids (ParseEdge_avoids _ _) fun r => ih _ _
        · exact Error_avoids _ _ (unknown_token_ne _)

theorem ruleCatState_wf : ruleCatState.WF :=
  WF_AddRule WF_empty
    (show State.empty.AddRule ['c', 'a', 't'] catText = some (ruleCatState, 0) by decide)

/-- C12: in every well-formed state whose rule map binds the name `r` to a
rule, for every build declaration `build i1 ... in : r o1 ... om` ended by a
newline whose names are identifiers over a-z and 0-9 and whose outputs are
pairwise distinct paths without a producing edge, `ManifestParser::Parse`
succeeds; the state afterwards has exactly one more edge, bound to that rule,
whose inputs are the nodes of `i1 ... in` in that order and whose outputs are
the nodes of `o1 ... om` in that order, the `in_edge_` of every output node is
the new edge, and the state is well-formed again. -/
theorem C12_build_declaration (s : State) (hw : s.WF) (ins outs : List Str) (r : Str)
    (rid : Nat) (hrule : s.rules_.lookup r = some (some rid))
    (hins : ∀ t ∈ ins, IsIdent t) (hr : IsIdent r) (houts : ∀ t ∈ outs, IsIdent t)
    (hnd : outs.Nodup) (hfree : ∀ o ∈ outs, s.producer o = none) :
    ∃ s1 inNodes outNodes, ManifestParser.Parse s (buildDecl ins r outs) = Res.ok s1 ∧
      s1.WF ∧
      s1.edges = s.edges ++ [{ rule_ := some rid, inputs_ := inNodes, outputs_ := outNodes }] ∧
      s1.edges_ = s.edges_ ++ [s.edges.length] ∧
      s1.rules_ = s.rules_ ∧ s1.rules = s.rules ∧
      List.Forall₂ (fun p n => s1.nodeOf p = some n) ins inNodes ∧
      List.Forall₂ (fun p n => s1.nodeOf p = some n) outs outNodes ∧
      ∀ n ∈ outNodes, s1.inEdge n = some s.edges.length := by
  obtain
    ⟨s1, inNodes, outNodes, hparse, hw1, hedges, hedges_, hrules_, hrules, hi, ho, hin, _⟩ :=
    Parse_buildDecl_graph s hw ins outs r hins hr houts hnd hfree
  refine ⟨s1, inNodes, outNodes, hparse, hw1, ?_, hedges_, ?_, hrules, hi, ho, hin⟩
  · rw [hedges, hrule]
    rfl
  · rw [hrules_, AddEdgeByName_rules_, hrule]

theorem C12_build_declaration_witness :
    ∃ s1 inNodes outNodes,
      ManifestParser.Parse ruleCatState
        (buildDecl [['a'], ['b', '2']] ['c', 'a', 't'] [['o', 'u', 't']]) = Res.ok s1 ∧
      s1.WF ∧
      s1.edges = ruleCatState.edges ++
        [{ rule_ := some 0, inputs_ := inNodes, outputs_ := outNodes }] ∧
      s1.edges_ = ruleCatState.edges_ ++ [ruleCatState.edges.length] ∧
      s1.rules_ = ruleCatState.rules_ ∧ s1.rules = ruleCatState.rules ∧
      List.Forall₂ (fun p n => s1.nodeOf p = some n) [['a'], ['b', '2']] inNodes ∧
      List.Forall₂ (fun p n => s1.nodeOf p = some n) [['o', 'u', 't']] outNodes ∧
      ∀ n ∈ outNodes, s1.inEdge n = some ruleCatState.edges.length :=
  C12_build_declaration ruleCatState ruleCatState_wf [['a'], ['b', '2']] [['o', 'u', 't']]
    ['c', 'a', 't'] 0 (by decide)
    (by
      intro t ht
      simp only [List.mem_cons, List.mem_singleton, List.not_mem_nil, or_false] at ht
      rcases ht with rfl | rfl <;> exact ⟨by decide, by decide⟩)
    ⟨by decide, by decide⟩
    (by
      intro t ht
      simp only [List.mem_singleton] at ht
      subst ht
      exact ⟨by decide, by decide⟩)
    (by decide) (by decide)

theorem bind_ne_timeout {α β : Type} {x : Res α} {f : α → Res β} (hx : x ≠ Res.timeout)
    (hf : ∀ a, x = Res.ok a → f a ≠ Res.timeout) : x.bind f ≠ Res.timeout := by
  cases x with
  | ok a => exact hf a rfl
  | error s l c m => simp [Res.bind]
  | abort => simp [Res.bind]
  | timeout => exact absurd rfl hx

theorem bind_eq_ok {α β : Type} {x : Res α} {f : α → Res β} {b : β}
    (h : x.bind f = Res.ok b) : ∃ a, x = Res.ok a ∧ f a = Res.ok b := by
  cases x with
  | ok a => exact ⟨a, rfl, h⟩
  | error s l c m => simp [Res.bind] at h
  | abort => simp [Res.bind] at h
  | timeout => simp [Res.bind] at h

theorem skipLoop_length_le (nl : Bool) : ∀ (cur : Str) (line col : Int) (sk : Bool),
    (ManifestParser.skipLoop nl cur line col sk).1.length ≤ cur.length := by
  intro cur
  induction cur with
  | nil => intro line col sk; simp [ManifestParser.skipLoop]
  | cons c rest ih =>
    intro line col sk
    rw [ManifestParser.skipLoop]
    split
    · exact Nat.le_succ_of_le (ih _ _ _)
    · split
      · exact Nat.le_succ_of_le (ih _ _ _)
      · exact le_refl _

theorem SkipWhitespace_length_le (p : ManifestParser) (nl : Bool) :
    (p.SkipWhitespace nl).2.cur_.length ≤ p.cur_.length := by
  simp only [ManifestParser.SkipWhitespace]
  exact skipLoop_length_le nl _ _ _ _

theorem identLoop_length_le : ∀ (cur : Str) (col : Int) (tok : Str),
    (ManifestParser.identLoop cur col tok).1.length ≤ cur.length := by
  intro cur
  induction cur with
  | nil => intro col tok; simp [ManifestParser.identLoop]
  | cons c rest ih =>
    intro col tok
    rw [ManifestParser.identLoop]
    split
    · exact Nat.le_succ_of_le (ih _ _)
    · exact le_refl _

/-- `NextToken` does not move the cursor back, and moves it on when it returns
`true`. -/
theorem NextToken_length (p : ManifestParser) :
    p.NextToken.2.cur_.length ≤ p.cur_.length ∧
    (p.NextToken.1 = true → p.NextToken.2.cur_.length < p.cur_.length) := by
  have hskip := SkipWhitespace_length_le p false
  unfold ManifestParser.NextToken
  generalize (p.SkipWhitespace false).2 = p0 at hskip
  dsimp only
  cases hcur : p0.cur_ with
  | nil =>
    dsimp only
    simp [hcur]
  | cons c rest =>
    rw [hcur] at hskip
    simp only [List.length_cons] at hskip
    dsimp only
    by_cases hc : IsIdentChar c = true
    · simp only [hc, ↓reduceIte]
      have := identLoop_length_le (c :: rest) p0.col_ []
      rw [ManifestParser.identLoop] at this ⊢
      simp only [hc, ↓reduceIte] at this ⊢
      have h2 := identLoop_length_le rest (incr p0.col_) ([] ++ [c])
      constructor
      · omega
      · intro _
        omega
    · have hc1 : IsIdentChar c = false := by simpa using hc
      simp only [hc1, Bool.false_eq_true, ↓reduceIte]
      by_cases h2 : c = ':'
      · simp only [h2, ↓reduceIte]
        constructor
        · omega
        · intro _
          omega
      · simp only [h2, ↓reduceIte, hcur, List.length_cons]
        constructor
        · omega
        · intro h
          simp at h

theorem Newline_ok_length {p p1 : ManifestParser} {s : State} (h : p.Newline s = Res.ok p1) :
    p1.cur_.length ≤ p.cur_.length := by
  unfold ManifestParser.Newline at h
  split at h
  · rename_i c rest hcur
    split at h
    · simp only [Res.ok.injEq] at h
      subst h
      simp [hcur]
    · exact absurd h (Error_ne_ok _ _ _ _)
  · exact absurd h (Error_ne_ok _ _ _ _)

theorem Newline_ne_timeout (p : ManifestParser) (s : State) : p.Newline s ≠ Res.timeout := by
  unfold ManifestParser.Newline
  split
  · split
    · simp
    · simp [Error_ne_timeout, Error_ne_ok]
  · simp [Error_ne_timeout, Error_ne_ok]

theorem readIns_total : ∀ (fuel : Nat) (p : ManifestParser) (s : State) (acc : List Str),
    p.cur_.length < fuel →
    ManifestParser.readIns fuel p s acc ≠ Res.timeout ∧
    ∀ r, ManifestParser.readIns fuel p s acc = Res.ok r →
      r.1.cur_.length ≤ p.cur_.length := by
  intro fuel
  induction fuel with
  | zero => intro p s acc h; omega
  | succ fuel ih =>
    intro p s acc hf
    rw [ManifestParser.readIns]
    obtain ⟨hle, hlt⟩ := NextToken_length p
    generalize p.NextToken = x at hle hlt
    obtain ⟨b, p1⟩ := x
    cases b with
    | false => simp [Error_ne_timeout, Error_ne_ok]
    | true =>
      have hlt1 : p1.cur_.length < p.cur_.length := hlt rfl
      dsimp only
      split
      · refine ⟨by simp, ?_⟩
        intro r hr
        simp only [Res.ok.injEq] at hr
        subst hr
        exact hle
      · obtain ⟨h1, h2⟩ := ih p1 s (acc ++ [p1.token_]) (by omega)
        exact ⟨h1, fun r hr => le_trans (h2 r hr) hle⟩

theorem readOuts_total : ∀ (fuel : Nat) (p : ManifestParser) (acc : List Str),
    p.cur_.length < fuel →
    ManifestParser.readOuts fuel p acc ≠ Res.timeout ∧
    ∀ r, ManifestParser.readOuts fuel p acc = Res.ok r → r.1.cur_.length ≤ p.cur_.length := by
  intro fuel
  induction fuel with
  | zero => intro p acc h; omega
  | succ fuel ih =>
    intro p acc hf
    rw [ManifestParser.readOuts]
    obtain ⟨hle, hlt⟩ := NextToken_length p
    generalize p.NextToken = x at hle hlt
    obtain ⟨b, p1⟩ := x
    cases b with
    | false =>
      refine ⟨by simp, ?_⟩
      intro r hr
      simp only [Res.ok.injEq] at hr
      subst hr
      exact hle
    | true =>
      have hlt1 : p1.cur_.length < p.cur_.length := hlt rfl
      obtain ⟨h1, h2⟩ := ih p1 (acc ++ [p1.token_]) (by omega)
      exact ⟨h1, fun r hr => le_trans (h2 r hr) hle⟩

theorem readLoop_length_le : ∀ (cur : Str) (col : Int) (text : Str),
    (ManifestParser.readLoop cur col text).1.length ≤ cur.length := by
  intro cur
  induction cur with
  | nil => intro col text; simp [ManifestParser.readLoop]
  | cons c rest ih =>
    intro col text
    rw [ManifestParser.readLoop]
    split
    · exact Nat.le_succ_of_le (ih _ _)
    · exact le_refl _

theorem ReadToNewline_total (p : ManifestParser) (s : State) (text : Str) :
    p.ReadToNewline s text ≠ Res.timeout ∧
    ∀ r, p.ReadToNewline s text = Res.ok r → r.1.cur_.length ≤ p.cur_.length := by
  unfold ManifestParser.ReadToNewline
  have hle := readLoop_length_le p.cur_ p.col_ text
  generalize ManifestParser.readLoop p.cur_ p.col_ text = x at hle
  obtain ⟨cur, col, text1⟩ := x
  dsimp only at hle ⊢
  constructor
  · exact bind_ne_timeout (Newline_ne_timeout _ _) fun _ _ => by simp
  · intro r hr
    obtain ⟨p1, hp1, hr1⟩ := bind_eq_ok hr
    simp only [Res.ok.injEq] at hr1
    subst hr1
    exact le_trans (Newline_ok_length hp1) hle

/-- `ParseRule` ends, and does not move the cursor back. -/
theorem ParseRule_total (p : ManifestParser) (s : State) :
    p.ParseRule s ≠ Res.timeout ∧
    ∀ r, p.ParseRule s = Res.ok r → r.1.cur_.length ≤ p.cur_.length := by
  unfold ManifestParser.ParseRule
  have hskip := SkipWhitespace_length_le p false
  obtain ⟨hle, _⟩ := NextToken_length (p.SkipWhitespace false).2
  generalize ((p.SkipWhitespace false).2).NextToken = x at hle
  obtain ⟨b, p2⟩ := x
  dsimp only at hle
  cases b with
  | false => simp [Error_ne_timeout, Error_ne_ok]
  | true =>
    dsimp only
    have key : ∀ p3, p2.Newline s = Res.ok p3 →
        (match p3.NextToken with
          | (b, p4) =>
            if b = false ∨ p4.token_ ≠ ['c', 'o', 'm', 'm', 'a', 'n', 'd'] then
              (p4.Error s ['e', 'x', 'p', 'e', 'c', 't', 'e', 'd', ' ', 'c', 'o', 'm', 'm',
                'a', 'n', 'd'] : Res (ManifestParser × State))
            else
              (((p4.SkipWhitespace false).2).ReadToNewline s []).bind fun r =>
                match s.AddRule p3.token_ r.2 with
                | none => Res.abort
                | some (s1, _) => Res.ok (r.1, s1)) ≠ Res.timeout ∧
        ∀ r, (match p3.NextToken with
          | (b, p4) =>
            if b = false ∨ p4.token_ ≠ ['c', 'o', 'm', 'm', 'a', 'n', 'd'] then
              (p4.Error s ['e', 'x', 'p', 'e', 'c', 't', 'e', 'd', ' ', 'c', 'o', 'm', 'm',
                'a', 'n', 'd'] : Res (ManifestParser × State))
            else
              (((p4.SkipWhitespace false).2).ReadToNewline s []).bind fun r =>
                match s.AddRule p3.token_ r.2 with
                | none => Res.abort
                | some (s1, _) => Res.ok (r.1, s1)) = Res.ok r →
          r.1.cur_.length ≤ p3.cur_.length := by
      intro p3 _
      obtain ⟨hle3, _⟩ := NextToken_length p3
      generalize p3.NextToken = y at hle3
      obtain ⟨b, p4⟩ := y
      dsimp only at hle3 ⊢
      split
      · simp [Error_ne_timeout, Error_ne_ok]
      · have hskip4 := SkipWhitespace_length_le p4 false
        obtain ⟨h1, h2⟩ := ReadToNewline_total (p4.SkipWhitespace false).2 s []
        constructor
        · refine bind_ne_timeout h1 fun r _ => ?_
          split <;> simp
        · intro r hr
          obtain ⟨r0, hr0, hr1⟩ := bind_eq_ok hr
          have := h2 r0 hr0
          split at hr1
          · simp at hr1
          · simp only [Res.ok.injEq] at hr1
            subst hr1
            dsimp only
            omega
    constructor
    · exact bind_ne_timeout (Newline_ne_timeout _ _) fun p3 hp3 => (key p3 hp3).1
    · intro r hr
      obtain ⟨p3, hp3, hr1⟩ := bind_eq_ok hr
      have h3 := Newline_ok_length hp3
      have := (key p3 hp3).2 r hr1
      omega

/-- `ParseEdge` ends (its loops stay within their iteration bounds), and does
not move the cursor back. -/
theorem ParseEdge_total (p : ManifestParser) (s : State) :
    p.ParseEdge s ≠ Res.timeout ∧
    ∀ r, p.ParseEdge s = Res.ok r → r.1.cur_.length ≤ p.cur_.length := by
  unfold ManifestParser.ParseEdge
  dsimp only
  have hskip := SkipWhitespace_length_le p false
  obtain ⟨h1, h2⟩ := readIns_total ((p.SkipWhitespace false).2.cur_.length + 1)
    (p.SkipWhitespace false).2 s [] (Nat.lt_succ_self _)
  have key : ∀ r1 : ManifestParser × List Str,
      (match r1.1.NextToken with
        | (false, p2) =>
          (p2.Error s ['e', 'x', 'p', 'e', 'c', 't', 'e', 'd', ' ', 'b', 'u', 'i', 'l', 'd', ' ',
            'c', 'o', 'm', 'm', 'a', 'n', 'd', ' ', 'n', 'a', 'm', 'e'] :
              Res (ManifestParser × State))
        | (true, p2) =>
          (ManifestParser.readOuts (p2.cur_.length + 1) p2 []).bind fun r2 =>
            (r2.1.Newline s).bind fun p3 =>
              match ManifestParser.addEdge s p2.token_ with
              | (s1, none) =>
                p3.Error s1 ['u', 'n', 'k', 'n', 'o', 'w', 'n', ' ', 'b', 'u', 'i', 'l', 'd', ' ',
                  'r', 'u', 'l', 'e', ' ', 'n', 'a', 'm', 'e', ' ', 'n', 'a', 'm', 'e']
              | (s1, some edge) =>
                match State.addInOuts edge InOut.IN r1.2 s1 with
                | none => Res.abort
                | some s2 =>
                  match State.addInOuts edge InOut.OUT r2.2 s2 with
                  | none => Res.abort
                  | some s3 => Res.ok (p3, s3)) ≠ Res.timeout ∧
      ∀ r, (match r1.1.NextToken with
        | (false, p2) =>
          (p2.Error s ['e', 'x', 'p', 'e', 'c', 't', 'e', 'd', ' ', 'b', 'u', 'i', 'l', 'd', ' ',
            'c', 'o', 'm', 'm', 'a', 'n', 'd', ' ', 'n', 'a', 'm', 'e'] :
              Res (ManifestParser × State))
        | (true, p2) =>
          (ManifestParser.readOuts (p2.cur_.length + 1) p2 []).bind fun r2 =>
            (r2.1.Newline s).bind fun p3 =>
              match ManifestParser.addEdge s p2.token_ with
              | (s1, none) =>
                p3.Error s1 ['u', 'n', 'k', 'n', 'o', 'w', 'n', ' ', 'b', 'u', 'i', 'l', 'd', ' ',
                  'r', 'u', 'l', 'e', ' ', 'n', 'a', 'm', 'e', ' ', 'n', 'a', 'm', 'e']
              | (s1, some edge) =>
                match State.addInOuts edge InOut.IN r1.2 s1 with
                | none => Res.abort
                | some s2 =>
                  match State.addInOuts edge InOut.OUT r2.2 s2 with
                  | none => Res.abort
                  | some s3 => Res.ok (p3, s3)) = Res.ok r →
        r.1.cur_.length ≤ r1.1.cur_.length := by
    intro r1
    obtain ⟨hle, _⟩ := NextToken_length r1.1
    generalize r1.1.NextToken = x at hle
    obtain ⟨b, p2⟩ := x
    dsimp only at hle
    cases b with
    | false => simp [Error_ne_timeout, Error_ne_ok]
    | true =>
      dsimp only
      obtain ⟨g1, g2⟩ := readOuts_total (p2.cur_.length + 1) p2 [] (Nat.lt_succ_self _)
      constructor
      · refine bind_ne_timeout g1 fun r2 _ => ?_
        refine bind_ne_timeout (Newline_ne_timeout _ _) fun p3 _ => ?_
        simp only [ManifestParser.addEdge]
        split
        · simp
        · split <;> simp
      · intro r hr
        obtain ⟨r2, hr2, hr⟩ := bind_eq_ok hr
        obtain ⟨p3, hp3, hr⟩ := bind_eq_ok hr
        have h3 := Newline_ok_length hp3
        have h4 := g2 r2 hr2
        simp only [ManifestParser.addEdge] at hr
        split at hr
        · simp at hr
        · split at hr
          · simp at hr
          · simp only [Res.ok.injEq] at hr
            subst hr
            dsimp only
            omega
  constructor
  · exact bind_ne_timeout h1 fun r1 _ => (key r1).1
  · intro r hr
    obtain ⟨r1, hr1, hr⟩ := bind_eq_ok hr
    have := h2 r1 hr1
    have := (key r1).2 r hr
    omega

theorem parseLoop_ne_timeout : ∀ (fuel : Nat) (p : ManifestParser) (s : State),
    p.cur_.length < fuel → ManifestParser.parseLoop fuel p s ≠ Res.timeout := by
  intro fuel
  induction fuel with
  | zero => intro p s h; omega
  | succ fuel ih =>
    intro p s hf
    rw [ManifestParser.parseLoop]
    obtain ⟨_, hlt⟩ := NextToken_length p
    generalize p.NextToken = x at hlt
    obtain ⟨b, p1⟩ := x
    cases b with
    | false =>
      dsimp only
      split <;> simp [Error_ne_timeout, Error_ne_ok]
    | true =>
      have hlt1 : p1.cur_.length < p.cur_.length := hlt rfl
      dsimp only
      split
      · obtain ⟨h1, h2⟩ := ParseRule_total p1 s
        refine bind_ne_timeout h1 fun r hr => ih _ _ ?_
        have := h2 r hr
        have := SkipWhitespace_length_le r.1 true
        omega
      · split
        · obtain ⟨h1, h2⟩ := ParseEdge_total p1 s
          refine bind_ne_timeout h1 fun r hr => ih _ _ ?_
          have := h2 r hr
          have := SkipWhitespace_length_le r.1 true
          omega
        · simp [Error_ne_timeout, Error_ne_ok]

/-- `ManifestParser::Parse` ends on every state and every input: the
iteration bounds of the model are never reached. -/
theorem Parse_ne_timeout (s : State) (input : Str) :
    ManifestParser.Parse s input ≠ Res.timeout :=
  parseLoop_ne_timeout _ _ _ (Nat.lt_succ_self _)

/-- C20: in every well-formed state whose rule map binds the name `r` to no
rule, for every build declaration `build i1 ... in : r o1 ... om` ended by a
newline whose names are identifiers and whose outputs are pairwise distinct
paths without a producing edge, `ManifestParser::Parse` succeeds and leaves a
well-formed state: the new edge has a null rule and the rule map has a null
entry under `r` afterwards (appended when the name had no entry).
`AddEdge(rule_name)` always returns the new edge, never a null pointer, and
`ManifestParser::Parse` ends on every state and every input, with the
diagnostic `unknown build rule name name` on none. -/
theorem C20_undeclared_rule (s : State) (hw : s.WF) (ins outs : List Str) (r : Str)
    (hrule : ∀ rid, s.rules_.lookup r ≠ some (some rid))
    (hins : ∀ t ∈ ins, IsIdent t) (hr : IsIdent r) (houts : ∀ t ∈ outs, IsIdent t)
    (hnd : outs.Nodup) (hfree : ∀ o ∈ outs, s.producer o = none) :
    (∃ s1 inNodes outNodes, ManifestParser.Parse s (buildDecl ins r outs) = Res.ok s1 ∧
      s1.WF ∧
      s1.edges = s.edges ++ [{ rule_ := none, inputs_ := inNodes, outputs_ := outNodes }] ∧
      s1.edges_ = s.edges_ ++ [s.edges.length] ∧
      s1.rules_.lookup r = some none ∧
      (s.rules_.lookup r = none → s1.rules_ = s.rules_ ++ [(r, none)]) ∧
      s1.rules = s.rules ∧
      List.Forall₂ (fun p n => s1.nodeOf p = some n) ins inNodes ∧
      List.Forall₂ (fun p n => s1.nodeOf p = some n) outs outNodes) ∧
    (∀ (s0 : State) (name : Str),
      (ManifestParser.addEdge s0 name).2 = some s0.edges.length ∧
      (ManifestParser.addEdge s0 name).1.edges.length = s0.edges.length + 1) ∧
    ∀ (s0 : State) (input : Str), ManifestParser.Parse s0 input ≠ Res.timeout ∧
      (ManifestParser.Parse s0 input).Avoids "unknown build rule name name".toList := by
  refine ⟨?_, ?_, fun s0 input => ⟨Parse_ne_timeout s0 input, ?_⟩⟩
  rotate_left 2
  · exact parseLoop_avoids _ _ _
  · obtain
      ⟨s1, inNodes, outNodes, hparse, hw1, hedges, hedges_, hrules_, hrules, hi, ho, _, _⟩ :=
      Parse_buildDecl_graph s hw ins outs r hins hr houts hnd hfree
    have hjoin : (s.rules_.lookup r).join = none := by
      cases hl : s.rules_.lookup r with
      | none => rfl
      | some x =>
        cases x with
        | none => rfl
        | some rid => exact absurd hl (hrule rid)
    refine ⟨s1, inNodes, outNodes, hparse, hw1, ?_, hedges_, ?_, ?_, hrules, hi, ho⟩
    · rw [hedges, hjoin]
    · rw [hrules_, AddEdgeByName_rules_]
      cases hl : s.rules_.lookup r with
      | none => simp [List.lookup_append, hl]
      | some x =>
        cases x with
        | none => exact hl
        | some rid => exact absurd hl (hrule rid)
    · intro hl
      rw [hrules_, AddEdgeByName_rules_, hl]
  · intro s0 name
    obtain ⟨he, hedges, _⟩ := AddEdgeByName_spec s0 name
    simp only [ManifestParser.addEdge, he, hedges, List.length_append, List.length_singleton,
      and_self]

theorem C20_undeclared_rule_witness :
    (∃ s1 inNodes outNodes,
      ManifestParser.Parse State.empty (buildDecl [['a']] ['c', 'c'] [['b']]) = Res.ok s1 ∧
      s1.WF ∧
      s1.edges = State.empty.edges ++
        [{ rule_ := none, inputs_ := inNodes, outputs_ := outNodes }] ∧
      s1.edges_ = State.empty.edges_ ++ [State.empty.edges.length] ∧
      s1.rules_.lookup ['c', 'c'] = some none ∧
      (State.empty.rules_.lookup ['c', 'c'] = none →
        s1.rules_ = State.empty.rules_ ++ [(['c', 'c'], none)]) ∧
      s1.rules = State.empty.rules ∧
      List.Forall₂ (fun p n => s1.nodeOf p = some n) [['a']] inNodes ∧
      List.Forall₂ (fun p n => s1.nodeOf p = some n) [['b']] outNodes) ∧
    (∀ (s0 : State) (name : Str),
      (ManifestParser.addEdge s0 name).2 = some s0.edges.length ∧
      (ManifestParser.addEdge s0 name).1.edges.length = s0.edges.length + 1) ∧
    ∀ (s0 : State) (input : Str), ManifestParser.Parse s0 input ≠ Res.timeout ∧
      (ManifestParser.Parse s0 input).Avoids "unknown build rule name name".toList :=
  C20_undeclared_rule State.empty WF_empty [['a']] [['b']] ['c', 'c']
    (by intro rid h; cases h)
    (by
      intro t ht
      simp only [List.mem_singleton] at ht
      subst ht
      exact ⟨by decide, by decide⟩)
    ⟨by decide, by decide⟩
    (by
      intro t ht
      simp only [List.mem_singleton] at ht
      subst ht
      exact ⟨by decide, by decide⟩)
    (by decide) (by decide)

theorem Error_of_overrun {α : Type} (p : ManifestParser) (s : State) (m : Str)
    (h : 1024 < (formatError p.line_ p.col_ m).length + 1) :
    (p.Error s m : Res α) = Res.abort := by
  unfold ManifestParser.Error
  rw [if_neg (by omega)]

theorem nodePath_of_nodeOf {s : State} (hw : s.WF) {p : Str} {n : Nat}
    (h : s.nodeOf p = some n) : s.nodePath n = some p := by
  obtain ⟨f, file, hf, hfile, hn⟩ := nodeOf_eq_some_iff.1 h
  obtain ⟨nd, hnd, hndf⟩ := hw.file_node f file n hfile hn
  obtain ⟨file1, hfile1, hpath⟩ := hw.paths_file p f hf
  rw [hfile] at hfile1
  cases hfile1
  subst hndf
  simp only [State.nodePath, hnd, hfile, hpath]

theorem nodeOf_of_nodePath {s : State} (hw : s.WF) {p : Str} {n : Nat}
    (h : s.nodePath n = some p) : s.nodeOf p = some n := by
  unfold State.nodePath at h
  split at h
  · simp at h
  · rename_i nd hnd
    split at h
    · simp at h
    · rename_i file hfile
      simp only [Option.some.injEq] at h
      obtain ⟨file1, hfile1, hnode⟩ := hw.node_file n nd hnd
      rw [hfile] at hfile1
      cases hfile1
      have hl := hw.file_paths nd.file_ file hfile
      rw [h] at hl
      exact nodeOf_eq_some_iff.2 ⟨nd.file_, file, hl, hfile, hnode⟩

/-- Between two well-formed states of which the second keeps the node of every
path, every node keeps its path. -/
theorem nodePath_mono {s s1 : State} (hw : s.WF) (hw1 : s1.WF)
    (hmono : ∀ q m, s.nodeOf q = some m → s1.nodeOf q = some m) (m : Nat) (p : Str)
    (h : s.nodePath m = some p) : s1.nodePath m = some p :=
  nodePath_of_nodeOf hw1 (hmono p m (nodeOf_of_nodePath hw h))

theorem InputsNamed.of_edges {s s1 : State} (h : InputsNamed s) (hedges : s1.edges = s.edges)
    (hpath : ∀ m p, s.nodePath m = some p → s1.nodePath m = some p) : InputsNamed s1 := by
  intro e ed he i hi
  rw [hedges] at he
  obtain ⟨p, hp, hne⟩ := h e ed he i hi
  exact ⟨p, hpath i p hp, hne⟩

theorem InputsNamed_GetNode {s s1 : State} {path : Str} {n : Nat} (hw : s.WF)
    (h : InputsNamed s) (hg : s.GetNode path = some (s1, n)) : InputsNamed s1 := by
  obtain ⟨hedges, _, _, _, _, hmono, _, _⟩ := GetNode_spec hw hg
  exact h.of_edges hedges (nodePath_mono hw (WF_GetNode hw hg).1 hmono)

/-- What a returning `AddInOut` call leaves: the edge has one more input or
output, the node of the path, and the nodes of the paths stay. -/
theorem AddInOut_result {s s1 : State} {e : Nat} {io : InOut} {path : Str} (hw : s.WF)
    (h : s.AddInOut e io path = some s1) :
    ∃ n ed, s.edges[e]? = some ed ∧ s1.nodeOf path = some n ∧
      (∀ q m, s.nodeOf q = some m → s1.nodeOf q = some m) ∧
      s1.edges = s.edges.set e
        (match io with
          | InOut.IN => { ed with inputs_ := ed.inputs_ ++ [n] }
          | InOut.OUT => { ed with outputs_ := ed.outputs_ ++ [n] }) := by
  unfold State.AddInOut at h
  split at h
  · simp at h
  · rename_i s0 n hg
    obtain ⟨hedges, _, _, _, hnode, hmono, _, _⟩ := GetNode_spec hw hg
    split at h
    · rename_i ed nd hed hnd
      rw [hedges] at hed
      cases io with
      | IN =>
        simp only [Option.some.injEq] at h
        subst h
        exact ⟨n, ed, hed, hnode, hmono, by rw [← hedges]⟩
      | OUT =>
        simp only at h
        split at h
        · simp at h
        · simp only [Option.some.injEq] at h
          subst h
          exact ⟨n, ed, hed, hnode, hmono, by rw [← hedges]⟩
    · simp at h

theorem InputsNamed_AddInOut {s s1 : State} {e : Nat} {io : InOut} {path : Str} (hw : s.WF)
    (hin : InputsNamed s) (hpath : io = InOut.IN → path ≠ [])
    (h : s.AddInOut e io path = some s1) : InputsNamed s1 := by
  have hw1 : s1.WF := WF_AddInOut hw h
  obtain ⟨n, ed, hed, hnode, hmono, hedges⟩ := AddInOut_result hw h
  have hp := nodePath_mono hw hw1 hmono
  intro e1 ed1 he1 i hi
  rw [hedges, getElem?_set_eq_some] at he1
  rcases he1 with ⟨_, _, rfl⟩ | ⟨_, he1⟩
  · cases io with
    | IN =>
      simp only [List.mem_append, List.mem_singleton] at hi
      rcases hi with hi | rfl
      · obtain ⟨p, hp1, hne⟩ := hin e ed hed i hi
        exact ⟨p, hp i p hp1, hne⟩
      · exact ⟨path, nodePath_of_nodeOf hw1 hnode, hpath rfl⟩
    | OUT =>
      obtain ⟨p, hp1, hne⟩ := hin e ed hed i hi
      exact ⟨p, hp i p hp1, hne⟩
  · obtain ⟨p, hp1, hne⟩ := hin e1 ed1 he1 i hi
    exact ⟨p, hp i p hp1, hne⟩

theorem addInOuts_inv (e : Nat) (io : InOut) : ∀ (paths : List Str) (s s1 : State), s.WF →
    InputsNamed s → (io = InOut.IN → ∀ p ∈ paths, p ≠ []) →
    State.addInOuts e io paths s = some s1 → s1.WF ∧ InputsNamed s1 := by
  intro paths
  induction paths with
  | nil =>
    intro s s1 hw hin _ h
    simp only [State.addInOuts, Option.some.injEq] at h
    subst h
    exact ⟨hw, hin⟩
  | cons p paths ih =>
    intro s s1 hw hin hne h
    rw [State.addInOuts] at h
    split at h
    · simp at h
    · rename_i s0 h0
      exact ih s0 s1 (WF_AddInOut hw h0)
        (InputsNamed_AddInOut hw hin (fun hio => hne hio p (List.mem_cons_self p paths)) h0)
        (fun hio q hq => hne hio q (List.mem_cons_of_mem p hq)) h

theorem InputsNamed_AddEdgeByName {s : State} (hin : InputsNamed s) (r : Str) :
    InputsNamed (s.AddEdgeByName r).1 := by
  obtain ⟨_, hedges, _, _, hnodes, hfiles, _⟩ := AddEdgeByName_spec s r
  intro e ed he i hi
  rw [hedges, getElem?_snoc_eq_some] at he
  rcases he with he | ⟨_, rfl⟩
  · obtain ⟨p, hp, hne⟩ := hin e ed he i hi
    exact ⟨p, by simpa only [State.nodePath, hnodes, hfiles] using hp, hne⟩
  · simp at hi

theorem InputsNamed_AddRule {s s1 : State} {name command : Str} {r : Nat}
    (hin : InputsNamed s) (h : s.AddRule name command = some (s1, r)) : InputsNamed s1 := by
  unfold State.AddRule at h
  split at h
  · simp at h
  · simp only [Option.some.injEq, Prod.mk.injEq] at h
    obtain ⟨rfl, _⟩ := h
    exact hin

theorem ends_ok {α : Type} {a : α} {Q : α → Prop} {P : State → Prop} (h : Q a) :
    (Res.ok a).Ends Q P := h

theorem ends_bind {α β : Type} {x : Res α} {f : α → Res β} {Q : α → Prop} {Q1 : β → Prop}
    {P : State → Prop} (hx : x.Ends Q P) (hf : ∀ a, Q a → (f a).Ends Q1 P) :
    (x.bind f).Ends Q1 P := by
  cases x with
  | ok a => exact hf a hx
  | error s l c m => exact hx
  | abort => trivial
  | timeout => trivial

theorem Error_ends {α : Type} (p : ManifestParser) (s : State) (m : Str) {Q : α → Prop}
    {P : State → Prop} (h : P s) : (p.Error s m : Res α).Ends Q P := by
  unfold ManifestParser.Error
  split
  · exact h
  · trivial

theorem Newline_ends (p : ManifestParser) (s : State) {P : State → Prop} (h : P s) :
    (p.Newline s).Ends (fun _ => True) P := by
  unfold ManifestParser.Newline
  split
  · split
    · trivial
    · exact Error_ends _ _ _ h
  · exact Error_ends _ _ _ h

theorem ReadToNewline_ends (p : ManifestParser) (s : State) (text : Str) {P : State → Prop}
    (h : P s) : (p.ReadToNewline s text).Ends (fun _ => True) P := by
  unfold ManifestParser.ReadToNewline
  generalize ManifestParser.readLoop p.cur_ p.col_ text = x
  obtain ⟨cur, col, text1⟩ := x
  exact ends_bind (Newline_ends _ _ h) fun _ _ => trivial

/-- `ParseRule` keeps the state well formed and the inputs of the edges named,
also when it returns `false`. -/
theorem ParseRule_ends (p : ManifestParser) (s : State) (hw : s.WF) (hin : InputsNamed s) :
    (p.ParseRule s).Ends (fun r => r.2.WF ∧ InputsNamed r.2)
      (fun s1 => s1.WF ∧ InputsNamed s1) := by
  unfold ManifestParser.ParseRule
  generalize ((p.SkipWhitespace false).2).NextToken = x
  obtain ⟨b, p2⟩ := x
  cases b with
  | false => exact Error_ends _ _ _ ⟨hw, hin⟩
  | true =>
    refine ends_bind (Newline_ends _ _ ⟨hw, hin⟩) fun p3 _ => ?_
    dsimp only
    generalize p3.NextToken = y
    obtain ⟨b, p4⟩ := y
    dsimp only
    split
    · exact Error_ends _ _ _ ⟨hw, hin⟩
    · refine ends_bind (ReadToNewline_ends _ _ _ ⟨hw, hin⟩) fun r _ => ?_
      split
      · trivial
      · rename_i s1 rid hadd
        exact ⟨WF_AddRule hw hadd, InputsNamed_AddRule hin hadd⟩

theorem NextToken_token_ne_nil {p p1 : ManifestParser} (h : p.NextToken = (true, p1)) :
    p1.token_ ≠ [] := by
  unfold ManifestParser.NextToken at h
  dsimp only at h
  split at h
  · simp at h
  · simp only [Prod.mk.injEq, Bool.not_eq_eq_eq_not, Bool.not_true, List.isEmpty_eq_false] at h
    rw [← h.2]
    exact h.1

/-- The names that the first loop of `ParseEdge` reads are not empty. -/
theorem readIns_ends {P : State → Prop} : ∀ (fuel : Nat) (p : ManifestParser) (s : State)
    (acc : List Str), P s → (∀ t ∈ acc, t ≠ []) →
    (ManifestParser.readIns fuel p s acc).Ends (fun r => ∀ t ∈ r.2, t ≠ []) P := by
  intro fuel
  induction fuel with
  | zero => intro p s acc _ _; trivial
  | succ fuel ih =>
    intro p s acc hs hacc
    rw [ManifestParser.readIns]
    have htok := @NextToken_token_ne_nil p
    generalize p.NextToken = x at htok
    obtain ⟨b, p1⟩ := x
    cases b with
    | false => exact Error_ends _ _ _ hs
    | true =>
      dsimp only
      split
      · exact hacc
      · refine ih p1 s _ hs ?_
        intro t ht
        rcases List.mem_append.1 ht with ht | ht
        · exact hacc t ht
        · rw [List.mem_singleton.1 ht]
          exact htok rfl

theorem readOuts_ends {P : State → Prop} : ∀ (fuel : Nat) (p : ManifestParser)
    (acc : List Str), (ManifestParser.readOuts fuel p acc).Ends (fun _ => True) P := by
  intro fuel
  induction fuel with
  | zero => intro p acc; trivial
  | succ fuel ih =>
    intro p acc
    rw [ManifestParser.readOuts]
    generalize p.NextToken = x
    obtain ⟨b, p1⟩ := x
    cases b with
    | false => trivial
    | true => exact ih _ _

/-- `ParseEdge` keeps the state well formed and the inputs of the edges named,
also when it returns `false`. -/
theorem ParseEdge_ends (p : ManifestParser) (s : State) (hw : s.WF) (hin : InputsNamed s) :
    (p.ParseEdge s).Ends (fun r => r.2.WF ∧ InputsNamed r.2)
      (fun s1 => s1.WF ∧ InputsNamed s1) := by
  unfold ManifestParser.ParseEdge
  refine ends_bind (readIns_ends _ _ _ _ ⟨hw, hin⟩ (by simp)) fun r1 hr1 => ?_
  generalize r1.1.NextToken = x
  obtain ⟨b, p2⟩ := x
  cases b with
  | false => exact Error_ends _ _ _ ⟨hw, hin⟩
  | true =>
    refine ends_bind (readOuts_ends _ _ _) fun r2 _ => ?_
    refine ends_bind (Newline_ends _ _ ⟨hw, hin⟩) fun p3 _ => ?_
    simp only [ManifestParser.addEdge]
    split
    · trivial
    · rename_i s2 h2
      obtain ⟨hw2, hin2⟩ := addInOuts_inv _ InOut.IN r1.2 _ s2 (WF_AddEdgeByName hw _)
        (InputsNamed_AddEdgeByName hin _) (fun _ => hr1) h2
      split
      · trivial
      · rename_i s3 h3
        exact addInOuts_inv _ InOut.OUT r2.2 s2 s3 hw2 hin2 (fun h => by cases h) h3

theorem parseLoop_ends : ∀ (fuel : Nat) (p : ManifestParser) (s : State), s.WF →
    InputsNamed s →
    (ManifestParser.parseLoop fuel p s).Ends (fun s1 => s1.WF ∧ InputsNamed s1)
      (fun s1 => s1.WF ∧ InputsNamed s1) := by
  intro fuel
  induction fuel with
  | zero => intro p s _ _; trivial
  | succ fuel ih =>
    intro p s hw hin
    rw [ManifestParser.parseLoop]
    generalize p.NextToken = x
    obtain ⟨b, p1⟩ := x
    cases b with
    | false =>
      dsimp only
      split
      · exact Error_ends _ _ _ ⟨hw, hin⟩
      · exact ⟨hw, hin⟩
    | true =>
      dsimp only
      split
      · exact ends_bind (ParseRule_ends _ _ hw hin) fun r hr => ih _ _ hr.1 hr.2
      · split
        · exact ends_bind (ParseEdge_ends _ _ hw hin) fun r hr => ih _ _ hr.1 hr.2
        · exact Error_ends _ _ _ ⟨hw, hin⟩

theorem SameGraph.nodePath_eq {s s1 : State} (h : SameGraph s s1) (m : Nat) (p : Str)
    (hp : s.nodePath m = some p) : s1.nodePath m = some p := by
  unfold State.nodePath at hp ⊢
  split at hp
  · simp at hp
  · rename_i nd hnd
    obtain ⟨d, hd, _⟩ := h.node m nd hnd
    rw [hd, h.files]
    exact hp

theorem GetFile_nodePath {s : State} (hw : s.WF) (path : Str) (m : Nat) (p : Str)
    (hp : s.nodePath m = some p) : (s.GetFile path).1.nodePath m = some p := by
  unfold State.GetFile
  split
  · exact hp
  · unfold State.nodePath at hp ⊢
    dsimp only
    split at hp
    · simp at hp
    · rename_i nd hnd
      rw [List.getElem?_append_left (hw.node_file_lt m nd hnd)]
      exact hp

theorem GetFile_edges (s : State) (path : Str) : (s.GetFile path).1.edges = s.edges := by
  unfold State.GetFile
  split <;> rfl

/-- A `touch` call keeps the state well formed and the inputs of the edges
named. -/
theorem touch_inv {s s1 : State} {path : Str} {mtime : Int} (hw : s.WF) (hin : InputsNamed s)
    (h : s.touch path mtime = some s1) : s1.WF ∧ InputsNamed s1 := by
  obtain ⟨s2, h2, hw2, _⟩ := touch_spec hw path mtime
  rw [h] at h2
  cases h2
  refine ⟨hw2, ?_⟩
  obtain ⟨hw0, hlt0⟩ := WF_GetFile hw path
  have hin0 : InputsNamed (s.GetFile path).1 :=
    hin.of_edges (GetFile_edges s path) (GetFile_nodePath hw path)
  unfold State.touch at h
  generalize s.GetFile path = r at h hw0 hlt0 hin0
  obtain ⟨s0, f⟩ := r
  simp only at h hw0 hlt0 hin0
  obtain ⟨file, hfile⟩ := getElem?_some_of_lt hlt0
  cases hnode : file.node_ with
  | none =>
    simp only [FileStat.Touch, hfile, hnode, Option.some.injEq] at h
    subst h
    exact hin0
  | some n =>
    obtain ⟨s3, h3, hsame, _⟩ := Touch_spec hw0 mtime hfile hnode
    rw [h] at h3
    cases h3
    exact hin0.of_edges hsame.edges hsame.nodePath_eq

/-- In every state of a program run the state is well formed and every input
of every edge has a non-empty path. -/
theorem Loaded.loaded_inv {s : State} (h : Loaded s) : s.WF ∧ InputsNamed s := by
  induction h with
  | empty =>
    refine ⟨WF_empty, ?_⟩
    intro e ed he
    simp [State.empty] at he
  | parsed input _ hp ih =>
    have := parseLoop_ends (input.length + 1)
      { cur_ := input, line_ := 0, col_ := 0, token_ := [] } _ ih.1 ih.2
    unfold ManifestParser.Parse at hp
    rw [hp] at this
    exact this
  | failed input line col message _ hp ih =>
    have := parseLoop_ends (input.length + 1)
      { cur_ := input, line_ := 0, col_ := 0, token_ := [] } _ ih.1 ih.2
    unfold ManifestParser.Parse at hp
    rw [hp] at this
    exact this
  | touched path mtime _ ht ih => exact touch_inv ih.1 ih.2 ht
  | target path n _ hg ih => exact ⟨(WF_GetNode ih.1 hg).1, InputsNamed_GetNode ih.1 ih.2 hg⟩

theorem catState_in : EdgeEnv.Evaluate catState 0 ['@', 'i', 'n'] = some ['a', ' ', 'b'] := by
  decide

/-- The state with an edge whose first input has the empty path is not a state
of a program run. -/
theorem emptyPathState_not_loaded : ¬ Loaded emptyPathState := by
  intro h
  obtain ⟨p, hp, hne⟩ := h.loaded_inv.2 0 { rule_ := some 0, inputs_ := [0, 1], outputs_ := [] }
    (by decide) 0 (by decide)
  have h0 : emptyPathState.nodePath 0 = some [] := by decide
  rw [h0] at hp
  exact hne (Option.some.inj hp).symm

end Ninja
